import Mathlib

/-!
# SSPROP split-step Fourier propagators (ssprop-3.0.1)

A shallow embedding of `sspropc.c` (scalar propagator) and `sspropvc.c`
(vector propagator) over exact arithmetic.

* `REAL` is an arbitrary linearly ordered field `R`; the theorems take `R = ℝ`.
* `COMPLEX` (`fftw_complex`, i.e. `REAL[2]`) is a pair: `.1` is component `[0]`
  (real part) and `.2` is component `[1]` (imaginary part).
* A length-`nt` buffer is a function on `Fin nt`.
* The functions of `math.h` and the constant `pi` are the fields of `Libm`;
  the FFTW plans are the fields of `Fftw`.
* The static variables of each file are a record `Globals` that `mexFunction`
  takes and returns; a call's arguments are a record `Call`; character data is
  a `String`, and a buffer filled from it is compared as a C string, up to its
  first NUL character.
-/

namespace SSProp

/-- The C type `COMPLEX`: component `[0]` is `.1`, component `[1]` is `.2`. -/
abbrev COMPLEX (R : Type) : Type := R × R

/-- A buffer of `nt` complex samples. -/
abbrev CVec (R : Type) (nt : ℕ) : Type := Fin nt → COMPLEX R

/-- The functions used from `math.h`, and the constant `pi` of the sources
(`#define pi 3.14159265358979323846264338327950288...`). -/
structure Libm (R : Type) where
  cos : R → R
  sin : R → R
  exp : R → R
  sqrt : R → R
  pi : R

/-- The transform provider: `forward` is what executing a `FFTW_FORWARD` plan
computes from its input buffer, `backward` what a `FFTW_BACKWARD` plan computes
(the inverse transform without the factor `1/nt`). -/
structure Fftw (R : Type) (nt : ℕ) where
  forward : CVec R nt → CVec R nt
  backward : CVec R nt → CVec R nt

/-- A MATLAB numeric array of `nt` elements: `pr` is `mxGetPr`, `pi` is
`mxGetPi`, which is absent exactly when `mxIsComplex` is false. -/
structure mxArray (R : Type) (nt : ℕ) where
  pr : Fin nt → R
  pi : Option (Fin nt → R)

/-- Ways a call can stop without a result: `mexErrMsgTxt`, or an access outside
an allocated buffer. -/
inductive Fault where
  | errMsg (msg : String)
  | outOfBounds
  deriving DecidableEq, Repr

section Shared

variable {R : Type} [LinearOrderedField R] {nt : ℕ}

/-- Imaginary part of element `jj` as the sources read it:
`mxIsComplex(a) ? mxGetPi(a)[jj] : 0.0`. -/
def mxArray.im (a : mxArray R nt) (jj : Fin nt) : R :=
  match a.pi with
  | some p => p jj
  | none => 0

/-- Macro `abs2(x)`. -/
def abs2 (x : COMPLEX R) : R := x.1 * x.1 + x.2 * x.2

/-- Macro `prodr(x,y)`. -/
def prodr (x y : COMPLEX R) : R := x.1 * y.1 + x.2 * y.2

/-- Macro `prodi(x,y)`. -/
def prodi (x y : COMPLEX R) : R := x.1 * y.2 - x.2 * y.1

/-- The C test `a / b < t` for `a ≥ 0`: when `b` is zero the quotient is
infinite or NaN and the comparison is false. -/
def quotLt (a b t : R) : Bool :=
  if b = 0 then false else decide (a / b < t)

/-- Read `a[i]` for a C index `i`; `none` when `i` is outside `0..nt-1`. -/
def rd {α : Type} (a : Fin nt → α) (i : ℤ) : Option α :=
  if h : 0 ≤ i ∧ i < (nt : ℤ) then some (a ⟨i.toNat, by omega⟩) else none

/-- Store `a[i] = v` for a C index `i`; `none` when `i` is outside `0..nt-1`. -/
def wr {α : Type} (a : Fin nt → α) (i : ℤ) (v : α) : Option (Fin nt → α) :=
  if h : 0 ≤ i ∧ i < (nt : ℤ) then some (Function.update a ⟨i.toNat, by omega⟩ v) else none

/-- The loop `for (ii = 0, acc = 0, fii = 1, wii = 1; ii < n; ii++, fii*=ii, wii*=w)
acc += wii*coef[ii]/fii;` entered at index `ii` with the coefficients still to
be read. -/
def taylorLoop (w : R) : List R → ℕ → R → R → R → R
  | [], _, acc, _, _ => acc
  | c :: rest, ii, acc, fii, wii =>
      taylorLoop w rest (ii + 1) (acc + wii * c / fii) (fii * ((ii + 1 : ℕ) : R)) (wii * w)

/-- The Taylor loop run from its initial state. -/
def taylor (w : R) (coef : List R) : R := taylorLoop w coef 0 0 1 1

/-- Value selected from a coefficient list at frequency index `jj`: the list
element `coef[jj]` when the list has `nt` elements, the Taylor loop otherwise. -/
def coefAt (coef : List R) (w : Fin nt → R) (jj : Fin nt) : R :=
  if h : coef.length = nt then coef.get (Fin.cast h.symm jj) else taylor (w jj) coef

end Shared

/-! ## sspropvc.c -/

namespace Sspropvc

section Defs

variable {R : Type} [LinearOrderedField R] {nt : ℕ}

/-- `cscale(a,b,x,y,factor,nt)`: returns the new `(a, x)`. -/
def cscale (b y : CVec R nt) (factor : R) : CVec R nt × CVec R nt :=
  (fun jj => (factor * (b jj).1, factor * (b jj).2),
   fun jj => (factor * (y jj).1, factor * (y jj).2))

/-- `rotate_coord(u0a,u0b,ux,uy,chi,psi,nt)`: returns the new `(u0a, u0b)`. -/
def rotate_coord (M : Libm R) (ux uy : mxArray R nt) (chi psi : R) :
    CVec R nt × CVec R nt :=
  let cc := M.cos psi * M.cos chi
  let ss := M.sin psi * M.sin chi
  let sc := M.sin psi * M.cos chi
  let cs := M.cos psi * M.sin chi
  match ux.pi, uy.pi with
  | some uxi, some uyi =>
      (fun jj => (cc * ux.pr jj + ss * uxi jj + sc * uy.pr jj - cs * uyi jj,
                  cc * uxi jj - ss * ux.pr jj + sc * uyi jj + cs * uy.pr jj),
       fun jj => (-sc * ux.pr jj - cs * uxi jj + cc * uy.pr jj - ss * uyi jj,
                  -sc * uxi jj + cs * ux.pr jj + cc * uyi jj + ss * uy.pr jj))
  | some uxi, none =>
      (fun jj => (cc * ux.pr jj + ss * uxi jj + sc * uy.pr jj,
                  cc * uxi jj - ss * ux.pr jj + cs * uy.pr jj),
       fun jj => (-sc * ux.pr jj - cs * uxi jj + cc * uy.pr jj,
                  -sc * uxi jj + cs * ux.pr jj + ss * uy.pr jj))
  | none, some uyi =>
      (fun jj => (cc * ux.pr jj + sc * uy.pr jj - cs * uyi jj,
                  -ss * ux.pr jj + sc * uyi jj + cs * uy.pr jj),
       fun jj => (-sc * ux.pr jj + cc * uy.pr jj - ss * uyi jj,
                  cs * ux.pr jj + cc * uyi jj + ss * uy.pr jj))
  | none, none =>
      (fun jj => (cc * ux.pr jj + sc * uy.pr jj,
                  -ss * ux.pr jj + cs * uy.pr jj),
       fun jj => (-sc * ux.pr jj + cc * uy.pr jj,
                  cs * ux.pr jj + ss * uy.pr jj))

/-- `inv_rotate_coord(u1x,u1y,u1a,u1b,chi,psi,nt)`: returns the new `(u1x, u1y)`,
both complex arrays (`mxCreateDoubleMatrix(nt,1,mxCOMPLEX)`). -/
def inv_rotate_coord (M : Libm R) (u1a u1b : CVec R nt) (chi psi : R) :
    mxArray R nt × mxArray R nt :=
  let cc := M.cos psi * M.cos chi
  let ss := M.sin psi * M.sin chi
  let sc := M.sin psi * M.cos chi
  let cs := M.cos psi * M.sin chi
  ({ pr := fun jj => cc * (u1a jj).1 - ss * (u1a jj).2 - sc * (u1b jj).1 + cs * (u1b jj).2
     pi := some fun jj =>
       cc * (u1a jj).2 + ss * (u1a jj).1 - sc * (u1b jj).2 - cs * (u1b jj).1 },
   { pr := fun jj => sc * (u1a jj).1 + cs * (u1a jj).2 + cc * (u1b jj).1 + ss * (u1b jj).2
     pi := some fun jj =>
       sc * (u1a jj).2 - cs * (u1a jj).1 + cc * (u1b jj).2 - ss * (u1b jj).1 })

/-- `compute_w(w,dt,nt)`: the two loops store `w[jj]` for `jj = 0..(nt-1)/2` and
then for the remaining `jj < nt`; `none` when a store falls outside the buffer.
(`(nt-1)/2` is C integer division, which for `nt ≥ 0` is the truncated natural
number expression used here, `0` when `nt = 0`.) -/
def compute_w (M : Libm R) (w : Fin nt → R) (dt : R) : Option (Fin nt → R) := do
  let w ← (List.range ((nt - 1) / 2 + 1)).foldlM
    (fun w (jj : ℕ) => wr w (jj : ℤ) (2 * M.pi * (jj : R) / (dt * (nt : R)))) w
  (List.range' ((nt - 1) / 2 + 1) (nt - ((nt - 1) / 2 + 1))).foldlM
    (fun w (jj : ℕ) => wr w (jj : ℤ) (2 * M.pi * (jj : R) / (dt * (nt : R)) - 2 * M.pi / dt)) w

/-- `compute_hahb(ha,hb,alphaa,alphab,betaa,betab,w,dz,nt)`: returns the new
`(ha, hb)`. -/
def compute_hahb (M : Libm R) (alphaa alphab betaa betab : List R) (w : Fin nt → R)
    (dz : R) : CVec R nt × CVec R nt :=
  (fun jj =>
     let aa := coefAt alphaa w jj
     let phasea := coefAt betaa w jj
     (M.exp (-aa * dz / 4) * M.cos (phasea * dz / 2),
      -M.exp (-aa * dz / 4) * M.sin (phasea * dz / 2)),
   fun jj =>
     let ab := coefAt alphab w jj
     let phaseb := coefAt betab w jj
     (M.exp (-ab * dz / 4) * M.cos (phaseb * dz / 2),
      -M.exp (-ab * dz / 4) * M.sin (phaseb * dz / 2)))

/-- The four buffers `h11, h12, h21, h22`. -/
structure HMatrix (R : Type) (nt : ℕ) where
  h11 : CVec R nt
  h12 : CVec R nt
  h21 : CVec R nt
  h22 : CVec R nt

/-- `compute_H(h11,h12,h21,h22,ha,hb,chi,psi,nt)`. -/
def compute_H (M : Libm R) (ha hb : CVec R nt) (chi psi : R) : HMatrix R nt :=
  let halfPsin := 1 / 2 + 1 / 2 * M.sin (2 * chi)
  let halfMsin := 1 / 2 - 1 / 2 * M.sin (2 * chi)
  let sincos := 1 / 2 * M.sin (2 * psi) * M.cos (2 * chi)
  let coscos := 1 / 2 * M.cos (2 * psi) * M.cos (2 * chi)
  { h11 := fun jj => (halfPsin * (ha jj).1 + halfMsin * (hb jj).1,
                      halfPsin * (ha jj).2 + halfMsin * (hb jj).2)
    h12 := fun jj => (sincos * ((ha jj).1 - (hb jj).1) + coscos * ((ha jj).2 - (hb jj).2),
                      sincos * ((ha jj).2 - (hb jj).2) - coscos * ((ha jj).1 - (hb jj).1))
    h21 := fun jj => (sincos * ((ha jj).1 - (hb jj).1) - coscos * ((ha jj).2 - (hb jj).2),
                      sincos * ((ha jj).2 - (hb jj).2) + coscos * ((ha jj).1 - (hb jj).1))
    h22 := fun jj => (halfMsin * (ha jj).1 + halfPsin * (hb jj).1,
                      halfMsin * (ha jj).2 + halfPsin * (hb jj).2) }

/-- `prop_linear_ellipt(uZa,uZb,ha,hb,u0a,u0b,nt)`: returns the new `(uZa, uZb)`. -/
def prop_linear_ellipt (ha hb u0a u0b : CVec R nt) : CVec R nt × CVec R nt :=
  (fun jj => ((ha jj).1 * (u0a jj).1 - (ha jj).2 * (u0a jj).2,
              (ha jj).1 * (u0a jj).2 + (ha jj).2 * (u0a jj).1),
   fun jj => ((hb jj).1 * (u0b jj).1 - (hb jj).2 * (u0b jj).2,
              (hb jj).1 * (u0b jj).2 + (hb jj).2 * (u0b jj).1))

/-- `prop_linear_circ(uZa,uZb,h11,h12,h21,h22,u0a,u0b,nt)`: returns the new
`(uZa, uZb)`. -/
def prop_linear_circ (H : HMatrix R nt) (u0a u0b : CVec R nt) : CVec R nt × CVec R nt :=
  (fun jj => ((H.h11 jj).1 * (u0a jj).1 + (H.h12 jj).1 * (u0b jj).1 -
                (H.h11 jj).2 * (u0a jj).2 - (H.h12 jj).2 * (u0b jj).2,
              (H.h11 jj).1 * (u0a jj).2 + (H.h12 jj).1 * (u0b jj).2 +
                (H.h11 jj).2 * (u0a jj).1 + (H.h12 jj).2 * (u0b jj).1),
   fun jj => ((H.h21 jj).1 * (u0a jj).1 + (H.h22 jj).1 * (u0b jj).1 -
                (H.h21 jj).2 * (u0a jj).2 - (H.h22 jj).2 * (u0b jj).2,
              (H.h21 jj).1 * (u0a jj).2 + (H.h22 jj).1 * (u0b jj).2 +
                (H.h21 jj).2 * (u0a jj).1 + (H.h22 jj).2 * (u0b jj).1))

/-- `nonlinear_propagate(uva,uvb,uahalf,ubhalf,u0a,u0b,u1a,u1b,gamma,dz,chi,nt)`:
returns the new `(uva, uvb)`. -/
def nonlinear_propagate (M : Libm R) (uahalf ubhalf u0a u0b u1a u1b : CVec R nt)
    (gamma dz chi : R) : CVec R nt × CVec R nt :=
  let coef := (1 / 3) * gamma * dz
  let twoPcos := (2 + M.cos (2 * chi) * M.cos (2 * chi)) / 2
  let twoPsin := (2 + 2 * M.sin (2 * chi) * M.sin (2 * chi)) / 2
  (fun jj =>
     ((uahalf jj).1 * M.cos (coef * (twoPcos * (abs2 (u0a jj) + abs2 (u1a jj)) +
                                     twoPsin * (abs2 (u0b jj) + abs2 (u1b jj)))) +
      (uahalf jj).2 * M.sin (coef * (twoPcos * (abs2 (u0a jj) + abs2 (u1a jj)) +
                                     twoPsin * (abs2 (u0b jj) + abs2 (u1b jj)))),
      (uahalf jj).2 * M.cos (coef * (twoPcos * (abs2 (u0a jj) + abs2 (u1a jj)) +
                                     twoPsin * (abs2 (u0b jj) + abs2 (u1b jj)))) -
      (uahalf jj).1 * M.sin (coef * (twoPcos * (abs2 (u0a jj) + abs2 (u1a jj)) +
                                     twoPsin * (abs2 (u0b jj) + abs2 (u1b jj))))),
   fun jj =>
     ((ubhalf jj).1 * M.cos (coef * (twoPcos * (abs2 (u0b jj) + abs2 (u1b jj)) +
                                     twoPsin * (abs2 (u0a jj) + abs2 (u1a jj)))) +
      (ubhalf jj).2 * M.sin (coef * (twoPcos * (abs2 (u0b jj) + abs2 (u1b jj)) +
                                     twoPsin * (abs2 (u0a jj) + abs2 (u1a jj)))),
      (ubhalf jj).2 * M.cos (coef * (twoPcos * (abs2 (u0b jj) + abs2 (u1b jj)) +
                                     twoPsin * (abs2 (u0a jj) + abs2 (u1a jj)))) -
      (ubhalf jj).1 * M.sin (coef * (twoPcos * (abs2 (u0b jj) + abs2 (u1b jj)) +
                                     twoPsin * (abs2 (u0a jj) + abs2 (u1a jj))))))

/-- The accumulators `(num, denom)` of `is_converged` after its loop over `jj`. -/
def is_converged_sums (uva u1a uvb u1b : CVec R nt) : R × R :=
  (List.finRange nt).foldl
    (fun acc jj =>
      (acc.1 + (((uva jj).1 / (nt : R) - (u1a jj).1) * ((uva jj).1 / (nt : R) - (u1a jj).1) +
                ((uva jj).2 / (nt : R) - (u1a jj).2) * ((uva jj).2 / (nt : R) - (u1a jj).2) +
                ((uvb jj).1 / (nt : R) - (u1b jj).1) * ((uvb jj).1 / (nt : R) - (u1b jj).1) +
                ((uvb jj).2 / (nt : R) - (u1b jj).2) * ((uvb jj).2 / (nt : R) - (u1b jj).2)),
       acc.2 + (abs2 (u1a jj) + abs2 (u1b jj))))
    (0, 0)

/-- `is_converged(uva,u1a,uvb,u1b,tol,nt)`. -/
def is_converged (M : Libm R) (uva u1a uvb u1b : CVec R nt) (tol : R) : Bool :=
  quotLt (M.sqrt (is_converged_sums uva u1a uvb u1b).1)
    (M.sqrt (is_converged_sums uva u1a uvb u1b).2) tol

/-- The buffers of `sspropvc.c`'s `mexFunction`. -/
structure Workspace (R : Type) (nt : ℕ) where
  u0a : CVec R nt
  u0b : CVec R nt
  uafft : CVec R nt
  ubfft : CVec R nt
  uahalf : CVec R nt
  ubhalf : CVec R nt
  uva : CVec R nt
  uvb : CVec R nt
  u1a : CVec R nt
  u1b : CVec R nt

/-- Body of the `do ... while` convergence loop (the same text in both methods,
`lin` being the method's linear propagation and `chi` the angle it passes to
`nonlinear_propagate`); returns the workspace and `converged`. -/
def iterate (M : Libm R) (P : Fftw R nt)
    (lin : CVec R nt → CVec R nt → CVec R nt × CVec R nt) (chi gamma dz tol : R)
    (ws : Workspace R nt) : Workspace R nt × Bool :=
  let nl := nonlinear_propagate M ws.uahalf ws.ubhalf ws.u0a ws.u0b ws.u1a ws.u1b gamma dz chi
  let ws := { ws with uva := nl.1, uvb := nl.2 }
  let ws := { ws with uva := P.forward ws.uva }
  let ws := { ws with uvb := P.forward ws.uvb }
  let l := lin ws.uva ws.uvb
  let ws := { ws with uafft := l.1, ubfft := l.2 }
  let ws := { ws with uva := P.backward ws.uafft }
  let ws := { ws with uvb := P.backward ws.ubfft }
  let converged := is_converged M ws.uva ws.u1a ws.uvb ws.u1b tol
  let s := cscale ws.uva ws.uvb (1 / (nt : R))
  ({ ws with u1a := s.1, u1b := s.2 }, converged)

/-- The loop `ii = 0; do { body; ii++; } while (!converged && ii < maxiter);`
entered with counter `ii`; the first argument is the number of further
iterations the bound `maxiter` still allows after this one. Returns the final
`ii` and workspace. -/
def doWhile (body : Workspace R nt → Workspace R nt × Bool) (maxiter : ℤ) :
    ℕ → ℤ → Workspace R nt → ℤ × Workspace R nt
  | 0, ii, ws => (ii + 1, (body ws).1)
  | n + 1, ii, ws =>
      if (body ws).2 = false ∧ ii + 1 < maxiter then doWhile body maxiter n (ii + 1) (body ws).1
      else (ii + 1, (body ws).1)

/-- One pass of the `for(iz=1; iz <= nz; iz++)` body; returns the workspace and
whether the failed-to-converge warning was printed. -/
def zstep (M : Libm R) (P : Fftw R nt)
    (lin : CVec R nt → CVec R nt → CVec R nt × CVec R nt) (chi gamma dz tol : R)
    (maxiter : ℤ) (ws : Workspace R nt) : Workspace R nt × Bool :=
  let l := lin ws.uafft ws.ubfft
  let ws := { ws with uahalf := l.1, ubhalf := l.2 }
  let ws := { ws with uahalf := P.backward ws.uahalf }
  let ws := { ws with ubhalf := P.backward ws.ubhalf }
  let s := cscale ws.uahalf ws.ubhalf (1 / (nt : R))
  let ws := { ws with uahalf := s.1, ubhalf := s.2 }
  let r := doWhile (iterate M P lin chi gamma dz tol) maxiter (maxiter - 1).toNat 0 ws
  let ws := r.2
  let warned := decide (r.1 = maxiter)
  let s := cscale ws.u1a ws.u1b 1
  ({ ws with u0a := s.1, u0b := s.2 }, warned)

/-- The `for(iz=1; iz <= nz; iz++)` loop with `n` passes to go; the warnings are
listed in step order. -/
def zloop (step : Workspace R nt → Workspace R nt × Bool) :
    ℕ → Workspace R nt → Workspace R nt × List Bool
  | 0, ws => (ws, [])
  | n + 1, ws => ((zloop step n (step ws).1).1, (step ws).2 :: (zloop step n (step ws).1).2)

/-- One method branch of `mexFunction` from `rotate_coord` to `inv_rotate_coord`:
`chi`, `psi` are the angles the branch passes to the rotations and to
`nonlinear_propagate`. Returns `(u1x, u1y)` and the per-step warnings. -/
def method_branch (M : Libm R) (P : Fftw R nt)
    (lin : CVec R nt → CVec R nt → CVec R nt × CVec R nt) (chi psi gamma dz tol : R)
    (maxiter nz : ℤ) (u0x u0y : mxArray R nt) (ws : Workspace R nt) :
    (mxArray R nt × mxArray R nt) × List Bool :=
  let r := rotate_coord M u0x u0y chi psi
  let ws := { ws with u0a := r.1, u0b := r.2 }
  let s := cscale ws.u0a ws.u0b 1
  let ws := { ws with u1a := s.1, u1b := s.2 }
  let ws := { ws with uafft := P.forward ws.u0a }
  let ws := { ws with ubfft := P.forward ws.u0b }
  let r := zloop (zstep M P lin chi gamma dz tol maxiter) nz.toNat ws
  (inv_rotate_coord M r.1.u1a r.1.u1b chi psi, r.2)

/-- The elliptical branch of `mexFunction`. -/
def elliptical_method (M : Libm R) (P : Fftw R nt) (ha hb : CVec R nt)
    (chi psi gamma dz tol : R) (maxiter nz : ℤ) (u0x u0y : mxArray R nt)
    (ws : Workspace R nt) : (mxArray R nt × mxArray R nt) × List Bool :=
  method_branch M P (prop_linear_ellipt ha hb) chi psi gamma dz tol maxiter nz u0x u0y ws

/-- The circular branch of `mexFunction`: `chi`, `psi` reach `compute_H` only;
the rotations and `nonlinear_propagate` are called with `pi/4` and `0`. -/
def circular_method (M : Libm R) (P : Fftw R nt) (ha hb : CVec R nt)
    (chi psi gamma dz tol : R) (maxiter nz : ℤ) (u0x u0y : mxArray R nt)
    (ws : Workspace R nt) : (mxArray R nt × mxArray R nt) × List Bool :=
  method_branch M P (prop_linear_circ (compute_H M ha hb chi psi)) (M.pi / 4) 0
    gamma dz tol maxiter nz u0x u0y ws

/-- The numerical part of `mexFunction` (from `compute_w` on) for parsed
arguments; `elliptical` is the flag set from the method string, `w0` and `ws`
the contents of the freshly allocated buffers. -/
def propagate (M : Libm R) (P : Fftw R nt) (u0x u0y : mxArray R nt) (dt dz : R) (nz : ℤ)
    (alphaa alphab betaa betab : List R) (gamma psi chi : R) (elliptical : Bool)
    (maxiter : ℤ) (tol : R) (w0 : Fin nt → R) (ws : Workspace R nt) :
    Except Fault ((mxArray R nt × mxArray R nt) × List Bool) :=
  match compute_w M w0 dt with
  | none => .error .outOfBounds
  | some w =>
      let h := compute_hahb M alphaa alphab betaa betab w dz
      if elliptical then
        .ok (elliptical_method M P h.1 h.2 chi psi gamma dz tol maxiter nz u0x u0y ws)
      else
        .ok (circular_method M P h.1 h.2 chi psi gamma dz tol maxiter nz u0x u0y ws)

end Defs

end Sspropvc

/-! ## sspropc.c -/

namespace Sspropc

section Defs

variable {R : Type} [LinearOrderedField R] {nt : ℕ}

/-- `cmult(a,b,c)`: returns the new `a = b.*c`. -/
def cmult (b c : CVec R nt) : CVec R nt :=
  fun jj => ((b jj).1 * (c jj).1 - (b jj).2 * (c jj).2,
             (b jj).1 * (c jj).2 + (b jj).2 * (c jj).1)

/-- `cscale(a,b,factor)`: returns the new `a = factor*b`. -/
def cscale (b : CVec R nt) (factor : R) : CVec R nt :=
  fun jj => (factor * (b jj).1, factor * (b jj).2)

/-- The accumulators `(num, denom)` of `ssconverged` after its loop over `jj`. -/
def ssconverged_sums (a b : CVec R nt) : R × R :=
  (List.finRange nt).foldl
    (fun acc jj =>
      (acc.1 + (((b jj).1 - (a jj).1 / (nt : R)) * ((b jj).1 - (a jj).1 / (nt : R)) +
                ((b jj).2 - (a jj).2 / (nt : R)) * ((b jj).2 - (a jj).2 / (nt : R))),
       acc.2 + ((b jj).1 * (b jj).1 + (b jj).2 * (b jj).2)))
    (0, 0)

/-- `ssconverged(a,b,t)`. -/
def ssconverged (a b : CVec R nt) (t : R) : Bool :=
  quotLt (ssconverged_sums a b).1 (ssconverged_sums a b).2 t

/-- The global workspace vectors of `sspropc.c`. -/
structure Workspace (R : Type) (nt : ℕ) where
  u0 : CVec R nt
  ufft : CVec R nt
  uhalf : CVec R nt
  uv : CVec R nt
  u1 : CVec R nt
  halfstep : CVec R nt

/-- The two loops of `mexFunction` that fill `w` (lines 297-302); `none` when a
store falls outside the buffer. -/
def wspace (M : Libm R) (w : Fin nt → R) (dt : R) : Option (Fin nt → R) := do
  let w ← (List.range ((nt - 1) / 2 + 1)).foldlM
    (fun w (ii : ℕ) => wr w (ii : ℤ) (2 * M.pi * (ii : R) / (dt * (nt : R)))) w
  (List.range' ((nt - 1) / 2 + 1) (nt - ((nt - 1) / 2 + 1))).foldlM
    (fun w (ii : ℕ) => wr w (ii : ℤ) (2 * M.pi * (ii : R) / (dt * (nt : R)) - 2 * M.pi / dt)) w

/-- The value `alpha` of line 314, `(nalpha == nt) ? alphap[jj] : alphap[0]`, for
an `alphap` that passed the length check. -/
def alphaAt (alphap : List R) (h : alphap.length = 1 ∨ alphap.length = nt) (jj : Fin nt) : R :=
  if hn : alphap.length = nt then alphap.get (Fin.cast hn.symm jj)
  else alphap.get ⟨0, by omega⟩

/-- The loop of lines 306-321: fills `halfstep`, `u0` and `u1`. -/
def setup (M : Libm R) (u : mxArray R nt) (alphap beta : List R)
    (h : alphap.length = 1 ∨ alphap.length = nt) (w : Fin nt → R) (dz : R)
    (ws : Workspace R nt) : Workspace R nt :=
  { ws with
    halfstep := fun jj =>
      let phase := coefAt beta w jj
      let alpha := alphaAt alphap h jj
      (M.exp (-alpha * dz / 4) * M.cos (phase * dz / 2),
       -M.exp (-alpha * dz / 4) * M.sin (phase * dz / 2))
    u0 := fun jj => (u.pr jj, u.im jj)
    u1 := fun jj => (u.pr jj, u.im jj) }

/-- The branch taken when `traman == 0.0 && toptical == 0` (lines 335-344). -/
def kerr_path (M : Libm R) (gamma dz : R) (ws : Workspace R nt) : Workspace R nt :=
  { ws with
    uv := fun jj =>
      let phase := gamma * ((ws.u0 jj).1 * (ws.u0 jj).1 + (ws.u0 jj).2 * (ws.u0 jj).2 +
                            (ws.u1 jj).1 * (ws.u1 jj).1 + (ws.u1 jj).2 * (ws.u1 jj).2) * dz / 2
      (((ws.uhalf jj).1 * M.cos phase + (ws.uhalf jj).2 * M.sin phase) / (nt : R),
       (-(ws.uhalf jj).1 * M.sin phase + (ws.uhalf jj).2 * M.cos phase) / (nt : R)) }

/-- The pair `(nlp[0], nlp[1])` one snapshot contributes, from its samples
`ua`, `ub`, `uc` at three adjacent times. -/
def nlp_term (M : Libm R) (traman toptical dt : R) (ua ub uc : COMPLEX R) : COMPLEX R :=
  (abs2 ub - traman * (abs2 uc - abs2 ua) / (2 * dt) +
     toptical * (prodi ub uc - prodi ub ua) / (4 * M.pi * dt),
   -toptical * (abs2 uc - abs2 ua + prodr ub uc - prodr ub ua) / (4 * M.pi * dt))

/-- The scaled `nlp` from the two snapshots: both parts multiplied by
`gamma*dz/2`. -/
def nlp_scaled (M : Libm R) (gamma dz traman toptical dt : R)
    (ua0 ub0 uc0 ua1 ub1 uc1 : COMPLEX R) : COMPLEX R :=
  (((nlp_term M traman toptical dt ua0 ub0 uc0).1 +
      (nlp_term M traman toptical dt ua1 ub1 uc1).1) * (gamma * dz / 2),
   ((nlp_term M traman toptical dt ua0 ub0 uc0).2 +
      (nlp_term M traman toptical dt ua1 ub1 uc1).2) * (gamma * dz / 2))

/-- The value stored in `uv[jj]` from `uhalf[jj]` and the scaled `nlp`. -/
def apply_nlp (M : Libm R) (nt : ℕ) (uh nlp : COMPLEX R) : COMPLEX R :=
  ((uh.1 * M.cos nlp.1 * M.exp nlp.2 + uh.2 * M.sin nlp.1 * M.exp nlp.2) / (nt : R),
   (-uh.1 * M.sin nlp.1 * M.exp nlp.2 + uh.2 * M.cos nlp.1 * M.exp nlp.2) / (nt : R))

/-- One sample of the general branch: `ua`, `ub`, `uc` point at elements `ia`,
`jj`, `ic` of `u0` and then of `u1`, and `uv[jj]` is stored. -/
def general_sample (M : Libm R) (gamma dz traman toptical dt : R) (ia jj ic : ℤ)
    (ws : Workspace R nt) : Option (Workspace R nt) := do
  let ua0 ← rd ws.u0 ia
  let ub0 ← rd ws.u0 jj
  let uc0 ← rd ws.u0 ic
  let ua1 ← rd ws.u1 ia
  let ub1 ← rd ws.u1 jj
  let uc1 ← rd ws.u1 ic
  let uh ← rd ws.uhalf jj
  let uv ← wr ws.uv jj
    (apply_nlp M nt uh (nlp_scaled M gamma dz traman toptical dt ua0 ub0 uc0 ua1 ub1 uc1))
  pure { ws with uv := uv }

/-- The general branch (lines 348-410): the sample `jj = 0`, the loop
`for (jj = 1; jj < nt-1; jj++)`, and the endpoint at the value `jj` has when that
loop ends. -/
def general_path (M : Libm R) (gamma dz traman toptical dt : R) (ws : Workspace R nt) :
    Option (Workspace R nt) := do
  let ws ← general_sample M gamma dz traman toptical dt ((nt : ℤ) - 1) 0 (0 + 1) ws
  let ws ← (List.range' 1 (nt - 2)).foldlM
    (fun ws (jj : ℕ) =>
      general_sample M gamma dz traman toptical dt ((jj : ℤ) - 1) (jj : ℤ) ((jj : ℤ) + 1) ws)
    ws
  let jj : ℤ := if 1 < (nt : ℤ) - 1 then (nt : ℤ) - 1 else 1
  general_sample M gamma dz traman toptical dt (jj - 1) jj 0 ws

/-- Body of the loop over `ii` (lines 333-421); returns the workspace and
whether `ssconverged` held. -/
def iterate (M : Libm R) (P : Fftw R nt) (gamma dz traman toptical dt tol : R)
    (ws : Workspace R nt) : Option (Workspace R nt × Bool) := do
  let ws ← if traman = 0 ∧ toptical = 0 then some (kerr_path M gamma dz ws)
    else general_path M gamma dz traman toptical dt ws
  let ws := { ws with uv := P.forward ws.uv }
  let ws := { ws with ufft := cmult ws.uv ws.halfstep }
  let ws := { ws with uv := P.backward ws.ufft }
  let converged := ssconverged ws.uv ws.u1 tol
  pure ({ ws with u1 := cscale ws.uv (1 / (nt : R)) }, converged)

/-- The loop `for (ii = 0; ii < maxiter; ii++) { body; if converged break; }`
entered with counter `ii` and `n` passes still allowed by `maxiter`. Returns the
final `ii` and workspace. -/
def forLoop (body : Workspace R nt → Option (Workspace R nt × Bool)) :
    ℕ → ℤ → Workspace R nt → Option (ℤ × Workspace R nt)
  | 0, ii, ws => some (ii, ws)
  | n + 1, ii, ws =>
      match body ws with
      | none => none
      | some r => if r.2 then some (ii, r.1) else forLoop body n (ii + 1) r.1

/-- One pass of the loop over `iz` (lines 329-425); returns the workspace and
whether the warning was raised. -/
def zstep (M : Libm R) (P : Fftw R nt) (gamma dz traman toptical dt tol : R) (maxiter : ℤ)
    (ws : Workspace R nt) : Option (Workspace R nt × Bool) :=
  let ws := { ws with uhalf := cmult ws.halfstep ws.ufft }
  let ws := { ws with uhalf := P.backward ws.uhalf }
  match forLoop (iterate M P gamma dz traman toptical dt tol) maxiter.toNat 0 ws with
  | none => none
  | some r => some ({ r.2 with u0 := cscale r.2.u1 1 }, decide (r.1 = maxiter))

/-- The loop `for (iz = 0; iz < nz; iz++)` with `n` passes to go; the warnings
are listed in step order. -/
def zloop (step : Workspace R nt → Option (Workspace R nt × Bool)) :
    ℕ → Workspace R nt → Option (Workspace R nt × List Bool)
  | 0, ws => some (ws, [])
  | n + 1, ws =>
      match step ws with
      | none => none
      | some r =>
          match zloop step n r.1 with
          | none => none
          | some q => some (q.1, r.2 :: q.2)

/-- The numerical part of `mexFunction` (from the length check of line 291 on)
for parsed arguments; `w0` and `ws` are the contents of the freshly allocated
buffers. Returns the output array and the per-step warnings. -/
def propagate (M : Libm R) (P : Fftw R nt) (u : mxArray R nt) (dt dz : R) (nz : ℤ)
    (alphap beta : List R) (gamma traman toptical : R) (maxiter : ℤ) (tol : R)
    (w0 : Fin nt → R) (ws : Workspace R nt) : Except Fault (mxArray R nt × List Bool) :=
  if h : alphap.length = 1 ∨ alphap.length = nt then
    match wspace M w0 dt with
    | none => .error .outOfBounds
    | some w =>
        let ws := setup M u alphap beta h w dz ws
        let ws := { ws with ufft := P.forward ws.u0 }
        match zloop (zstep M P gamma dz traman toptical dt tol maxiter) nz.toNat ws with
        | none => .error .outOfBounds
        | some r =>
            .ok ({ pr := fun jj => (r.1.u1 jj).1, pi := some fun jj => (r.1.u1 jj).2 }, r.2)
  else .error (.errMsg "Invalid vector length (alpha).")

end Defs

end Sspropc

/-! ## The gateway functions

`mexFunction` of each file, from the argument counts to the returned arrays.
An argument list is a record: each field is what the accessor the source
applies to that argument returns; a field at or beyond `nrhs` is never read. -/

/-- The planner flag kept in the static variable `method`. -/
inductive Planner where
  | patient
  | exhaustive
  | measure
  | estimate
  deriving DecidableEq, Repr

/-- What opening and importing the wisdom file finds. -/
inductive WisdomFile where
  | absent
  | importable
  | unreadable
  deriving DecidableEq, Repr

/-- A character buffer read as a C string, the way `strcmp` reads it: the
characters before the first NUL. -/
def cstr (s : String) : String :=
  String.mk (s.data.takeWhile fun ch => ch ≠ Char.ofNat 0)

/-- `mxGetString(a, buf, buflen)` for an argument whose character data is `a`
(`none` when the argument is not a character array): the C string left in `buf`
when the call returns 0, that is the data up to its first NUL character; `none`
when the call returns nonzero, which it does for a non-character argument and
for data that does not fit in `buflen - 1` characters. -/
def mxGetString (a : Option String) (buflen : ℕ) : Option String :=
  match a with
  | none => none
  | some str => if str.length < buflen then some (cstr str) else none

section Gateway

variable {R : Type} [LinearOrderedField R] [FloorRing R] {nt : ℕ}

/-- Macro `round(x)`, `((int)(x+0.5))`: the conversion to `int` drops the
fractional part, toward zero (values within the range of `int`). -/
def round (x : R) : ℤ :=
  if 0 ≤ x + 1 / 2 then ⌊x + 1 / 2⌋ else ⌈x + 1 / 2⌉

end Gateway

namespace Sspropc

/-- The process-wide variables of `sspropc.c`. -/
structure Globals where
  nt : ℤ
  firstcall : Bool
  allocated : Bool
  method : Planner
  deriving DecidableEq, Repr

/-- The arguments of one call of `sspropc`: `argstr` is the character data of
`prhs[0]`, `u0` the numeric data of `prhs[0]`, `dt`, `dz`, `nz`, `gamma` the
`mxGetScalar` of `prhs[1]`, `prhs[2]`, `prhs[3]`, `prhs[6]`, `alphap` and `beta`
the data of `prhs[4]` and `prhs[5]`, and `traman`, `toptical`, `maxiter`, `tol`
the `mxGetScalar` of `prhs[7]` to `prhs[10]`, `none` for an empty array. -/
structure Call (R : Type) (nt : ℕ) where
  nlhs : ℤ
  nrhs : ℤ
  argstr : Option String
  u0 : mxArray R nt
  dt : R
  dz : R
  nz : R
  alphap : List R
  beta : List R
  gamma : R
  traman : Option R
  toptical : Option R
  maxiter : Option R
  tol : Option R

section Gateway

variable {R : Type} [LinearOrderedField R] [FloorRing R] {nt : ℕ}

/-- `sspropc_initialize_data(n)`: the effect on the process-wide variables
(the wisdom file is read on the first call, the buffers and plans are
created). -/
def sspropc_initialize_data (g : Globals) (n : ℤ) : Globals :=
  { g with nt := n, firstcall := false, allocated := true }

/-- `sspropc_destroy_data()`: the effect on the process-wide variables. -/
def sspropc_destroy_data (g : Globals) : Globals :=
  if g.allocated then { g with nt := 0, allocated := false } else g

/-- The branch `nrhs == 1` of `mexFunction`: an option string. The wisdom
options act on the provider and on the file system only. -/
def option_call (g : Globals) (argstr : Option String) : Globals × Except Fault Unit :=
  match mxGetString argstr 100 with
  | none => (g, .error (.errMsg "Unrecognized option."))
  | some str =>
      if str = "-savewisdom" then (g, .ok ())
      else if str = "-forgetwisdom" then (g, .ok ())
      else if str = "-loadwisdom" then (g, .ok ())
      else if str = "-patient" then ({ g with method := .patient }, .ok ())
      else if str = "-exhaustive" then ({ g with method := .exhaustive }, .ok ())
      else if str = "-measure" then ({ g with method := .measure }, .ok ())
      else if str = "-estimate" then ({ g with method := .estimate }, .ok ())
      else (g, .error (.errMsg "Unrecognized option."))

/-- `mexFunction` of `sspropc.c`. Returns the process-wide variables as the call
leaves them (at the point of the error, for a failed call) and the outcome: the
output array, absent for an option call, with the per-step warnings. `w0` and
`ws` are the contents of the freshly allocated buffers. -/
def mexFunction (M : Libm R) (P : Fftw R nt) (g : Globals) (c : Call R nt)
    (w0 : Fin nt → R) (ws : Workspace R nt) :
    Globals × Except Fault (Option (mxArray R nt) × List Bool) :=
  if c.nrhs = 1 then
    match option_call g c.argstr with
    | (g, .error e) => (g, .error e)
    | (g, .ok _) => (g, .ok (none, []))
  else if c.nrhs < 7 then (g, .error (.errMsg "Not enough input arguments provided."))
  else if c.nlhs > 1 then (g, .error (.errMsg "Too many output arguments."))
  else
    let g := sspropc_initialize_data g (nt : ℤ)
    let nz := round c.nz
    let traman : R := if c.nrhs > 7 then (match c.traman with | none => 0 | some v => v) else 0
    let toptical : R := if c.nrhs > 8 then (match c.toptical with | none => 0 | some v => v) else 0
    let maxiter : ℤ :=
      if c.nrhs > 9 then (match c.maxiter with | none => 4 | some v => round v) else 4
    let tol : R :=
      if c.nrhs > 10 then (match c.tol with | none => 1 / 100000 | some v => v) else 1 / 100000
    match propagate M P c.u0 c.dt c.dz nz c.alphap c.beta c.gamma traman toptical maxiter tol
        w0 ws with
    | .error e => (g, .error e)
    | .ok r => (sspropc_destroy_data g, .ok (some r.1, r.2))

end Gateway

end Sspropc

namespace Sspropvc

/-- The process-wide variables of `sspropvc.c`. -/
structure Globals where
  firstcall : Bool
  allocated : Bool
  method : Planner
  deriving DecidableEq, Repr

/-- The arguments of one call of `sspropvc`: `argstr` is the character data of
`prhs[0]`, `u0x` and `u0y` the numeric data of `prhs[0]` and `prhs[1]`, `dt`,
`dz`, `nz`, `gamma` the `mxGetScalar` of `prhs[2]`, `prhs[3]`, `prhs[4]`,
`prhs[9]`, the four lists the data of `prhs[5]` to `prhs[8]`, `psp0` the
`mxGetScalar` of `prhs[10]` and `psp1` its second element when it has one,
`methodstr` the character data of `prhs[11]`, and `maxiter`, `tol` the
`mxGetScalar` of `prhs[12]`, `prhs[13]`. -/
structure Call (R : Type) (nt : ℕ) where
  nlhs : ℤ
  nrhs : ℤ
  argstr : Option String
  u0x : mxArray R nt
  u0y : mxArray R nt
  dt : R
  dz : R
  nz : R
  alphaa : List R
  alphab : List R
  betaa : List R
  betab : List R
  gamma : R
  psp0 : R
  psp1 : Option R
  methodstr : Option String
  maxiter : R
  tol : R

section Gateway

variable {R : Type} [LinearOrderedField R] [FloorRing R] {nt : ℕ}

/-- `sspropvc_load_wisdom()`: fails when the file opens but cannot be
imported. -/
def sspropvc_load_wisdom (f : WisdomFile) : Except Fault Unit :=
  match f with
  | .unreadable => .error (.errMsg "could not import wisdom.")
  | _ => .ok ()

/-- The branch `nrhs == 1` of `mexFunction`: an option string. -/
def option_call (f : WisdomFile) (g : Globals) (argstr : Option String) :
    Globals × Except Fault Unit :=
  match mxGetString argstr 100 with
  | none => (g, .error (.errMsg "Unrecognized option."))
  | some str =>
      if str = "-savewisdom" then (g, .ok ())
      else if str = "-forgetwisdom" then (g, .ok ())
      else if str = "-loadwisdom" then (g, sspropvc_load_wisdom f)
      else if str = "-patient" then ({ g with method := .patient }, .ok ())
      else if str = "-exhaustive" then ({ g with method := .exhaustive }, .ok ())
      else if str = "-measure" then ({ g with method := .measure }, .ok ())
      else if str = "-estimate" then ({ g with method := .estimate }, .ok ())
      else (g, .error (.errMsg "Unrecognized option."))

/-- The method selection of lines 615-626: the value of the flag `elliptical`,
or the error raised. -/
def method_flag (nrhs : ℤ) (methodstr : Option String) : Except Fault Bool :=
  if nrhs > 11 then
    match mxGetString methodstr 11 with
    | none => .error (.errMsg "incorrect method: elliptical or ciruclar only")
    | some str =>
        if str = "circular" then .ok false
        else if str = "elliptical" then .ok true
        else .error (.errMsg "incorrect method: elliptical or ciruclar only")
  else .ok true

/-- `mexFunction` of `sspropvc.c`. Returns the process-wide variables as the
call leaves them (at the point of the error, for a failed call) and the
outcome: the two output arrays, absent for an option call, with the per-step
warnings. `f` is the state of the wisdom file, `w0` and `ws` the contents of the
freshly allocated buffers. -/
def mexFunction (M : Libm R) (P : Fftw R nt) (f : WisdomFile) (g : Globals) (c : Call R nt)
    (w0 : Fin nt → R) (ws : Workspace R nt) :
    Globals × Except Fault (Option (mxArray R nt × mxArray R nt) × List Bool) :=
  if c.nrhs = 1 then
    match option_call f g c.argstr with
    | (g, .error e) => (g, .error e)
    | (g, .ok _) => (g, .ok (none, []))
  else if c.nrhs < 10 then (g, .error (.errMsg "Not enough input arguments provided."))
  else if c.nlhs > 2 then (g, .error (.errMsg "Too many output arguments."))
  else
    match (if g.firstcall then sspropvc_load_wisdom f else .ok ()) with
    | .error e => (g, .error e)
    | .ok _ =>
        let g := { g with firstcall := false }
        let nz := round c.nz
        let psi : R := if c.nrhs > 10 then c.psp0 else 0
        let chi : R := if c.nrhs > 10 then (match c.psp1 with | none => 0 | some v => v) else 0
        match method_flag c.nrhs c.methodstr with
        | .error e => (g, .error e)
        | .ok elliptical =>
            let maxiter : ℤ := if c.nrhs > 12 then round c.maxiter else 4
            let tol : R := if c.nrhs > 13 then c.tol else 1 / 100000
            let g := { g with allocated := true }
            match propagate M P c.u0x c.u0y c.dt c.dz nz c.alphaa c.alphab c.betaa c.betab
                c.gamma psi chi elliptical maxiter tol w0 ws with
            | .error e => (g, .error e)
            | .ok r => ({ g with allocated := false }, .ok (some r.1, r.2))

end Gateway

end Sspropvc

/-! ## Vocabulary of the statements -/

/-- A `COMPLEX` value over the reals read as a complex number. -/
def toC (z : COMPLEX ℝ) : ℂ := ⟨z.1, z.2⟩

/-- The sum of squared moduli of a buffer. -/
def energy {R : Type} [LinearOrderedField R] {nt : ℕ} (u : CVec R nt) : R := ∑ j, abs2 (u j)

/-- The half-step transfer value for loss `α`, propagation constant `β` and
step `dz`: `H = exp(-α·dz/4)·exp(-i·β·dz/2)`, with the stated real and imaginary
parts, whose square is the full-step factor `exp(-α·dz/2)·exp(-i·β·dz)` and
whose modulus is `exp(-α·dz/4)`, hence `1` when `α = 0`. -/
def IsHalfStep (H : ℂ) (α β dz : ℝ) : Prop :=
  H = (Real.exp (-α * dz / 4) : ℂ) * Complex.exp (-(Complex.I * ((β * dz / 2 : ℝ) : ℂ))) ∧
  H.re = Real.exp (-α * dz / 4) * Real.cos (β * dz / 2) ∧
  H.im = -(Real.exp (-α * dz / 4) * Real.sin (β * dz / 2)) ∧
  H ^ 2 = (Real.exp (-α * dz / 2) : ℂ) * Complex.exp (-(Complex.I * ((β * dz : ℝ) : ℂ))) ∧
  Complex.abs H = Real.exp (-α * dz / 4) ∧
  (α = 0 → Complex.abs H = 1)

/-- Index of the circularly wrapped previous sample, `(j-1) mod nt`. -/
def prevIdx {nt : ℕ} (j : Fin nt) : Fin nt :=
  ⟨(j.val + nt - 1) % nt, Nat.mod_lt _ (by have := j.isLt; omega)⟩

/-- Index of the circularly wrapped next sample, `(j+1) mod nt`. -/
def nextIdx {nt : ℕ} (j : Fin nt) : Fin nt :=
  ⟨(j.val + 1) % nt, Nat.mod_lt _ (by have := j.isLt; omega)⟩

/-- The scaled `nlp` of sample `j` with circularly wrapped neighbours. -/
def nlpAt {R : Type} [LinearOrderedField R] {nt : ℕ} (M : Libm R)
    (gamma dz traman toptical dt : R) (u0 u1 : CVec R nt) (j : Fin nt) : COMPLEX R :=
  Sspropc.nlp_scaled M gamma dz traman toptical dt
    (u0 (prevIdx j)) (u0 j) (u0 (nextIdx j)) (u1 (prevIdx j)) (u1 j) (u1 (nextIdx j))

/-- The angular-frequency grid in closed form: `2π·k/(dt·nt)` for
`k ≤ (nt-1)/2` and `2π·k/(dt·nt) - 2π/dt` for the remaining indices. -/
def wgrid {R : Type} [LinearOrderedField R] (M : Libm R) (nt : ℕ) (dt : R) (k : Fin nt) : R :=
  if k.val ≤ (nt - 1) / 2 then 2 * M.pi * (k.val : R) / (dt * (nt : R))
  else 2 * M.pi * (k.val : R) / (dt * (nt : R)) - 2 * M.pi / dt

/-- Product of two `COMPLEX` values. -/
def cmul {R : Type} [LinearOrderedField R] (c z : COMPLEX R) : COMPLEX R :=
  (c.1 * z.1 - c.2 * z.2, c.1 * z.2 + c.2 * z.1)

/-- The provider is linear: both transforms are additive and commute with
multiplication of every sample by a complex constant. -/
def Fftw.Linear {nt : ℕ} (P : Fftw ℝ nt) : Prop :=
  (∀ x y, P.forward (x + y) = P.forward x + P.forward y) ∧
  (∀ (c : COMPLEX ℝ) x, P.forward (fun j => cmul c (x j)) = fun j => cmul c (P.forward x j)) ∧
  (∀ x y, P.backward (x + y) = P.backward x + P.backward y) ∧
  (∀ (c : COMPLEX ℝ) x, P.backward (fun j => cmul c (x j)) = fun j => cmul c (P.backward x j))

/-- The unnormalized inverse undoes the forward transform up to the factor
`nt`. -/
def Fftw.BackwardForward {nt : ℕ} (P : Fftw ℝ nt) : Prop :=
  ∀ x, P.backward (P.forward x) = fun j => ((nt : ℝ) * (x j).1, (nt : ℝ) * (x j).2)

/-- The forward transform undoes the unnormalized inverse up to the factor
`nt`. -/
def Fftw.ForwardBackward {nt : ℕ} (P : Fftw ℝ nt) : Prop :=
  ∀ x, P.forward (P.backward x) = fun j => ((nt : ℝ) * (x j).1, (nt : ℝ) * (x j).2)

/-- Parseval for both transforms: `Σ|F x|² = nt·Σ|x|²`. -/
def Fftw.Parseval {nt : ℕ} (P : Fftw ℝ nt) : Prop :=
  (∀ x, energy (P.forward x) = (nt : ℝ) * energy x) ∧
  (∀ x, energy (P.backward x) = (nt : ℝ) * energy x)

/-- The sample `z` multiplied by `exp(-i·φ)`, componentwise. -/
def rot {R : Type} [LinearOrderedField R] (M : Libm R) (φ : R) (z : COMPLEX R) : COMPLEX R :=
  (z.1 * M.cos φ + z.2 * M.sin φ, -z.1 * M.sin φ + z.2 * M.cos φ)

/-- The two-point discrete Fourier transform, which is its own unnormalized
inverse. -/
def dft2 {R : Type} [LinearOrderedField R] : Fftw R 2 where
  forward := fun x => ![((x 0).1 + (x 1).1, (x 0).2 + (x 1).2),
                        ((x 0).1 - (x 1).1, (x 0).2 - (x 1).2)]
  backward := fun x => ![((x 0).1 + (x 1).1, (x 0).2 + (x 1).2),
                         ((x 0).1 - (x 1).1, (x 0).2 - (x 1).2)]

/-- The Taylor sum of the spec, `Σ_i coef[i]·ω^i / i!` over the indices of the
list. -/
def taylorSum {R : Type} [LinearOrderedField R] (coef : List R) (ω : R) : R :=
  ∑ i : Fin coef.length, coef.get i * ω ^ (i : ℕ) / ((Nat.factorial i : ℕ) : R)

/-- The discrete Fourier transform computed from its definition, in the
convention of the FFTW plans: forward `Y[k] = Σ_j X[j]·exp(-2πi·jk/nt)`, backward
`Y[k] = Σ_j X[j]·exp(+2πi·jk/nt)`, neither normalized. -/
def dft {R : Type} [LinearOrderedField R] (M : Libm R) (nt : ℕ) : Fftw R nt where
  forward := fun x k => ∑ j : Fin nt,
    cmul (M.cos (2 * M.pi * ((j.val * k.val : ℕ) : R) / (nt : R)),
          -M.sin (2 * M.pi * ((j.val * k.val : ℕ) : R) / (nt : R))) (x j)
  backward := fun x k => ∑ j : Fin nt,
    cmul (M.cos (2 * M.pi * ((j.val * k.val : ℕ) : R) / (nt : R)),
          M.sin (2 * M.pi * ((j.val * k.val : ℕ) : R) / (nt : R))) (x j)

/-- The rotation to the eigenstates written once, for inputs that always carry
explicit real and imaginary components:
`ua = (cos ψ cos χ - i sin ψ sin χ)·ux + (sin ψ cos χ + i cos ψ sin χ)·uy`,
`ub = (-sin ψ cos χ + i cos ψ sin χ)·ux + (cos ψ cos χ + i sin ψ sin χ)·uy`,
as complex products. This is the single implementation the specification sets
against the four storage branches of `rotate_coord`. -/
def rotate_coord_unified {R : Type} [LinearOrderedField R] {nt : ℕ} (M : Libm R)
    (ux uy : CVec R nt) (chi psi : R) : CVec R nt × CVec R nt :=
  (fun jj =>
     cmul (M.cos psi * M.cos chi, -(M.sin psi * M.sin chi)) (ux jj) +
       cmul (M.sin psi * M.cos chi, M.cos psi * M.sin chi) (uy jj),
   fun jj =>
     cmul (-(M.sin psi * M.cos chi), M.cos psi * M.sin chi) (ux jj) +
       cmul (M.cos psi * M.cos chi, M.sin psi * M.sin chi) (uy jj))

/-- The workspace that pass number `k` (counted from 0) of the scalar
convergence loop starts from when no earlier pass has stopped the loop: `k`
applications of the loop body, `none` when one of them leaves its buffers. -/
def passes {R : Type} [LinearOrderedField R] {nt : ℕ}
    (body : Sspropc.Workspace R nt → Option (Sspropc.Workspace R nt × Bool)) :
    ℕ → Sspropc.Workspace R nt → Option (Sspropc.Workspace R nt)
  | 0, ws => some ws
  | k + 1, ws =>
      match body ws with
      | none => none
      | some r => passes body k r.1

/-- The 2×2 matrix of `rotate_coord` for the angles `chi`, `psi`, read off the
code: entry `(i, j)` is output channel `i` (`0` for `u0a`, `1` for `u0b`) on the
one-sample input that is one in channel `j` (`0` for `ux`, `1` for `uy`) and
zero in the other. -/
def rotate_matrix {R : Type} [LinearOrderedField R] (M : Libm R) (chi psi : R)
    (i j : Fin 2) : COMPLEX R :=
  let ux : mxArray R 1 := ⟨fun _ => if j = 0 then 1 else 0, none⟩
  let uy : mxArray R 1 := ⟨fun _ => if j = 0 then 0 else 1, none⟩
  if i = 0 then (Sspropvc.rotate_coord M ux uy chi psi).1 0
  else (Sspropvc.rotate_coord M ux uy chi psi).2 0

/-- The 2×2 matrix of `inv_rotate_coord` for the angles `chi`, `psi`, read off
the code: entry `(i, j)` is output channel `i` (`0` for `u1x`, `1` for `u1y`) on
the one-sample input that is one in channel `j` (`0` for `u1a`, `1` for `u1b`)
and zero in the other. -/
def inv_rotate_matrix {R : Type} [LinearOrderedField R] (M : Libm R) (chi psi : R)
    (i j : Fin 2) : COMPLEX R :=
  let u1a : CVec R 1 := fun _ => if j = 0 then (1, 0) else (0, 0)
  let u1b : CVec R 1 := fun _ => if j = 0 then (0, 0) else (1, 0)
  if i = 0 then
    ((Sspropvc.inv_rotate_coord M u1a u1b chi psi).1.pr 0,
      (Sspropvc.inv_rotate_coord M u1a u1b chi psi).1.im 0)
  else
    ((Sspropvc.inv_rotate_coord M u1a u1b chi psi).2.pr 0,
      (Sspropvc.inv_rotate_coord M u1a u1b chi psi).2.im 0)

/-! ## Lemmas -/

/-! ### Accumulation loops -/

theorem foldl_pair_sum {ι : Type} (f g : ι → ℝ) (l : List ι) (x y : ℝ) :
    l.foldl (fun acc j => (acc.1 + f j, acc.2 + g j)) (x, y)
      = (x + (l.map f).sum, y + (l.map g).sum) := by
  induction l generalizing x y with
  | nil => simp
  | cons a l ih => simp [ih, add_assoc]

theorem normSq_toC (z : COMPLEX ℝ) : Complex.normSq (toC z) = abs2 z := by
  simp [toC, abs2, Complex.normSq_apply]

theorem abs2_nonneg (z : COMPLEX ℝ) : 0 ≤ abs2 z := by
  unfold abs2; nlinarith [mul_self_nonneg z.1, mul_self_nonneg z.2]

theorem abs2_pos {z : COMPLEX ℝ} (h : z ≠ 0) : 0 < abs2 z := by
  rcases z with ⟨a, b⟩
  have hab : a ≠ 0 ∨ b ≠ 0 := by
    by_contra hcon
    push_neg at hcon
    exact h (by rw [hcon.1, hcon.2]; rfl)
  unfold abs2
  rcases hab with ha | hb
  · have := mul_self_pos.mpr ha
    nlinarith [mul_self_nonneg b]
  · have := mul_self_pos.mpr hb
    nlinarith [mul_self_nonneg a]

theorem energy_pos {nt : ℕ} {u : CVec ℝ nt} (h : ∃ j, u j ≠ 0) : 0 < energy u := by
  obtain ⟨j, hj⟩ := h
  unfold energy
  exact Finset.sum_pos' (fun i _ => abs2_nonneg (u i)) ⟨j, Finset.mem_univ j, abs2_pos hj⟩

theorem normSq_div_sub (a b : COMPLEX ℝ) (n : ℕ) :
    Complex.normSq (toC a / (n : ℂ) - toC b)
      = (b.1 - a.1 / (n : ℝ)) * (b.1 - a.1 / (n : ℝ)) +
        (b.2 - a.2 / (n : ℝ)) * (b.2 - a.2 / (n : ℝ)) := by
  have h : toC a / (n : ℂ) - toC b = toC (a.1 / (n : ℝ) - b.1, a.2 / (n : ℝ) - b.2) := by
    apply Complex.ext <;> simp [toC, Complex.div_natCast_re, Complex.div_natCast_im]
  rw [h, normSq_toC]
  unfold abs2
  ring

theorem ssconverged_sums_eq {nt : ℕ} (a b : CVec ℝ nt) :
    Sspropc.ssconverged_sums a b
      = (∑ j, Complex.normSq (toC (a j) / (nt : ℂ) - toC (b j)),
         ∑ j, Complex.normSq (toC (b j))) := by
  unfold Sspropc.ssconverged_sums
  rw [foldl_pair_sum, Fin.sum_univ_def, Fin.sum_univ_def]
  simp only [zero_add, normSq_div_sub, normSq_toC, abs2]

theorem is_converged_sums_eq {nt : ℕ} (uva u1a uvb u1b : CVec ℝ nt) :
    Sspropvc.is_converged_sums uva u1a uvb u1b
      = (∑ j, Complex.normSq (toC (uva j) / (nt : ℂ) - toC (u1a j)) +
           ∑ j, Complex.normSq (toC (uvb j) / (nt : ℂ) - toC (u1b j)),
         ∑ j, Complex.normSq (toC (u1a j)) + ∑ j, Complex.normSq (toC (u1b j))) := by
  unfold Sspropvc.is_converged_sums
  rw [foldl_pair_sum, ← Fin.sum_univ_def, ← Fin.sum_univ_def, ← Finset.sum_add_distrib,
    ← Finset.sum_add_distrib]
  simp only [zero_add, normSq_div_sub, normSq_toC, abs2]
  congr 1
  apply Finset.sum_congr rfl
  intro j _
  ring

/-! ### Phase factors -/

theorem toC_re (z : COMPLEX ℝ) : (toC z).re = z.1 := rfl

theorem toC_im (z : COMPLEX ℝ) : (toC z).im = z.2 := rfl

theorem cexp_neg_I_mul_re (x : ℝ) : (Complex.exp (-(Complex.I * (x : ℂ)))).re = Real.cos x := by
  have h : -(Complex.I * (x : ℂ)) = ((-x : ℝ) : ℂ) * Complex.I := by push_cast; ring
  rw [h, Complex.exp_ofReal_mul_I_re, Real.cos_neg]

theorem cexp_neg_I_mul_im (x : ℝ) : (Complex.exp (-(Complex.I * (x : ℂ)))).im = -Real.sin x := by
  have h : -(Complex.I * (x : ℂ)) = ((-x : ℝ) : ℂ) * Complex.I := by push_cast; ring
  rw [h, Complex.exp_ofReal_mul_I_im, Real.sin_neg]

/-- A sample multiplied by `exp(-i x)`, componentwise. -/
theorem toC_mul_cexp_neg (z : COMPLEX ℝ) (x : ℝ) :
    toC z * Complex.exp (-(Complex.I * (x : ℂ)))
      = toC (z.1 * Real.cos x + z.2 * Real.sin x, z.2 * Real.cos x - z.1 * Real.sin x) := by
  apply Complex.ext
  · simp only [Complex.mul_re, toC_re, toC_im, cexp_neg_I_mul_re, cexp_neg_I_mul_im]
    ring
  · simp only [Complex.mul_im, toC_re, toC_im, cexp_neg_I_mul_re, cexp_neg_I_mul_im]
    ring

theorem toC_injective : Function.Injective toC := by
  intro a b h
  have h1 := congrArg Complex.re h
  have h2 := congrArg Complex.im h
  simp only [toC_re, toC_im] at h1 h2
  exact Prod.ext h1 h2

theorem isHalfStep_of_parts (α β dz : ℝ) :
    IsHalfStep (toC (Real.exp (-α * dz / 4) * Real.cos (β * dz / 2),
      -Real.exp (-α * dz / 4) * Real.sin (β * dz / 2))) α β dz := by
  have hH : toC (Real.exp (-α * dz / 4) * Real.cos (β * dz / 2),
      -Real.exp (-α * dz / 4) * Real.sin (β * dz / 2))
      = (Real.exp (-α * dz / 4) : ℂ) *
          Complex.exp (-(Complex.I * ((β * dz / 2 : ℝ) : ℂ))) := by
    apply Complex.ext
    · rw [Complex.re_ofReal_mul, cexp_neg_I_mul_re]; rfl
    · rw [Complex.im_ofReal_mul, cexp_neg_I_mul_im, toC_im]; ring
  have habs : Complex.abs (toC (Real.exp (-α * dz / 4) * Real.cos (β * dz / 2),
      -Real.exp (-α * dz / 4) * Real.sin (β * dz / 2))) = Real.exp (-α * dz / 4) := by
    rw [hH, map_mul, Complex.abs_ofReal, Complex.abs_exp, abs_of_pos (Real.exp_pos _)]
    simp
  refine ⟨hH, rfl, ?_, ?_, habs, ?_⟩
  · rw [toC_im]; ring
  · rw [hH, mul_pow, sq, sq, ← Complex.ofReal_mul, ← Real.exp_add, ← Complex.exp_add]
    congr 2
    · ring_nf
    · push_cast; ring
  · intro h0
    rw [habs, h0]
    simp

/-! ### Bounds-checked accesses and the general nonlinear branch -/

theorem rd_eq {α : Type} {nt : ℕ} (a : Fin nt → α) (i : ℤ) (k : ℕ) (hk : k < nt)
    (hi : i = (k : ℤ)) : rd a i = some (a ⟨k, hk⟩) := by
  subst hi
  unfold rd
  rw [dif_pos ⟨by omega, by omega⟩]
  simp

theorem wr_eq {α : Type} {nt : ℕ} (a : Fin nt → α) (i : ℤ) (v : α) (k : ℕ) (hk : k < nt)
    (hi : i = (k : ℤ)) : wr a i v = some (Function.update a ⟨k, hk⟩ v) := by
  subst hi
  unfold wr
  rw [dif_pos ⟨by omega, by omega⟩]
  simp

theorem rd_none {α : Type} {nt : ℕ} (a : Fin nt → α) (i : ℤ) (hi : i < 0 ∨ (nt : ℤ) ≤ i) :
    rd a i = none := by
  unfold rd
  rw [dif_neg (by omega)]

theorem general_sample_eq {nt : ℕ} (M : Libm ℝ) (gamma dz traman toptical dt : ℝ)
    (ia jj ic : ℤ) (a j c : ℕ) (ha : a < nt) (hj : j < nt) (hc : c < nt)
    (hia : ia = (a : ℤ)) (hjj : jj = (j : ℤ)) (hic : ic = (c : ℤ))
    (ws : Sspropc.Workspace ℝ nt) :
    Sspropc.general_sample M gamma dz traman toptical dt ia jj ic ws
      = some { ws with
          uv := Function.update ws.uv ⟨j, hj⟩
            (Sspropc.apply_nlp M nt (ws.uhalf ⟨j, hj⟩)
              (Sspropc.nlp_scaled M gamma dz traman toptical dt
                (ws.u0 ⟨a, ha⟩) (ws.u0 ⟨j, hj⟩) (ws.u0 ⟨c, hc⟩)
                (ws.u1 ⟨a, ha⟩) (ws.u1 ⟨j, hj⟩) (ws.u1 ⟨c, hc⟩))) } := by
  unfold Sspropc.general_sample
  rw [rd_eq ws.u0 ia a ha hia, rd_eq ws.u0 jj j hj hjj, rd_eq ws.u0 ic c hc hic,
    rd_eq ws.u1 ia a ha hia, rd_eq ws.u1 jj j hj hjj, rd_eq ws.u1 ic c hc hic,
    rd_eq ws.uhalf jj j hj hjj]
  simp only [Option.bind_eq_bind, Option.some_bind]
  rw [wr_eq ws.uv jj _ j hj hjj]
  rfl

theorem prevIdx_val_of_pos {nt : ℕ} (j : Fin nt) (h : 1 ≤ j.val) :
    (prevIdx j).val = j.val - 1 := by
  have hlt := j.isLt
  show (j.val + nt - 1) % nt = j.val - 1
  rw [show j.val + nt - 1 = (j.val - 1) + nt by omega, Nat.add_mod_right,
    Nat.mod_eq_of_lt (by omega)]

theorem prevIdx_val_zero {nt : ℕ} (j : Fin nt) (h : j.val = 0) :
    (prevIdx j).val = nt - 1 := by
  have hlt := j.isLt
  show (j.val + nt - 1) % nt = nt - 1
  rw [h, Nat.zero_add, Nat.mod_eq_of_lt (by omega)]

theorem nextIdx_val_of_lt {nt : ℕ} (j : Fin nt) (h : j.val + 1 < nt) :
    (nextIdx j).val = j.val + 1 := by
  show (j.val + 1) % nt = j.val + 1
  rw [Nat.mod_eq_of_lt h]

theorem nextIdx_val_last {nt : ℕ} (j : Fin nt) (h : j.val + 1 = nt) :
    (nextIdx j).val = 0 := by
  show (j.val + 1) % nt = 0
  rw [h, Nat.mod_self]

/-- The value the general branch stores in `uv[j]`. -/
theorem general_value_congr {nt : ℕ} (M : Libm ℝ) (gamma dz traman toptical dt : ℝ)
    (u0 u1 uhalf : CVec ℝ nt) (j : Fin nt) (a c : Fin nt)
    (ha : a = prevIdx j) (hc : c = nextIdx j) :
    Sspropc.apply_nlp M nt (uhalf j)
      (Sspropc.nlp_scaled M gamma dz traman toptical dt (u0 a) (u0 j) (u0 c) (u1 a) (u1 j) (u1 c))
      = Sspropc.apply_nlp M nt (uhalf j) (nlpAt M gamma dz traman toptical dt u0 u1 j) := by
  subst ha hc
  rfl

theorem interior_fold_eq {nt : ℕ} (M : Libm ℝ) (gamma dz traman toptical dt : ℝ) :
    ∀ (n s : ℕ) (ws : Sspropc.Workspace ℝ nt), 1 ≤ s → s + n + 1 ≤ nt →
      (List.range' s n).foldlM
        (fun ws (jj : ℕ) =>
          Sspropc.general_sample M gamma dz traman toptical dt ((jj : ℤ) - 1) jj ((jj : ℤ) + 1) ws)
        ws
        = some { ws with
            uv := fun j =>
              if s ≤ j.val ∧ j.val < s + n then
                Sspropc.apply_nlp M nt (ws.uhalf j)
                  (nlpAt M gamma dz traman toptical dt ws.u0 ws.u1 j)
              else ws.uv j } := by
  intro n
  induction n with
  | zero =>
    intro s ws _ _
    have hfun : (fun j : Fin nt =>
        if s ≤ j.val ∧ j.val < s + 0 then
          Sspropc.apply_nlp M nt (ws.uhalf j) (nlpAt M gamma dz traman toptical dt ws.u0 ws.u1 j)
        else ws.uv j) = ws.uv := by
      funext j
      rw [if_neg (by omega)]
    rw [hfun]
    rfl
  | succ n ih =>
    intro s ws hs hle
    have hs0 : s - 1 < nt := by omega
    have hs1 : s < nt := by omega
    have hs2 : s + 1 < nt := by omega
    rw [List.range'_succ, List.foldlM_cons,
      general_sample_eq M gamma dz traman toptical dt _ _ _ (s - 1) s (s + 1) hs0 hs1 hs2
        (by omega) rfl (by push_cast; ring)]
    rw [general_value_congr M gamma dz traman toptical dt ws.u0 ws.u1 ws.uhalf ⟨s, hs1⟩
        ⟨s - 1, hs0⟩ ⟨s + 1, hs2⟩
        (Fin.ext (prevIdx_val_of_pos ⟨s, hs1⟩ hs).symm)
        (Fin.ext (nextIdx_val_of_lt ⟨s, hs1⟩ hs2).symm)]
    simp only [Option.bind_eq_bind, Option.some_bind]
    rw [ih (s + 1) _ (by omega) (by omega)]
    simp only [Option.some.injEq, Sspropc.Workspace.mk.injEq, true_and, and_true]
    funext j
    by_cases hj : j = ⟨s, hs1⟩
    · subst hj
      rw [if_neg (by simp), if_pos (by simp), Function.update_same]
    · have hne : j.val ≠ s := fun h => hj (Fin.ext h)
      rw [Function.update_noteq hj]
      by_cases hc : s + 1 ≤ j.val ∧ j.val < s + 1 + n
      · rw [if_pos hc, if_pos (by omega)]
      · rw [if_neg hc, if_neg (by omega)]

/-- With at least two samples the general branch stays inside its buffers and
stores, at every index, the sample computed from the circularly wrapped
neighbours. -/
theorem general_path_eq {nt : ℕ} (M : Libm ℝ) (gamma dz traman toptical dt : ℝ)
    (ws : Sspropc.Workspace ℝ nt) (h2 : 2 ≤ nt) :
    Sspropc.general_path M gamma dz traman toptical dt ws
      = some { ws with
          uv := fun j => Sspropc.apply_nlp M nt (ws.uhalf j)
            (nlpAt M gamma dz traman toptical dt ws.u0 ws.u1 j) } := by
  have h0 : 0 < nt := by omega
  have h1 : 1 < nt := by omega
  have hl : nt - 1 < nt := by omega
  have hl2 : nt - 2 < nt := by omega
  unfold Sspropc.general_path
  rw [general_sample_eq M gamma dz traman toptical dt ((nt : ℤ) - 1) 0 (0 + 1) (nt - 1) 0 1
      hl h0 h1 (by omega) (by omega) (by omega)]
  rw [general_value_congr M gamma dz traman toptical dt ws.u0 ws.u1 ws.uhalf ⟨0, h0⟩
      ⟨nt - 1, hl⟩ ⟨1, h1⟩
      (Fin.ext (prevIdx_val_zero ⟨0, h0⟩ rfl).symm)
      (Fin.ext (nextIdx_val_of_lt ⟨0, h0⟩ h1).symm)]
  simp only [Option.bind_eq_bind, Option.some_bind]
  rw [interior_fold_eq M gamma dz traman toptical dt (nt - 2) 1 _ le_rfl (by omega)]
  simp only [Option.some_bind]
  rw [general_sample_eq M gamma dz traman toptical dt
      ((if 1 < (nt : ℤ) - 1 then (nt : ℤ) - 1 else 1) - 1)
      (if 1 < (nt : ℤ) - 1 then (nt : ℤ) - 1 else 1) 0 (nt - 2) (nt - 1) 0 hl2 hl h0
      (by split_ifs <;> omega) (by split_ifs <;> omega) (by omega)]
  rw [general_value_congr M gamma dz traman toptical dt ws.u0 ws.u1 ws.uhalf ⟨nt - 1, hl⟩
      ⟨nt - 2, hl2⟩ ⟨0, h0⟩
      (Fin.ext ((prevIdx_val_of_pos ⟨nt - 1, hl⟩ (by simp; omega)).trans (by simp; omega)).symm)
      (Fin.ext (nextIdx_val_last ⟨nt - 1, hl⟩ (by simp; omega)).symm)]
  simp only [Option.some.injEq, Sspropc.Workspace.mk.injEq, true_and, and_true]
  funext j
  by_cases hj : j = ⟨nt - 1, hl⟩
  · subst hj
    rw [Function.update_same]
  · have hne : j.val ≠ nt - 1 := fun h => hj (Fin.ext h)
    have hjlt := j.isLt
    rw [Function.update_noteq hj]
    by_cases hc : 1 ≤ j.val ∧ j.val < 1 + (nt - 2)
    · rw [if_pos hc]
    · rw [if_neg hc]
      have hj0 : j = ⟨0, h0⟩ := Fin.ext (by simp; omega)
      rw [hj0, Function.update_same]

theorem toC_apply_nlp (nt : ℕ) (uh nlp : COMPLEX ℝ) :
    toC (Sspropc.apply_nlp ⟨Real.cos, Real.sin, Real.exp, Real.sqrt, Real.pi⟩ nt uh nlp)
      = toC uh * Complex.exp (-(Complex.I * toC nlp)) / (nt : ℂ) := by
  have hre : (-(Complex.I * toC nlp)).re = nlp.2 := by simp [toC]
  have him : (-(Complex.I * toC nlp)).im = -nlp.1 := by simp [toC]
  apply Complex.ext
  · rw [Complex.div_natCast_re, Complex.mul_re, Complex.exp_re, Complex.exp_im, hre, him,
      Real.cos_neg, Real.sin_neg, toC_re, toC_re, toC_im]
    simp only [Sspropc.apply_nlp]
    ring
  · rw [Complex.div_natCast_im, Complex.mul_im, Complex.exp_re, Complex.exp_im, hre, him,
      Real.cos_neg, Real.sin_neg, toC_re, toC_im, toC_im]
    simp only [Sspropc.apply_nlp]
    ring

theorem toC_kerr_path {nt : ℕ} (gamma dz : ℝ) (ws : Sspropc.Workspace ℝ nt) (j : Fin nt) :
    toC ((Sspropc.kerr_path ⟨Real.cos, Real.sin, Real.exp, Real.sqrt, Real.pi⟩ gamma dz ws).uv j)
      = toC (ws.uhalf j) *
          Complex.exp (-(Complex.I *
            ((gamma * (abs2 (ws.u0 j) + abs2 (ws.u1 j)) * dz / 2 : ℝ) : ℂ))) / (nt : ℂ) := by
  have hph : gamma * ((ws.u0 j).1 * (ws.u0 j).1 + (ws.u0 j).2 * (ws.u0 j).2 +
      (ws.u1 j).1 * (ws.u1 j).1 + (ws.u1 j).2 * (ws.u1 j).2) * dz / 2
      = gamma * (abs2 (ws.u0 j) + abs2 (ws.u1 j)) * dz / 2 := by
    unfold abs2; ring
  rw [toC_mul_cexp_neg]
  apply Complex.ext
  · rw [Complex.div_natCast_re, toC_re, toC_re]
    simp only [Sspropc.kerr_path, hph]
  · rw [Complex.div_natCast_im, toC_im, toC_im]
    simp only [Sspropc.kerr_path, hph]
    ring

/-! ### The frequency grid loops -/

theorem wr_fold_eq {nt : ℕ} (f : ℕ → ℝ) :
    ∀ (l : List ℕ) (w : Fin nt → ℝ), (∀ k ∈ l, k < nt) →
      l.foldlM (fun w (jj : ℕ) => wr w (jj : ℤ) (f jj)) w
        = some (fun k => if k.val ∈ l then f k.val else w k) := by
  intro l
  induction l with
  | nil =>
    intro w _
    simp [List.foldlM]
  | cons a l ih =>
    intro w hl
    have ha : a < nt := hl a (List.mem_cons_self a l)
    rw [List.foldlM_cons, wr_eq w (a : ℤ) (f a) a ha rfl]
    simp only [Option.bind_eq_bind, Option.some_bind]
    rw [ih _ (fun k hk => hl k (List.mem_cons_of_mem a hk))]
    simp only [Option.some.injEq]
    funext k
    by_cases hk : k.val ∈ l
    · rw [if_pos hk, if_pos (List.mem_cons_of_mem a hk)]
    · rw [if_neg hk]
      by_cases hka : k = ⟨a, ha⟩
      · subst hka
        rw [Function.update_same, if_pos (List.mem_cons_self _ _)]
      · have hne : k.val ≠ a := fun h => hka (Fin.ext h)
        rw [Function.update_noteq hka, if_neg]
        intro hmem
        rcases List.mem_cons.mp hmem with h | h
        · exact hne h
        · exact hk h

theorem grid_loops_eq {nt : ℕ} (hnt : 0 < nt) (f g : ℕ → ℝ) (w0 : Fin nt → ℝ) :
    ((List.range ((nt - 1) / 2 + 1)).foldlM (fun w (jj : ℕ) => wr w (jj : ℤ) (f jj)) w0 >>=
      fun w => (List.range' ((nt - 1) / 2 + 1) (nt - ((nt - 1) / 2 + 1))).foldlM
        (fun w (jj : ℕ) => wr w (jj : ℤ) (g jj)) w)
      = some (fun k => if k.val ≤ (nt - 1) / 2 then f k.val else g k.val) := by
  rw [wr_fold_eq f _ w0 (fun k hk => by have := List.mem_range.mp hk; omega)]
  simp only [Option.bind_eq_bind, Option.some_bind]
  rw [wr_fold_eq g _ _ (fun k hk => by have := List.mem_range'_1.mp hk; omega)]
  simp only [Option.some.injEq]
  funext k
  have hk := k.isLt
  by_cases hle : k.val ≤ (nt - 1) / 2
  · rw [if_neg (fun h => by have := List.mem_range'_1.mp h; omega),
      if_pos (List.mem_range.mpr (by omega)), if_pos hle]
  · rw [if_pos (List.mem_range'_1.mpr (by omega)), if_neg hle]

theorem wspace_eq {nt : ℕ} (hnt : 0 < nt) (w0 : Fin nt → ℝ) (dt : ℝ) :
    Sspropc.wspace ⟨Real.cos, Real.sin, Real.exp, Real.sqrt, Real.pi⟩ w0 dt
      = some (wgrid ⟨Real.cos, Real.sin, Real.exp, Real.sqrt, Real.pi⟩ nt dt) := by
  unfold Sspropc.wspace
  exact grid_loops_eq hnt (fun jj => 2 * Real.pi * (jj : ℝ) / (dt * (nt : ℝ)))
    (fun jj => 2 * Real.pi * (jj : ℝ) / (dt * (nt : ℝ)) - 2 * Real.pi / dt) w0

theorem compute_w_eq {nt : ℕ} (hnt : 0 < nt) (w0 : Fin nt → ℝ) (dt : ℝ) :
    Sspropvc.compute_w ⟨Real.cos, Real.sin, Real.exp, Real.sqrt, Real.pi⟩ w0 dt
      = some (wgrid ⟨Real.cos, Real.sin, Real.exp, Real.sqrt, Real.pi⟩ nt dt) := by
  unfold Sspropvc.compute_w
  exact grid_loops_eq hnt (fun jj => 2 * Real.pi * (jj : ℝ) / (dt * (nt : ℝ)))
    (fun jj => 2 * Real.pi * (jj : ℝ) / (dt * (nt : ℝ)) - 2 * Real.pi / dt) w0

/-! ### Loop rules for the scalar propagator -/

theorem forLoop_inv {nt : ℕ}
    (body : Sspropc.Workspace ℝ nt → Option (Sspropc.Workspace ℝ nt × Bool))
    (I : Sspropc.Workspace ℝ nt → Prop)
    (hbody : ∀ ws, I ws → ∃ r, body ws = some r ∧ I r.1) :
    ∀ (n : ℕ) (ii : ℤ) (ws : Sspropc.Workspace ℝ nt), I ws →
      ∃ r, Sspropc.forLoop body n ii ws = some r ∧ I r.2 := by
  intro n
  induction n with
  | zero =>
    intro ii ws h
    exact ⟨(ii, ws), rfl, h⟩
  | succ n ih =>
    intro ii ws h
    obtain ⟨r, hr, hI⟩ := hbody ws h
    unfold Sspropc.forLoop
    rw [hr]
    by_cases hc : r.2 = true
    · exact ⟨(ii, r.1), by simp [hc], hI⟩
    · obtain ⟨q, hq, hIq⟩ := ih (ii + 1) r.1 hI
      exact ⟨q, by simp [hc, hq], hIq⟩

theorem forLoop_post {nt : ℕ}
    (body : Sspropc.Workspace ℝ nt → Option (Sspropc.Workspace ℝ nt × Bool))
    (Pre Post : Sspropc.Workspace ℝ nt → Prop)
    (h1 : ∀ ws, Pre ws → ∃ r, body ws = some r ∧ Post r.1)
    (h2 : ∀ ws, Post ws → ∃ r, body ws = some r ∧ Post r.1)
    (n : ℕ) (ii : ℤ) (ws : Sspropc.Workspace ℝ nt) (hn : 0 < n) (hpre : Pre ws) :
    ∃ r, Sspropc.forLoop body n ii ws = some r ∧ Post r.2 := by
  obtain ⟨m, rfl⟩ : ∃ m, n = m + 1 := ⟨n - 1, by omega⟩
  obtain ⟨r, hr, hP⟩ := h1 ws hpre
  unfold Sspropc.forLoop
  rw [hr]
  by_cases hc : r.2 = true
  · exact ⟨(ii, r.1), by simp [hc], hP⟩
  · obtain ⟨q, hq, hPq⟩ := forLoop_inv body Post h2 m (ii + 1) r.1 hP
    exact ⟨q, by simp [hc, hq], hPq⟩

theorem zloop_inv {nt : ℕ}
    (step : Sspropc.Workspace ℝ nt → Option (Sspropc.Workspace ℝ nt × Bool))
    (J : ℕ → Sspropc.Workspace ℝ nt → Prop)
    (hstep : ∀ k ws, J k ws → ∃ r, step ws = some r ∧ J (k + 1) r.1) :
    ∀ (n k : ℕ) (ws : Sspropc.Workspace ℝ nt), J k ws →
      ∃ r, Sspropc.zloop step n ws = some r ∧ J (k + n) r.1 := by
  intro n
  induction n with
  | zero =>
    intro k ws h
    exact ⟨(ws, []), rfl, h⟩
  | succ n ih =>
    intro k ws h
    obtain ⟨r, hr, hJ⟩ := hstep k ws h
    obtain ⟨q, hq, hJq⟩ := ih (k + 1) r.1 hJ
    unfold Sspropc.zloop
    rw [hr]
    simp only [hq]
    refine ⟨(q.1, r.2 :: q.2), rfl, ?_⟩
    have : k + (n + 1) = k + 1 + n := by omega
    rw [this]
    exact hJq

/-- On the pure-Kerr path the loop body never leaves its buffers; its result
in terms of the workspace it starts from. -/
theorem iterate_kerr {nt : ℕ} (M : Libm ℝ) (P : Fftw ℝ nt) (gamma dz dt tol : ℝ)
    (ws : Sspropc.Workspace ℝ nt) :
    ∃ r, Sspropc.iterate M P gamma dz 0 0 dt tol ws = some r ∧
      r.1.u0 = ws.u0 ∧ r.1.uhalf = ws.uhalf ∧ r.1.halfstep = ws.halfstep ∧
      r.1.ufft = Sspropc.cmult (P.forward (Sspropc.kerr_path M gamma dz ws).uv) ws.halfstep ∧
      r.1.u1 = Sspropc.cscale (P.backward
        (Sspropc.cmult (P.forward (Sspropc.kerr_path M gamma dz ws).uv) ws.halfstep))
        (1 / (nt : ℝ)) := by
  unfold Sspropc.iterate
  simp only [and_self, if_true, Option.bind_eq_bind, Option.some_bind]
  exact ⟨_, rfl, rfl, rfl, rfl, rfl, rfl⟩

/-! ### Samples rotated by a phase -/

theorem toC_rot (φ : ℝ) (z : COMPLEX ℝ) :
    toC (rot ⟨Real.cos, Real.sin, Real.exp, Real.sqrt, Real.pi⟩ φ z)
      = toC z * Complex.exp (-(Complex.I * (φ : ℂ))) := by
  rw [toC_mul_cexp_neg]
  simp only [rot]
  congr 2
  ring

theorem abs2_rot (φ : ℝ) (z : COMPLEX ℝ) :
    abs2 (rot ⟨Real.cos, Real.sin, Real.exp, Real.sqrt, Real.pi⟩ φ z) = abs2 z := by
  simp only [rot, abs2]
  linear_combination (z.1 * z.1 + z.2 * z.2) * Real.cos_sq_add_sin_sq φ

theorem rot_rot (φ ψ : ℝ) (z : COMPLEX ℝ) :
    rot ⟨Real.cos, Real.sin, Real.exp, Real.sqrt, Real.pi⟩ φ
        (rot ⟨Real.cos, Real.sin, Real.exp, Real.sqrt, Real.pi⟩ ψ z)
      = rot ⟨Real.cos, Real.sin, Real.exp, Real.sqrt, Real.pi⟩ (ψ + φ) z := by
  simp only [rot, Real.cos_add, Real.sin_add, Prod.mk.injEq]
  constructor <;> ring

theorem rot_zero (z : COMPLEX ℝ) :
    rot ⟨Real.cos, Real.sin, Real.exp, Real.sqrt, Real.pi⟩ 0 z = z := by
  simp [rot]

/-- The pure-Kerr branch stores `uhalf[j]` rotated by the phase and divided by
`nt`. -/
theorem kerr_path_uv {nt : ℕ} (gamma dz : ℝ) (ws : Sspropc.Workspace ℝ nt) (j : Fin nt) :
    (Sspropc.kerr_path ⟨Real.cos, Real.sin, Real.exp, Real.sqrt, Real.pi⟩ gamma dz ws).uv j
      = ((rot ⟨Real.cos, Real.sin, Real.exp, Real.sqrt, Real.pi⟩
            (gamma * (abs2 (ws.u0 j) + abs2 (ws.u1 j)) * dz / 2) (ws.uhalf j)).1 / (nt : ℝ),
         (rot ⟨Real.cos, Real.sin, Real.exp, Real.sqrt, Real.pi⟩
            (gamma * (abs2 (ws.u0 j) + abs2 (ws.u1 j)) * dz / 2) (ws.uhalf j)).2 / (nt : ℝ)) := by
  have hph : gamma * ((ws.u0 j).1 * (ws.u0 j).1 + (ws.u0 j).2 * (ws.u0 j).2 +
      (ws.u1 j).1 * (ws.u1 j).1 + (ws.u1 j).2 * (ws.u1 j).2) * dz / 2
      = gamma * (abs2 (ws.u0 j) + abs2 (ws.u1 j)) * dz / 2 := by
    unfold abs2; ring
  simp only [Sspropc.kerr_path, rot, hph]

/-! ### Coefficient lists that vanish -/

theorem taylorLoop_zero (w : ℝ) :
    ∀ (l : List ℝ) (ii : ℕ) (acc fii wii : ℝ), (∀ b ∈ l, b = 0) →
      taylorLoop w l ii acc fii wii = acc := by
  intro l
  induction l with
  | nil => intro ii acc fii wii _; rfl
  | cons c rest ih =>
    intro ii acc fii wii h
    unfold taylorLoop
    rw [ih _ _ _ _ (fun b hb => h b (List.mem_cons_of_mem c hb)),
      h c (List.mem_cons_self c rest)]
    simp

theorem coefAt_zero {nt : ℕ} (coef : List ℝ) (w : Fin nt → ℝ) (k : Fin nt)
    (h : ∀ b ∈ coef, b = 0) : coefAt coef w k = 0 := by
  unfold coefAt
  split
  · exact h _ (List.get_mem _ _ _)
  · exact taylorLoop_zero _ _ _ _ _ _ h

theorem alphaAt_zero {nt : ℕ} (alphap : List ℝ) (hlen : alphap.length = 1 ∨ alphap.length = nt)
    (k : Fin nt) (h : ∀ a ∈ alphap, a = 0) : Sspropc.alphaAt alphap hlen k = 0 := by
  unfold Sspropc.alphaAt
  split
  · exact h _ (List.get_mem _ _ _)
  · exact h _ (List.get_mem _ _ _)

theorem cmult_one_left {nt : ℕ} (x : CVec ℝ nt) :
    Sspropc.cmult (fun _ => ((1 : ℝ), (0 : ℝ))) x = x := by
  funext j
  simp [Sspropc.cmult]

theorem cmult_one_right {nt : ℕ} (x : CVec ℝ nt) :
    Sspropc.cmult x (fun _ => ((1 : ℝ), (0 : ℝ))) = x := by
  funext j
  simp [Sspropc.cmult]

theorem cscale_one {nt : ℕ} (x : CVec ℝ nt) : Sspropc.cscale x 1 = x := by
  funext j
  simp [Sspropc.cscale]

theorem cscale_inv_scaled {nt : ℕ} (hnt : 0 < nt) (x : CVec ℝ nt) :
    Sspropc.cscale (fun j => ((nt : ℝ) * (x j).1, (nt : ℝ) * (x j).2)) (1 / (nt : ℝ)) = x := by
  have h : (nt : ℝ) ≠ 0 := Nat.cast_ne_zero.mpr (by omega)
  funext j
  simp only [Sspropc.cscale]
  apply Prod.ext <;> simp <;> field_simp

/-! ### One step of the scalar propagator without dispersion and loss -/

theorem zstep_pure_kerr {nt : ℕ} (hnt : 0 < nt) (P : Fftw ℝ nt) (hinv : P.BackwardForward)
    (gamma dz dt tol : ℝ) (maxiter : ℤ) (hmax : 1 ≤ maxiter) (ws : Sspropc.Workspace ℝ nt)
    (hH : ws.halfstep = fun _ => ((1 : ℝ), (0 : ℝ))) (h01 : ws.u0 = ws.u1)
    (hfft : ws.ufft = P.forward ws.u1) :
    ∃ r, Sspropc.zstep ⟨Real.cos, Real.sin, Real.exp, Real.sqrt, Real.pi⟩ P gamma dz 0 0 dt tol
        maxiter ws = some r ∧
      r.1.halfstep = (fun _ => ((1 : ℝ), (0 : ℝ))) ∧ r.1.u0 = r.1.u1 ∧
      r.1.ufft = P.forward r.1.u1 ∧
      ∀ j, r.1.u1 j = rot ⟨Real.cos, Real.sin, Real.exp, Real.sqrt, Real.pi⟩
        (gamma * abs2 (ws.u1 j) * dz) (ws.u1 j) := by
  have hN : (nt : ℝ) ≠ 0 := Nat.cast_ne_zero.mpr (by omega)
  let T : CVec ℝ nt := fun j => rot ⟨Real.cos, Real.sin, Real.exp, Real.sqrt, Real.pi⟩
    (gamma * abs2 (ws.u1 j) * dz) (ws.u1 j)
  let Pre : Sspropc.Workspace ℝ nt → Prop := fun v =>
    v.halfstep = (fun _ => ((1 : ℝ), (0 : ℝ))) ∧ v.u0 = ws.u1 ∧
    v.uhalf = (fun j => ((nt : ℝ) * (ws.u1 j).1, (nt : ℝ) * (ws.u1 j).2)) ∧
    ∀ j, abs2 (v.u1 j) = abs2 (ws.u1 j)
  let Post : Sspropc.Workspace ℝ nt → Prop := fun v => Pre v ∧ v.u1 = T ∧ v.ufft = P.forward T
  have hbody : ∀ v, Pre v → ∃ r, Sspropc.iterate ⟨Real.cos, Real.sin, Real.exp, Real.sqrt, Real.pi⟩
      P gamma dz 0 0 dt tol v = some r ∧ Post r.1 := by
    intro v hv
    obtain ⟨hvH, hv0, hvh, hv1⟩ := hv
    obtain ⟨r, hr, h0, hh, hHs, hf, h1⟩ := iterate_kerr
      ⟨Real.cos, Real.sin, Real.exp, Real.sqrt, Real.pi⟩ P gamma dz dt tol v
    have huv : (Sspropc.kerr_path ⟨Real.cos, Real.sin, Real.exp, Real.sqrt, Real.pi⟩
        gamma dz v).uv = T := by
      funext j
      rw [kerr_path_uv, hv1 j, hv0, hvh]
      have hph : gamma * (abs2 (ws.u1 j) + abs2 (ws.u1 j)) * dz / 2
          = gamma * abs2 (ws.u1 j) * dz := by ring
      rw [hph]
      simp only [T, rot]
      apply Prod.ext <;> simp <;> field_simp <;> ring
    have hT : ∀ j, abs2 (T j) = abs2 (ws.u1 j) := fun j => abs2_rot _ _
    rw [huv, hvH, cmult_one_right] at hf h1
    rw [hinv T, cscale_inv_scaled hnt] at h1
    exact ⟨r, hr, ⟨hHs.trans hvH, h0.trans hv0, hh.trans hvh, fun j => by rw [h1]; exact hT j⟩,
      h1, hf⟩
  have hpre : Pre ⟨ws.u0, ws.ufft, P.backward (Sspropc.cmult ws.halfstep ws.ufft), ws.uv, ws.u1,
      ws.halfstep⟩ := by
    refine ⟨hH, h01, ?_, fun j => rfl⟩
    show P.backward (Sspropc.cmult ws.halfstep ws.ufft) = _
    rw [hH, cmult_one_left, hfft, hinv]
  obtain ⟨q, hq, hPost⟩ := forLoop_post _ Pre Post hbody (fun v hv => hbody v hv.1)
    maxiter.toNat 0 _ (by omega) hpre
  obtain ⟨⟨hqH, -, -, -⟩, hq1, hqf⟩ := hPost
  unfold Sspropc.zstep
  simp only [hq]
  refine ⟨_, rfl, hqH, ?_, ?_, ?_⟩
  · show Sspropc.cscale q.2.u1 1 = q.2.u1
    exact cscale_one _
  · show q.2.ufft = P.forward q.2.u1
    rw [hqf, hq1]
  · intro j
    show q.2.u1 j = _
    rw [hq1]

/-! ### Consequences of the provider laws -/

theorem forward_cscale {nt : ℕ} (P : Fftw ℝ nt) (hlin : P.Linear) (c : ℝ) (x : CVec ℝ nt) :
    P.forward (Sspropc.cscale x c) = Sspropc.cscale (P.forward x) c := by
  have h := hlin.2.1 (c, 0) x
  have e1 : (fun j => cmul ((c, 0) : COMPLEX ℝ) (x j)) = Sspropc.cscale x c := by
    funext j
    simp [cmul, Sspropc.cscale]
  have e2 : (fun j => cmul ((c, 0) : COMPLEX ℝ) (P.forward x j))
      = Sspropc.cscale (P.forward x) c := by
    funext j
    simp [cmul, Sspropc.cscale]
  rw [e1, e2] at h
  exact h

theorem toC_cmult {nt : ℕ} (b c : CVec ℝ nt) (j : Fin nt) :
    toC (Sspropc.cmult b c j) = toC (b j) * toC (c j) := by
  apply Complex.ext <;> simp [Sspropc.cmult, toC]

theorem abs2_cmult {nt : ℕ} (b c : CVec ℝ nt) (j : Fin nt) :
    abs2 (Sspropc.cmult b c j) = abs2 (b j) * abs2 (c j) := by
  simp only [Sspropc.cmult, abs2]
  ring

theorem energy_cmult_left {nt : ℕ} (H x : CVec ℝ nt) (hH : ∀ k, abs2 (H k) = 1) :
    energy (Sspropc.cmult H x) = energy x := by
  unfold energy
  apply Finset.sum_congr rfl
  intro j _
  rw [abs2_cmult, hH j, one_mul]

theorem energy_cmult_right {nt : ℕ} (H x : CVec ℝ nt) (hH : ∀ k, abs2 (H k) = 1) :
    energy (Sspropc.cmult x H) = energy x := by
  unfold energy
  apply Finset.sum_congr rfl
  intro j _
  rw [abs2_cmult, hH j, mul_one]

theorem energy_cscale {nt : ℕ} (x : CVec ℝ nt) (c : ℝ) :
    energy (Sspropc.cscale x c) = c ^ 2 * energy x := by
  unfold energy
  rw [Finset.mul_sum]
  apply Finset.sum_congr rfl
  intro j _
  simp only [Sspropc.cscale, abs2]
  ring

theorem energy_kerr_path {nt : ℕ} (gamma dz : ℝ) (ws : Sspropc.Workspace ℝ nt) :
    energy (Sspropc.kerr_path ⟨Real.cos, Real.sin, Real.exp, Real.sqrt, Real.pi⟩ gamma dz ws).uv
      = (1 / (nt : ℝ)) ^ 2 * energy ws.uhalf := by
  unfold energy
  rw [Finset.mul_sum]
  apply Finset.sum_congr rfl
  intro j _
  rw [kerr_path_uv]
  have h := abs2_rot (gamma * (abs2 (ws.u0 j) + abs2 (ws.u1 j)) * dz / 2) (ws.uhalf j)
  simp only [abs2] at h ⊢
  rw [← h]
  ring

/-- With zero loss the half-step transfer function of `setup` has unit modulus. -/
theorem setup_halfstep_unimodular {nt : ℕ} (u : mxArray ℝ nt) (alphap beta : List ℝ)
    (hlen : alphap.length = 1 ∨ alphap.length = nt) (halpha : ∀ a ∈ alphap, a = 0)
    (w : Fin nt → ℝ) (dz : ℝ) (ws : Sspropc.Workspace ℝ nt) (k : Fin nt) :
    abs2 ((Sspropc.setup ⟨Real.cos, Real.sin, Real.exp, Real.sqrt, Real.pi⟩ u alphap beta hlen
      w dz ws).halfstep k) = 1 := by
  simp only [Sspropc.setup, abs2, alphaAt_zero alphap hlen k halpha]
  simp only [neg_zero, zero_mul, zero_div, Real.exp_zero, one_mul, neg_mul, mul_neg, neg_neg]
  have := Real.cos_sq_add_sin_sq (coefAt beta w k * dz / 2)
  nlinarith [this]

/-! ### The two-point transform -/

theorem dft2_backwardForward : (dft2 : Fftw ℝ 2).BackwardForward := by
  intro x
  funext j
  fin_cases j
  · apply Prod.ext <;> simp [dft2] <;> ring
  · apply Prod.ext <;> simp [dft2] <;> ring

theorem dft2_forwardBackward : (dft2 : Fftw ℝ 2).ForwardBackward := by
  intro x
  funext j
  fin_cases j
  · apply Prod.ext <;> simp [dft2] <;> ring
  · apply Prod.ext <;> simp [dft2] <;> ring

theorem dft2_linear : (dft2 : Fftw ℝ 2).Linear := by
  refine ⟨?_, ?_, ?_, ?_⟩
  · intro x y
    funext j
    fin_cases j
    · apply Prod.ext <;> simp [dft2] <;> ring
    · apply Prod.ext <;> simp [dft2] <;> ring
  · intro c x
    funext j
    fin_cases j
    · apply Prod.ext <;> simp [dft2, cmul] <;> ring
    · apply Prod.ext <;> simp [dft2, cmul] <;> ring
  · intro x y
    funext j
    fin_cases j
    · apply Prod.ext <;> simp [dft2] <;> ring
    · apply Prod.ext <;> simp [dft2] <;> ring
  · intro c x
    funext j
    fin_cases j
    · apply Prod.ext <;> simp [dft2, cmul] <;> ring
    · apply Prod.ext <;> simp [dft2, cmul] <;> ring

theorem dft2_parseval : (dft2 : Fftw ℝ 2).Parseval := by
  constructor
  · intro x
    simp [energy, dft2, abs2, Fin.sum_univ_two]
    ring
  · intro x
    simp [energy, dft2, abs2, Fin.sum_univ_two]
    ring

/-! ### One step of the scalar propagator without nonlinearity -/

theorem kerr_path_gamma_zero {nt : ℕ} (dz : ℝ) (ws : Sspropc.Workspace ℝ nt) :
    (Sspropc.kerr_path ⟨Real.cos, Real.sin, Real.exp, Real.sqrt, Real.pi⟩ 0 dz ws).uv
      = Sspropc.cscale ws.uhalf (1 / (nt : ℝ)) := by
  funext j
  simp only [Sspropc.kerr_path, Sspropc.cscale]
  apply Prod.ext <;> simp <;> ring

theorem zstep_linear {nt : ℕ} (hnt : 0 < nt) (P : Fftw ℝ nt) (hlin : P.Linear)
    (hfb : P.ForwardBackward) (dz dt tol : ℝ) (maxiter : ℤ) (hmax : 1 ≤ maxiter)
    (ws : Sspropc.Workspace ℝ nt) :
    ∃ r, Sspropc.zstep ⟨Real.cos, Real.sin, Real.exp, Real.sqrt, Real.pi⟩ P 0 dz 0 0 dt tol
        maxiter ws = some r ∧
      r.1.u1 = Sspropc.cscale (P.backward
        (Sspropc.cmult (Sspropc.cmult ws.halfstep ws.ufft) ws.halfstep)) (1 / (nt : ℝ)) := by
  let Y : CVec ℝ nt := Sspropc.cmult (Sspropc.cmult ws.halfstep ws.ufft) ws.halfstep
  let Pre : Sspropc.Workspace ℝ nt → Prop := fun v =>
    v.halfstep = ws.halfstep ∧ v.uhalf = P.backward (Sspropc.cmult ws.halfstep ws.ufft)
  let Post : Sspropc.Workspace ℝ nt → Prop := fun v =>
    Pre v ∧ v.u1 = Sspropc.cscale (P.backward Y) (1 / (nt : ℝ))
  have hbody : ∀ v, Pre v → ∃ r, Sspropc.iterate ⟨Real.cos, Real.sin, Real.exp, Real.sqrt, Real.pi⟩
      P 0 dz 0 0 dt tol v = some r ∧ Post r.1 := by
    intro v hv
    obtain ⟨hvH, hvh⟩ := hv
    obtain ⟨r, hr, -, hh, hHs, -, h1⟩ := iterate_kerr
      ⟨Real.cos, Real.sin, Real.exp, Real.sqrt, Real.pi⟩ P 0 dz dt tol v
    rw [kerr_path_gamma_zero, forward_cscale P hlin, hvh, hfb, cscale_inv_scaled hnt, hvH] at h1
    exact ⟨r, hr, ⟨hHs.trans hvH, hh.trans hvh⟩, h1⟩
  have hpre : Pre ⟨ws.u0, ws.ufft, P.backward (Sspropc.cmult ws.halfstep ws.ufft), ws.uv, ws.u1,
      ws.halfstep⟩ := ⟨rfl, rfl⟩
  obtain ⟨q, hq, -, hq1⟩ := forLoop_post _ Pre Post hbody (fun v hv => hbody v hv.1)
    maxiter.toNat 0 _ (by omega) hpre
  unfold Sspropc.zstep
  simp only [hq]
  exact ⟨_, rfl, hq1⟩

/-! ### Energy through one step of the scalar propagator -/

theorem zstep_energy {nt : ℕ} (hnt : 0 < nt) (P : Fftw ℝ nt) (hpar : P.Parseval)
    (gamma dz dt tol : ℝ) (maxiter : ℤ) (E : ℝ) (ws : Sspropc.Workspace ℝ nt)
    (hH : ∀ k, abs2 (ws.halfstep k) = 1) (h1 : energy ws.u1 = E)
    (hf : energy ws.ufft = (nt : ℝ) * E) :
    ∃ r, Sspropc.zstep ⟨Real.cos, Real.sin, Real.exp, Real.sqrt, Real.pi⟩ P gamma dz 0 0 dt tol
        maxiter ws = some r ∧
      (∀ k, abs2 (r.1.halfstep k) = 1) ∧ energy r.1.u1 = E ∧
      energy r.1.ufft = (nt : ℝ) * E := by
  have hN : (nt : ℝ) ≠ 0 := Nat.cast_ne_zero.mpr (by omega)
  let I : Sspropc.Workspace ℝ nt → Prop := fun v =>
    (∀ k, abs2 (v.halfstep k) = 1) ∧ energy v.uhalf = (nt : ℝ) * ((nt : ℝ) * E) ∧
    energy v.u1 = E ∧ energy v.ufft = (nt : ℝ) * E
  have hbody : ∀ v, I v → ∃ r, Sspropc.iterate ⟨Real.cos, Real.sin, Real.exp, Real.sqrt, Real.pi⟩
      P gamma dz 0 0 dt tol v = some r ∧ I r.1 := by
    intro v hv
    obtain ⟨hvH, hvh, -, -⟩ := hv
    obtain ⟨r, hr, -, hh, hHs, hf', h1'⟩ := iterate_kerr
      ⟨Real.cos, Real.sin, Real.exp, Real.sqrt, Real.pi⟩ P gamma dz dt tol v
    have hfE : energy r.1.ufft = (nt : ℝ) * E := by
      rw [hf', energy_cmult_right _ _ hvH, hpar.1, energy_kerr_path, hvh]
      field_simp
      ring
    refine ⟨r, hr, ?_, ?_, ?_, hfE⟩
    · intro k
      rw [hHs]
      exact hvH k
    · rw [hh]
      exact hvh
    · rw [h1', energy_cscale, hpar.2, ← hf', hfE]
      field_simp
      ring
  have hI : I ⟨ws.u0, ws.ufft, P.backward (Sspropc.cmult ws.halfstep ws.ufft), ws.uv, ws.u1,
      ws.halfstep⟩ := by
    refine ⟨hH, ?_, h1, hf⟩
    show energy (P.backward (Sspropc.cmult ws.halfstep ws.ufft)) = _
    rw [hpar.2, energy_cmult_left _ _ hH, hf]
  obtain ⟨q, hq, hqH, -, hq1, hqf⟩ := forLoop_inv _ I hbody maxiter.toNat 0 _ hI
  unfold Sspropc.zstep
  simp only [hq]
  refine ⟨_, rfl, hqH, hq1, hqf⟩

/-! ### The matrix of the circular method at `chi = π/4`, `psi = 0` -/

theorem compute_H_quarter_pi {nt : ℕ} (ha hb : CVec ℝ nt) :
    Sspropvc.compute_H ⟨Real.cos, Real.sin, Real.exp, Real.sqrt, Real.pi⟩ ha hb (Real.pi / 4) 0
      = ⟨ha, fun _ => (0, 0), fun _ => (0, 0), hb⟩ := by
  have h2 : 2 * (Real.pi / 4) = Real.pi / 2 := by ring
  simp only [Sspropvc.compute_H, h2, Real.sin_pi_div_two, Real.cos_pi_div_two, mul_zero,
    Real.sin_zero, Real.cos_zero]
  congr 1 <;> funext jj <;> apply Prod.ext <;> simp <;> ring

theorem prop_linear_circ_diag {nt : ℕ} (ha hb : CVec ℝ nt) :
    Sspropvc.prop_linear_circ (⟨ha, fun _ => (0, 0), fun _ => (0, 0), hb⟩ : Sspropvc.HMatrix ℝ nt)
      = Sspropvc.prop_linear_ellipt ha hb := by
  funext u0a u0b
  simp only [Sspropvc.prop_linear_circ, Sspropvc.prop_linear_ellipt, Prod.mk.injEq]
  constructor <;> funext jj <;> apply Prod.ext <;> simp

/-! ### The rotation in one formula -/

/-- Whatever the storage of the two inputs, `rotate_coord` computes the general
formula with the imaginary part of a real input read as zero. -/
theorem rotate_coord_apply {nt : ℕ} (M : Libm ℝ) (ux uy : mxArray ℝ nt) (chi psi : ℝ)
    (jj : Fin nt) :
    (Sspropvc.rotate_coord M ux uy chi psi).1 jj
      = (M.cos psi * M.cos chi * ux.pr jj + M.sin psi * M.sin chi * ux.im jj +
           M.sin psi * M.cos chi * uy.pr jj - M.cos psi * M.sin chi * uy.im jj,
         M.cos psi * M.cos chi * ux.im jj - M.sin psi * M.sin chi * ux.pr jj +
           M.sin psi * M.cos chi * uy.im jj + M.cos psi * M.sin chi * uy.pr jj) ∧
    (Sspropvc.rotate_coord M ux uy chi psi).2 jj
      = (-(M.sin psi * M.cos chi) * ux.pr jj - M.cos psi * M.sin chi * ux.im jj +
           M.cos psi * M.cos chi * uy.pr jj - M.sin psi * M.sin chi * uy.im jj,
         -(M.sin psi * M.cos chi) * ux.im jj + M.cos psi * M.sin chi * ux.pr jj +
           M.cos psi * M.cos chi * uy.im jj + M.sin psi * M.sin chi * uy.pr jj) := by
  obtain ⟨xr, xi⟩ := ux
  obtain ⟨yr, yi⟩ := uy
  cases xi <;> cases yi <;>
    refine ⟨Prod.ext ?_ ?_, Prod.ext ?_ ?_⟩ <;>
    simp only [Sspropvc.rotate_coord, mxArray.im] <;> ring

theorem inv_rotate_rotate {nt : ℕ} (chi psi : ℝ) (ux uy : mxArray ℝ nt) :
    Sspropvc.inv_rotate_coord ⟨Real.cos, Real.sin, Real.exp, Real.sqrt, Real.pi⟩
        (Sspropvc.rotate_coord ⟨Real.cos, Real.sin, Real.exp, Real.sqrt, Real.pi⟩ ux uy chi psi).1
        (Sspropvc.rotate_coord ⟨Real.cos, Real.sin, Real.exp, Real.sqrt, Real.pi⟩ ux uy chi psi).2
        chi psi
      = (⟨ux.pr, some ux.im⟩, ⟨uy.pr, some uy.im⟩) := by
  have hp := Real.cos_sq_add_sin_sq psi
  have hc := Real.cos_sq_add_sin_sq chi
  have h : (Real.cos psi * Real.cos chi) ^ 2 + (Real.sin psi * Real.sin chi) ^ 2 +
      (Real.sin psi * Real.cos chi) ^ 2 + (Real.cos psi * Real.sin chi) ^ 2 = 1 := by
    linear_combination (Real.cos chi ^ 2 + Real.sin chi ^ 2) * hp + hc
  simp only [Sspropvc.inv_rotate_coord, Prod.mk.injEq, mxArray.mk.injEq, Option.some.injEq]
  refine ⟨⟨?_, ?_⟩, ?_, ?_⟩ <;> funext jj <;>
    rw [(rotate_coord_apply _ ux uy chi psi jj).1, (rotate_coord_apply _ ux uy chi psi jj).2]
  · linear_combination ux.pr jj * h
  · linear_combination ux.im jj * h
  · linear_combination uy.pr jj * h
  · linear_combination uy.im jj * h

/-! ### The Taylor loop -/

theorem taylorLoop_append (x : ℝ) :
    ∀ (pre post : List ℝ) (ii : ℕ) (acc : ℝ),
      taylorLoop x (pre ++ post) ii acc ((Nat.factorial ii : ℕ) : ℝ) (x ^ ii)
        = taylorLoop x post (ii + pre.length)
            (acc + ∑ i : Fin pre.length,
              pre.get i * x ^ (ii + (i : ℕ)) / ((Nat.factorial (ii + i) : ℕ) : ℝ))
            ((Nat.factorial (ii + pre.length) : ℕ) : ℝ) (x ^ (ii + pre.length)) := by
  intro pre
  induction pre with
  | nil =>
    intro post ii acc
    simp
  | cons c rest ih =>
    intro post ii acc
    have hf : ((Nat.factorial ii : ℕ) : ℝ) * ((ii + 1 : ℕ) : ℝ)
        = ((Nat.factorial (ii + 1) : ℕ) : ℝ) := by
      rw [Nat.factorial_succ]
      push_cast
      ring
    have hw : x ^ ii * x = x ^ (ii + 1) := (pow_succ x ii).symm
    have e1 : ii + 1 + rest.length = ii + (c :: rest).length := by
      rw [List.length_cons]
      omega
    have hs : (∑ i : Fin (c :: rest).length,
          (c :: rest).get i * x ^ (ii + (i : ℕ)) / ((Nat.factorial (ii + i) : ℕ) : ℝ))
        = c * x ^ (ii + 0) / ((Nat.factorial (ii + 0) : ℕ) : ℝ) +
          ∑ i : Fin rest.length,
            rest.get i * x ^ (ii + ((i : ℕ) + 1)) / ((Nat.factorial (ii + ((i : ℕ) + 1)) : ℕ) : ℝ) :=
      Fin.sum_univ_succ (fun i : Fin (rest.length + 1) =>
        (c :: rest).get i * x ^ (ii + (i : ℕ)) / ((Nat.factorial (ii + i) : ℕ) : ℝ))
    have e2 : acc + x ^ ii * c / ((Nat.factorial ii : ℕ) : ℝ) +
          ∑ i : Fin rest.length,
            rest.get i * x ^ (ii + 1 + (i : ℕ)) / ((Nat.factorial (ii + 1 + i) : ℕ) : ℝ)
        = acc + ∑ i : Fin (c :: rest).length,
            (c :: rest).get i * x ^ (ii + (i : ℕ)) / ((Nat.factorial (ii + i) : ℕ) : ℝ) := by
      rw [hs, add_zero, add_assoc]
      congr 1
      congr 1
      · ring
      · apply Finset.sum_congr rfl
        intro i _
        rw [show ii + 1 + (i : ℕ) = ii + ((i : ℕ) + 1) by omega]
    rw [List.cons_append, taylorLoop, hf, hw, ih post (ii + 1), e1, e2]

theorem taylor_eq_taylorSum (x : ℝ) (coef : List ℝ) : taylor x coef = taylorSum coef x := by
  have h := taylorLoop_append x coef [] 0 0
  simp only [List.append_nil, Nat.factorial_zero, Nat.cast_one, pow_zero, zero_add] at h
  unfold taylor
  rw [h]
  rfl

/-! ### The loop body of the scalar propagator without nonlinearity -/

theorem general_path_gamma_zero {nt : ℕ} (dz traman toptical dt : ℝ)
    (ws : Sspropc.Workspace ℝ nt) (h2 : 2 ≤ nt) :
    Sspropc.general_path ⟨Real.cos, Real.sin, Real.exp, Real.sqrt, Real.pi⟩ 0 dz traman toptical
        dt ws
      = some { ws with uv := Sspropc.cscale ws.uhalf (1 / (nt : ℝ)) } := by
  rw [general_path_eq _ 0 dz traman toptical dt ws h2]
  simp only [Option.some.injEq, Sspropc.Workspace.mk.injEq, true_and, and_true]
  funext j
  simp only [nlpAt, Sspropc.nlp_scaled, Sspropc.apply_nlp, Sspropc.cscale]
  apply Prod.ext <;> simp <;> ring

/-- With `gamma = 0` the loop body stays inside its buffers on the pure-Kerr path
and, for at least two samples, on the general path; its result in terms of the
workspace it starts from. -/
theorem iterate_gamma_zero {nt : ℕ} (P : Fftw ℝ nt) (dz traman toptical dt tol : ℝ)
    (hcase : (traman = 0 ∧ toptical = 0) ∨ 2 ≤ nt) (ws : Sspropc.Workspace ℝ nt) :
    ∃ r, Sspropc.iterate ⟨Real.cos, Real.sin, Real.exp, Real.sqrt, Real.pi⟩ P 0 dz traman
        toptical dt tol ws = some r ∧
      r.1.uhalf = ws.uhalf ∧ r.1.halfstep = ws.halfstep ∧
      r.1.ufft = Sspropc.cmult (P.forward (Sspropc.cscale ws.uhalf (1 / (nt : ℝ)))) ws.halfstep ∧
      r.1.u1 = Sspropc.cscale (P.backward
        (Sspropc.cmult (P.forward (Sspropc.cscale ws.uhalf (1 / (nt : ℝ)))) ws.halfstep))
        (1 / (nt : ℝ)) := by
  by_cases hfast : traman = 0 ∧ toptical = 0
  · obtain ⟨rfl, rfl⟩ := hfast
    obtain ⟨r, hr, -, hh, hHs, hf, h1⟩ := iterate_kerr
      ⟨Real.cos, Real.sin, Real.exp, Real.sqrt, Real.pi⟩ P 0 dz dt tol ws
    rw [kerr_path_gamma_zero] at hf h1
    exact ⟨r, hr, hh, hHs, hf, h1⟩
  · have h2 : 2 ≤ nt := by
      rcases hcase with h | h
      · exact absurd h hfast
      · exact h
    unfold Sspropc.iterate
    rw [if_neg hfast, general_path_gamma_zero dz traman toptical dt ws h2]
    simp only [Option.bind_eq_bind, Option.some_bind]
    exact ⟨_, rfl, rfl, rfl, rfl, rfl⟩

/-! ### One step of the scalar propagator that changes nothing -/

theorem zstep_identity {nt : ℕ} (hnt : 0 < nt) (P : Fftw ℝ nt) (hinv : P.BackwardForward)
    (dz traman toptical dt tol : ℝ) (maxiter : ℤ)
    (hcase : (traman = 0 ∧ toptical = 0) ∨ 2 ≤ nt) (x : CVec ℝ nt)
    (ws : Sspropc.Workspace ℝ nt)
    (hH : ws.halfstep = fun _ => ((1 : ℝ), (0 : ℝ))) (h1 : ws.u1 = x)
    (hf : ws.ufft = P.forward x) :
    ∃ r, Sspropc.zstep ⟨Real.cos, Real.sin, Real.exp, Real.sqrt, Real.pi⟩ P 0 dz traman toptical
        dt tol maxiter ws = some r ∧
      r.1.halfstep = (fun _ => ((1 : ℝ), (0 : ℝ))) ∧ r.1.u1 = x ∧ r.1.ufft = P.forward x := by
  let I : Sspropc.Workspace ℝ nt → Prop := fun v =>
    v.halfstep = (fun _ => ((1 : ℝ), (0 : ℝ))) ∧
    v.uhalf = (fun j => ((nt : ℝ) * (x j).1, (nt : ℝ) * (x j).2)) ∧
    v.u1 = x ∧ v.ufft = P.forward x
  have hbody : ∀ v, I v → ∃ r, Sspropc.iterate ⟨Real.cos, Real.sin, Real.exp, Real.sqrt, Real.pi⟩
      P 0 dz traman toptical dt tol v = some r ∧ I r.1 := by
    intro v hv
    obtain ⟨hvH, hvh, -, -⟩ := hv
    obtain ⟨r, hr, hh, hHs, hf', h1'⟩ := iterate_gamma_zero P dz traman toptical dt tol hcase v
    rw [hvh, cscale_inv_scaled hnt, hvH, cmult_one_right] at hf' h1'
    rw [hinv x, cscale_inv_scaled hnt] at h1'
    exact ⟨r, hr, hHs.trans hvH, hh.trans hvh, h1', hf'⟩
  have hI : I ⟨ws.u0, ws.ufft, P.backward (Sspropc.cmult ws.halfstep ws.ufft), ws.uv, ws.u1,
      ws.halfstep⟩ := by
    refine ⟨hH, ?_, h1, hf⟩
    show P.backward (Sspropc.cmult ws.halfstep ws.ufft) = _
    rw [hH, cmult_one_left, hf, hinv]
  obtain ⟨q, hq, hqH, -, hq1, hqf⟩ := forLoop_inv _ I hbody maxiter.toNat 0 _ hI
  unfold Sspropc.zstep
  simp only [hq]
  exact ⟨_, rfl, hqH, hq1, hqf⟩

/-! ### The discrete Fourier transform as a provider -/

theorem toC_add (a b : COMPLEX ℝ) : toC (a + b) = toC a + toC b := by
  apply Complex.ext <;> simp [toC]

theorem toC_sum {n : ℕ} (f : Fin n → COMPLEX ℝ) : toC (∑ j, f j) = ∑ j, toC (f j) := by
  have h : ∀ s : Finset (Fin n), toC (∑ j ∈ s, f j) = ∑ j ∈ s, toC (f j) := by
    intro s
    induction s using Finset.induction_on with
    | empty => simp [toC]; rfl
    | insert hi ih => rw [Finset.sum_insert hi, Finset.sum_insert hi, toC_add, ih]
  exact h Finset.univ

theorem toC_cmul (a b : COMPLEX ℝ) : toC (cmul a b) = toC a * toC b := by
  apply Complex.ext <;> simp [toC, cmul]

theorem toC_cos_sin (nt m : ℕ) :
    toC (Real.cos (2 * Real.pi * (m : ℝ) / (nt : ℝ)), Real.sin (2 * Real.pi * (m : ℝ) / (nt : ℝ)))
      = Complex.exp (2 * Real.pi * Complex.I / (nt : ℂ)) ^ m := by
  rw [← Complex.exp_nat_mul]
  have h : (m : ℂ) * (2 * Real.pi * Complex.I / (nt : ℂ))
      = ((2 * Real.pi * (m : ℝ) / (nt : ℝ) : ℝ) : ℂ) * Complex.I := by
    push_cast
    ring
  rw [h]
  apply Complex.ext
  · rw [Complex.exp_ofReal_mul_I_re]; rfl
  · rw [Complex.exp_ofReal_mul_I_im]; rfl

theorem toC_cos_neg_sin (nt m : ℕ) :
    toC (Real.cos (2 * Real.pi * (m : ℝ) / (nt : ℝ)),
        -Real.sin (2 * Real.pi * (m : ℝ) / (nt : ℝ)))
      = (Complex.exp (2 * Real.pi * Complex.I / (nt : ℂ)) ^ m)⁻¹ := by
  rw [← toC_cos_sin]
  have hone : toC (Real.cos (2 * Real.pi * (m : ℝ) / (nt : ℝ)),
        Real.sin (2 * Real.pi * (m : ℝ) / (nt : ℝ))) *
      toC (Real.cos (2 * Real.pi * (m : ℝ) / (nt : ℝ)),
        -Real.sin (2 * Real.pi * (m : ℝ) / (nt : ℝ))) = 1 := by
    have hcs := Real.cos_sq_add_sin_sq (2 * Real.pi * (m : ℝ) / (nt : ℝ))
    apply Complex.ext
    · simp only [Complex.mul_re, toC_re, toC_im, Complex.one_re]
      linear_combination hcs
    · simp only [Complex.mul_im, toC_re, toC_im, Complex.one_im]
      ring
  exact eq_inv_of_mul_eq_one_right hone

theorem toC_dft_forward {nt : ℕ} (x : CVec ℝ nt) (k : Fin nt) :
    toC ((dft ⟨Real.cos, Real.sin, Real.exp, Real.sqrt, Real.pi⟩ nt).forward x k)
      = ∑ j : Fin nt,
          (Complex.exp (2 * Real.pi * Complex.I / (nt : ℂ)) ^ (j.val * k.val))⁻¹ * toC (x j) := by
  simp only [dft]
  rw [toC_sum]
  apply Finset.sum_congr rfl
  intro j _
  rw [toC_cmul, toC_cos_neg_sin]

theorem toC_dft_backward {nt : ℕ} (x : CVec ℝ nt) (k : Fin nt) :
    toC ((dft ⟨Real.cos, Real.sin, Real.exp, Real.sqrt, Real.pi⟩ nt).backward x k)
      = ∑ j : Fin nt,
          Complex.exp (2 * Real.pi * Complex.I / (nt : ℂ)) ^ (j.val * k.val) * toC (x j) := by
  simp only [dft]
  rw [toC_sum]
  apply Finset.sum_congr rfl
  intro j _
  rw [toC_cmul, toC_cos_sin]

/-- Orthogonality of the powers of a primitive root of unity. -/
theorem root_sum_orthogonal {nt : ℕ} (hnt : 0 < nt) (l j : Fin nt) :
    ∑ k : Fin nt,
        Complex.exp (2 * Real.pi * Complex.I / (nt : ℂ)) ^ (k.val * l.val) *
          (Complex.exp (2 * Real.pi * Complex.I / (nt : ℂ)) ^ (j.val * k.val))⁻¹
      = if l = j then (nt : ℂ) else 0 := by
  have hζ := Complex.isPrimitiveRoot_exp nt (by omega)
  have hne : Complex.exp (2 * Real.pi * Complex.I / (nt : ℂ)) ≠ 0 := Complex.exp_ne_zero _
  have hterm : ∀ k : Fin nt,
      Complex.exp (2 * Real.pi * Complex.I / (nt : ℂ)) ^ (k.val * l.val) *
          (Complex.exp (2 * Real.pi * Complex.I / (nt : ℂ)) ^ (j.val * k.val))⁻¹
        = (Complex.exp (2 * Real.pi * Complex.I / (nt : ℂ)) ^ l.val *
            (Complex.exp (2 * Real.pi * Complex.I / (nt : ℂ)) ^ j.val)⁻¹) ^ k.val := by
    intro k
    rw [mul_pow, inv_pow, ← pow_mul, ← pow_mul, mul_comm k.val l.val]
  simp only [hterm]
  rw [Fin.sum_univ_eq_sum_range
    (fun i => (Complex.exp (2 * Real.pi * Complex.I / (nt : ℂ)) ^ l.val *
      (Complex.exp (2 * Real.pi * Complex.I / (nt : ℂ)) ^ j.val)⁻¹) ^ i) nt]
  by_cases hlj : l = j
  · subst hlj
    rw [if_pos rfl, mul_inv_cancel₀ (pow_ne_zero _ hne)]
    simp
  · rw [if_neg hlj]
    have hμ1 : Complex.exp (2 * Real.pi * Complex.I / (nt : ℂ)) ^ l.val *
        (Complex.exp (2 * Real.pi * Complex.I / (nt : ℂ)) ^ j.val)⁻¹ ≠ 1 := by
      intro h
      have h' : Complex.exp (2 * Real.pi * Complex.I / (nt : ℂ)) ^ l.val
          = Complex.exp (2 * Real.pi * Complex.I / (nt : ℂ)) ^ j.val := by
        have := mul_inv_eq_one₀ (pow_ne_zero j.val hne) |>.mp h
        exact this
      exact hlj (Fin.ext (hζ.pow_inj l.isLt j.isLt h'))
    have hμN : (Complex.exp (2 * Real.pi * Complex.I / (nt : ℂ)) ^ l.val *
        (Complex.exp (2 * Real.pi * Complex.I / (nt : ℂ)) ^ j.val)⁻¹) ^ nt = 1 := by
      rw [mul_pow, inv_pow, ← pow_mul, ← pow_mul, mul_comm l.val, mul_comm j.val, pow_mul,
        pow_mul, hζ.pow_eq_one]
      simp
    have hgeo := mul_geom_sum (Complex.exp (2 * Real.pi * Complex.I / (nt : ℂ)) ^ l.val *
      (Complex.exp (2 * Real.pi * Complex.I / (nt : ℂ)) ^ j.val)⁻¹) nt
    rw [hμN, sub_self] at hgeo
    rcases mul_eq_zero.mp hgeo with h | h
    · exact absurd (sub_eq_zero.mp h) hμ1
    · exact h

/-- The transform computed from its definition satisfies the inversion law. -/
theorem dft_backwardForward (nt : ℕ) (hnt : 0 < nt) :
    (dft ⟨Real.cos, Real.sin, Real.exp, Real.sqrt, Real.pi⟩ nt).BackwardForward := by
  intro x
  funext l
  apply toC_injective
  rw [toC_dft_backward]
  simp only [toC_dft_forward, Finset.mul_sum]
  rw [Finset.sum_comm]
  have hinner : ∀ j : Fin nt,
      ∑ k : Fin nt, Complex.exp (2 * Real.pi * Complex.I / (nt : ℂ)) ^ (k.val * l.val) *
          ((Complex.exp (2 * Real.pi * Complex.I / (nt : ℂ)) ^ (j.val * k.val))⁻¹ * toC (x j))
        = (if l = j then (nt : ℂ) else 0) * toC (x j) := by
    intro j
    rw [← root_sum_orthogonal hnt l j, Finset.sum_mul]
    apply Finset.sum_congr rfl
    intro k _
    ring
  simp only [hinner]
  rw [Finset.sum_eq_single l]
  · rw [if_pos rfl]
    apply Complex.ext <;> simp [toC]
  · intro j _ hj
    rw [if_neg (Ne.symm hj), zero_mul]
  · intro h
    exact absurd (Finset.mem_univ l) h

theorem dft_one_forward (x : CVec ℝ 1) :
    (dft ⟨Real.cos, Real.sin, Real.exp, Real.sqrt, Real.pi⟩ 1).forward x = x := by
  funext k
  have hk : k = 0 := Subsingleton.elim _ _
  subst hk
  simp [dft, cmul]

theorem dft_one_backward (x : CVec ℝ 1) :
    (dft ⟨Real.cos, Real.sin, Real.exp, Real.sqrt, Real.pi⟩ 1).backward x = x := by
  funext k
  have hk : k = 0 := Subsingleton.elim _ _
  subst hk
  simp [dft, cmul]

/-- With `maxiter = 1` the `do ... while` loop runs its body once and leaves
`ii = 1`, so the test `ii == maxiter` succeeds whatever `is_converged` returned. -/
theorem zstep_maxiter_one_warns {nt : ℕ} (M : Libm ℝ) (P : Fftw ℝ nt)
    (lin : CVec ℝ nt → CVec ℝ nt → CVec ℝ nt × CVec ℝ nt) (chi gamma dz tol : ℝ)
    (ws : Sspropvc.Workspace ℝ nt) :
    (Sspropvc.zstep M P lin chi gamma dz tol 1 ws).2 = true := by
  simp [Sspropvc.zstep, Sspropvc.doWhile]

/-! ### The gateway functions -/

theorem round_toNat_of_neg (x : ℝ) (h : x < 0) : (SSProp.round x).toNat = 0 := by
  unfold SSProp.round
  split_ifs with h0
  · have h1 : ⌊x + 1 / 2⌋ < 1 := Int.floor_lt.mpr (by push_cast; linarith)
    exact Int.toNat_eq_zero.mpr (by omega)
  · exact Int.toNat_eq_zero.mpr (Int.ceil_le.mpr (by push_cast; linarith))

/-- The outcome of the scalar `propagate` is an error message exactly when the
length check fails. -/
theorem scalar_propagate_errMsg {nt : ℕ} (M : Libm ℝ) (P : Fftw ℝ nt) (u : mxArray ℝ nt)
    (dt dz : ℝ) (nz : ℤ) (alphap beta : List ℝ) (gamma traman toptical : ℝ) (maxiter : ℤ)
    (tol : ℝ) (w0 : Fin nt → ℝ) (ws : Sspropc.Workspace ℝ nt) (msg : String) :
    Sspropc.propagate M P u dt dz nz alphap beta gamma traman toptical maxiter tol w0 ws
        = .error (.errMsg msg) ↔
      (¬(alphap.length = 1 ∨ alphap.length = nt) ∧ msg = "Invalid vector length (alpha).") := by
  unfold Sspropc.propagate
  by_cases h : alphap.length = 1 ∨ alphap.length = nt
  · rw [dif_pos h]
    constructor
    · intro he
      exfalso
      cases hw : Sspropc.wspace M w0 dt with
      | none => rw [hw] at he; simp at he
      | some w =>
          rw [hw] at he
          simp only at he
          split at he <;> simp at he
    · intro hc
      exact absurd h hc.1
  · rw [dif_neg h]
    constructor
    · intro he
      refine ⟨h, ?_⟩
      simp only [Except.error.injEq, Fault.errMsg.injEq] at he
      exact he.symm
    · intro hc
      rw [hc.2]

/-- The part of the scalar `mexFunction` after the argument-count checks, for the
optional arguments as parsed: the outcome of `propagate` decides the result. -/
theorem scalar_mexFunction_main {nt : ℕ} (M : Libm ℝ) (P : Fftw ℝ nt) (g : Sspropc.Globals)
    (c : Sspropc.Call ℝ nt) (w0 : Fin nt → ℝ) (ws : Sspropc.Workspace ℝ nt)
    (hin : 7 ≤ c.nrhs) (hout : c.nlhs ≤ 1) :
    ∃ (traman toptical tol : ℝ) (maxiter : ℤ),
      (∀ e, Sspropc.propagate M P c.u0 c.dt c.dz (SSProp.round c.nz) c.alphap c.beta c.gamma
            traman toptical maxiter tol w0 ws = .error e →
          Sspropc.mexFunction M P g c w0 ws
            = (Sspropc.sspropc_initialize_data g (nt : ℤ), .error e)) ∧
      (∀ r, Sspropc.propagate M P c.u0 c.dt c.dz (SSProp.round c.nz) c.alphap c.beta c.gamma
            traman toptical maxiter tol w0 ws = .ok r →
          Sspropc.mexFunction M P g c w0 ws
            = (Sspropc.sspropc_destroy_data (Sspropc.sspropc_initialize_data g (nt : ℤ)),
                .ok (some r.1, r.2))) := by
  unfold Sspropc.mexFunction
  rw [if_neg (by omega), if_neg (by omega), if_neg (by omega)]
  dsimp only
  exact ⟨_, _, _, _, fun e he => by rw [he], fun r hr => by rw [hr]⟩

theorem scalar_zero_steps {nt : ℕ} (hnt : 0 < nt) (P : Fftw ℝ nt) (u : mxArray ℝ nt)
    (dt dz : ℝ) (nz : ℤ) (hnz : nz.toNat = 0) (alphap beta : List ℝ)
    (hlen : alphap.length = 1 ∨ alphap.length = nt) (gamma traman toptical : ℝ)
    (maxiter : ℤ) (tol : ℝ) (w0 : Fin nt → ℝ) (ws : Sspropc.Workspace ℝ nt) :
    Sspropc.propagate ⟨Real.cos, Real.sin, Real.exp, Real.sqrt, Real.pi⟩ P u dt dz nz alphap
        beta gamma traman toptical maxiter tol w0 ws = .ok (⟨u.pr, some u.im⟩, []) := by
  unfold Sspropc.propagate
  rw [dif_pos hlen]
  simp only [wspace_eq hnt, hnz, Sspropc.zloop]
  rfl

theorem vector_zero_steps {nt : ℕ} (hnt : 0 < nt) (P : Fftw ℝ nt) (u0x u0y : mxArray ℝ nt)
    (dt dz : ℝ) (nz : ℤ) (hnz : nz.toNat = 0) (alphaa alphab betaa betab : List ℝ)
    (gamma psi chi : ℝ) (elliptical : Bool) (maxiter : ℤ) (tol : ℝ) (w0 : Fin nt → ℝ)
    (ws : Sspropvc.Workspace ℝ nt) :
    Sspropvc.propagate ⟨Real.cos, Real.sin, Real.exp, Real.sqrt, Real.pi⟩ P u0x u0y dt dz nz
        alphaa alphab betaa betab gamma psi chi elliptical maxiter tol w0 ws
      = .ok ((⟨u0x.pr, some u0x.im⟩, ⟨u0y.pr, some u0y.im⟩), []) := by
  unfold Sspropvc.propagate
  simp only [compute_w_eq hnt]
  cases elliptical
  · simp only [Sspropvc.circular_method, Sspropvc.method_branch, hnz, Sspropvc.zloop,
      Sspropvc.cscale, one_mul, Prod.mk.eta, Bool.false_eq_true, if_false]
    exact congrArg (fun r => Except.ok (r, [])) (inv_rotate_rotate (Real.pi / 4) 0 u0x u0y)
  · simp only [Sspropvc.elliptical_method, Sspropvc.method_branch, hnz, Sspropvc.zloop,
      Sspropvc.cscale, one_mul, Prod.mk.eta, if_true]
    exact congrArg (fun r => Except.ok (r, [])) (inv_rotate_rotate chi psi u0x u0y)

theorem mxGetString_circular : mxGetString (some "circular") 11 = some "circular" := by
  have hl : "circular".length < 11 := by decide
  have hc : cstr "circular" = "circular" := by decide
  simp [mxGetString, hl, hc]

theorem mxGetString_elliptical : mxGetString (some "elliptical") 11 = some "elliptical" := by
  have hl : "elliptical".length < 11 := by decide
  have hc : cstr "elliptical" = "elliptical" := by decide
  simp [mxGetString, hl, hc]

/-- The part of the vector `mexFunction` after the argument-count checks, when
the wisdom file does not stop a first call: the method selection and then the
outcome of `propagate` decide the result. -/
theorem vector_mexFunction_main {nt : ℕ} (M : Libm ℝ) (P : Fftw ℝ nt) (f : WisdomFile)
    (g : Sspropvc.Globals) (c : Sspropvc.Call ℝ nt) (w0 : Fin nt → ℝ)
    (ws : Sspropvc.Workspace ℝ nt) (hin : 10 ≤ c.nrhs) (hout : c.nlhs ≤ 2)
    (hw : g.firstcall = true → f ≠ .unreadable) :
    (∀ e, Sspropvc.method_flag c.nrhs c.methodstr = .error e →
      Sspropvc.mexFunction M P f g c w0 ws = ({ g with firstcall := false }, .error e)) ∧
    (∀ ell, Sspropvc.method_flag c.nrhs c.methodstr = .ok ell →
      ∃ (psi chi tol : ℝ) (maxiter : ℤ),
        (∀ e, Sspropvc.propagate M P c.u0x c.u0y c.dt c.dz (SSProp.round c.nz) c.alphaa
              c.alphab c.betaa c.betab c.gamma psi chi ell maxiter tol w0 ws = .error e →
            Sspropvc.mexFunction M P f g c w0 ws
              = ({ firstcall := false, allocated := true, method := g.method }, .error e)) ∧
        (∀ r, Sspropvc.propagate M P c.u0x c.u0y c.dt c.dz (SSProp.round c.nz) c.alphaa
              c.alphab c.betaa c.betab c.gamma psi chi ell maxiter tol w0 ws = .ok r →
            Sspropvc.mexFunction M P f g c w0 ws
              = ({ firstcall := false, allocated := false, method := g.method },
                  .ok (some r.1, r.2)))) := by
  have hwis : (if g.firstcall then Sspropvc.sspropvc_load_wisdom f else .ok ()) = .ok () := by
    cases hf : g.firstcall with
    | false => simp
    | true =>
        have := hw hf
        cases f <;> simp_all [Sspropvc.sspropvc_load_wisdom]
  unfold Sspropvc.mexFunction
  rw [if_neg (by omega), if_neg (by omega), if_neg (by omega), hwis]
  dsimp only
  refine ⟨?_, ?_⟩
  · intro e he
    rw [he]
  · intro ell hell
    rw [hell]
    dsimp only
    exact ⟨_, _, _, _, fun e he => by rw [he], fun r hr => by rw [hr]⟩

/-- A scalar call with a negative `nz` and otherwise valid arguments takes no
step and returns the input. -/
theorem scalar_call_negative_nz {nt : ℕ} (hnt : 0 < nt) (P : Fftw ℝ nt) (g : Sspropc.Globals)
    (c : Sspropc.Call ℝ nt) (w0 : Fin nt → ℝ) (ws : Sspropc.Workspace ℝ nt)
    (hin : 7 ≤ c.nrhs) (hout : c.nlhs ≤ 1)
    (hlen : c.alphap.length = 1 ∨ c.alphap.length = nt) (hnz : c.nz < 0) :
    (Sspropc.mexFunction ⟨Real.cos, Real.sin, Real.exp, Real.sqrt, Real.pi⟩ P g c w0 ws).2
      = .ok (some ⟨c.u0.pr, some c.u0.im⟩, []) := by
  obtain ⟨traman, toptical, tol, maxiter, -, hok⟩ :=
    scalar_mexFunction_main ⟨Real.cos, Real.sin, Real.exp, Real.sqrt, Real.pi⟩ P g c w0 ws
      hin hout
  rw [hok _ (scalar_zero_steps hnt P c.u0 c.dt c.dz _ (round_toNat_of_neg c.nz hnz) c.alphap
    c.beta hlen c.gamma traman toptical maxiter tol w0 ws)]

/-- A vector call with a negative `nz` and otherwise valid arguments takes no
step and returns the input. -/
theorem vector_call_negative_nz {nt : ℕ} (hnt : 0 < nt) (P : Fftw ℝ nt) (f : WisdomFile)
    (g : Sspropvc.Globals) (c : Sspropvc.Call ℝ nt) (w0 : Fin nt → ℝ)
    (ws : Sspropvc.Workspace ℝ nt) (hin : 10 ≤ c.nrhs) (hout : c.nlhs ≤ 2)
    (hw : g.firstcall = true → f ≠ .unreadable)
    (hm : c.nrhs ≤ 11 ∨ c.methodstr = some "circular" ∨ c.methodstr = some "elliptical")
    (hnz : c.nz < 0) :
    (Sspropvc.mexFunction ⟨Real.cos, Real.sin, Real.exp, Real.sqrt, Real.pi⟩ P f g c w0 ws).2
      = .ok (some (⟨c.u0x.pr, some c.u0x.im⟩, ⟨c.u0y.pr, some c.u0y.im⟩), []) := by
  have hflag : ∃ ell, Sspropvc.method_flag c.nrhs c.methodstr = .ok ell := by
    unfold Sspropvc.method_flag
    by_cases h11 : c.nrhs > 11
    · rw [if_pos h11]
      rcases hm with h | h | h
      · omega
      · rw [h]; exact ⟨false, by rw [mxGetString_circular]; rfl⟩
      · rw [h]; exact ⟨true, by rw [mxGetString_elliptical]; rfl⟩
    · rw [if_neg h11]; exact ⟨true, rfl⟩
  obtain ⟨ell, hell⟩ := hflag
  obtain ⟨psi, chi, tol, maxiter, -, hok⟩ :=
    (vector_mexFunction_main ⟨Real.cos, Real.sin, Real.exp, Real.sqrt, Real.pi⟩ P f g c w0 ws
      hin hout hw).2 ell hell
  rw [hok _ (vector_zero_steps hnt P c.u0x c.u0y c.dt c.dz _ (round_toNat_of_neg c.nz hnz)
    c.alphaa c.alphab c.betaa c.betab c.gamma psi chi ell maxiter tol w0 ws)]

/-- The method selection as a case distinction on the C string that
`mxGetString` leaves in the buffer. -/
theorem method_flag_spec (nrhs : ℤ) (ms : Option String) :
    Sspropvc.method_flag nrhs ms =
      if 11 < nrhs then
        (if mxGetString ms 11 = some "circular" then .ok false
         else if mxGetString ms 11 = some "elliptical" then .ok true
         else .error (.errMsg "incorrect method: elliptical or ciruclar only"))
      else .ok true := by
  unfold Sspropvc.method_flag
  by_cases h : nrhs > 11
  · rw [if_pos h, if_pos h]
    cases mxGetString ms 11 with
    | none => simp
    | some str => simp only [Option.some.injEq]
  · rw [if_neg h, if_neg h]

theorem scalar_option_call_error (g : Sspropc.Globals) (a : Option String) (e : Fault)
    (h : (Sspropc.option_call g a).2 = .error e) : (Sspropc.option_call g a).1 = g := by
  unfold Sspropc.option_call at h ⊢
  generalize mxGetString a 100 = o at h ⊢
  cases o with
  | none => rfl
  | some str =>
      simp only at h ⊢
      split_ifs at h ⊢
      rfl

theorem vector_option_call_error (f : WisdomFile) (g : Sspropvc.Globals) (a : Option String)
    (e : Fault) (h : (Sspropvc.option_call f g a).2 = .error e) :
    (Sspropvc.option_call f g a).1 = g := by
  unfold Sspropvc.option_call at h ⊢
  generalize mxGetString a 100 = o at h ⊢
  cases o with
  | none => rfl
  | some str =>
      simp only at h ⊢
      split_ifs at h ⊢ <;> rfl

/-- The vector `propagate` raises no error message. -/
theorem vector_propagate_no_errMsg {nt : ℕ} (M : Libm ℝ) (P : Fftw ℝ nt)
    (u0x u0y : mxArray ℝ nt) (dt dz : ℝ) (nz : ℤ) (alphaa alphab betaa betab : List ℝ)
    (gamma psi chi : ℝ) (elliptical : Bool) (maxiter : ℤ) (tol : ℝ) (w0 : Fin nt → ℝ)
    (ws : Sspropvc.Workspace ℝ nt) (msg : String) :
    Sspropvc.propagate M P u0x u0y dt dz nz alphaa alphab betaa betab gamma psi chi elliptical
      maxiter tol w0 ws ≠ .error (.errMsg msg) := by
  unfold Sspropvc.propagate
  cases Sspropvc.compute_w M w0 dt with
  | none => simp
  | some w => cases elliptical <;> simp

/-- A failed scalar call whose message is not the one of the length check leaves
the process-wide variables as they were. -/
theorem scalar_error_state {nt : ℕ} (M : Libm ℝ) (P : Fftw ℝ nt) (g : Sspropc.Globals)
    (c : Sspropc.Call ℝ nt) (w0 : Fin nt → ℝ) (ws : Sspropc.Workspace ℝ nt) (msg : String)
    (herr : (Sspropc.mexFunction M P g c w0 ws).2 = .error (.errMsg msg))
    (hmsg : msg ≠ "Invalid vector length (alpha).") :
    (Sspropc.mexFunction M P g c w0 ws).1 = g := by
  by_cases h1 : c.nrhs = 1
  · have hopt := scalar_option_call_error g c.argstr
    unfold Sspropc.mexFunction at herr ⊢
    rw [if_pos h1] at herr ⊢
    rcases hoc : Sspropc.option_call g c.argstr with ⟨g1, r⟩
    rw [hoc] at herr hopt
    cases r with
    | error e => exact hopt e rfl
    | ok u => simp at herr
  · by_cases h7 : c.nrhs < 7
    · unfold Sspropc.mexFunction
      rw [if_neg h1, if_pos h7]
    · by_cases ho : c.nlhs > 1
      · unfold Sspropc.mexFunction
        rw [if_neg h1, if_neg h7, if_pos ho]
      · obtain ⟨traman, toptical, tol, maxiter, he, hok⟩ :=
          scalar_mexFunction_main M P g c w0 ws (by omega) (by omega)
        cases hp : Sspropc.propagate M P c.u0 c.dt c.dz (SSProp.round c.nz) c.alphap c.beta
            c.gamma traman toptical maxiter tol w0 ws with
        | error e =>
            rw [he e hp] at herr
            simp only [Except.error.injEq] at herr
            rw [herr] at hp
            exact absurd ((scalar_propagate_errMsg M P c.u0 c.dt c.dz (SSProp.round c.nz)
              c.alphap c.beta c.gamma traman toptical maxiter tol w0 ws msg).mp hp).2 hmsg
        | ok r =>
            rw [hok r hp] at herr
            simp at herr

/-- A failed vector call leaves the process-wide variables as they were, except
that the error of the method selection comes after `firstcall` is cleared. -/
theorem vector_error_state {nt : ℕ} (M : Libm ℝ) (P : Fftw ℝ nt) (f : WisdomFile)
    (g : Sspropvc.Globals) (c : Sspropvc.Call ℝ nt) (w0 : Fin nt → ℝ)
    (ws : Sspropvc.Workspace ℝ nt) (msg : String)
    (herr : (Sspropvc.mexFunction M P f g c w0 ws).2 = .error (.errMsg msg)) :
    (Sspropvc.mexFunction M P f g c w0 ws).1 = g ∨
      ((Sspropvc.mexFunction M P f g c w0 ws).1 = { g with firstcall := false } ∧
        msg = "incorrect method: elliptical or ciruclar only") := by
  by_cases h1 : c.nrhs = 1
  · left
    have hopt := vector_option_call_error f g c.argstr
    unfold Sspropvc.mexFunction at herr ⊢
    rw [if_pos h1] at herr ⊢
    rcases hoc : Sspropvc.option_call f g c.argstr with ⟨g1, r⟩
    rw [hoc] at herr hopt
    cases r with
    | error e => exact hopt e rfl
    | ok u => simp at herr
  · by_cases h10 : c.nrhs < 10
    · left
      unfold Sspropvc.mexFunction
      rw [if_neg h1, if_pos h10]
    · by_cases ho : c.nlhs > 2
      · left
        unfold Sspropvc.mexFunction
        rw [if_neg h1, if_neg h10, if_pos ho]
      · by_cases hw : g.firstcall = true → f ≠ .unreadable
        · obtain ⟨hbad, hgood⟩ :=
            vector_mexFunction_main M P f g c w0 ws (by omega) (by omega) hw
          cases hm : Sspropvc.method_flag c.nrhs c.methodstr with
          | error e =>
              right
              rw [hbad e hm] at herr ⊢
              refine ⟨rfl, ?_⟩
              simp only [Except.error.injEq] at herr
              rw [herr, method_flag_spec] at hm
              split_ifs at hm
              simp at hm
              exact hm.symm
          | ok ell =>
              exfalso
              obtain ⟨psi, chi, tol, maxiter, he, hok⟩ := hgood ell hm
              cases hp : Sspropvc.propagate M P c.u0x c.u0y c.dt c.dz (SSProp.round c.nz)
                  c.alphaa c.alphab c.betaa c.betab c.gamma psi chi ell maxiter tol w0 ws with
              | error e =>
                  rw [he e hp] at herr
                  simp only [Except.error.injEq] at herr
                  rw [herr] at hp
                  exact vector_propagate_no_errMsg M P c.u0x c.u0y c.dt c.dz _ c.alphaa c.alphab
                    c.betaa c.betab c.gamma psi chi ell maxiter tol w0 ws msg hp
              | ok r =>
                  rw [hok r hp] at herr
                  simp at herr
        · left
          have hfc : g.firstcall = true := by
            by_contra hh
            exact hw (fun h => absurd h hh)
          have hf : f = .unreadable := by
            by_contra hh
            exact hw (fun _ => hh)
          unfold Sspropvc.mexFunction
          rw [if_neg h1, if_neg h10, if_neg ho, hfc, hf]
          rfl

/-! ### Euclidean norms of the buffers -/

theorem euclid_norm_sq {nt : ℕ} (f : Fin nt → ℂ) :
    ‖(WithLp.equiv 2 (Fin nt → ℂ)).symm f‖ ^ 2 = ∑ j, Complex.normSq (f j) := by
  rw [EuclideanSpace.norm_eq, Real.sq_sqrt (Finset.sum_nonneg fun j _ => sq_nonneg _)]
  apply Finset.sum_congr rfl
  intro j _
  rw [WithLp.equiv_symm_pi_apply, Complex.norm_eq_abs, Complex.sq_abs]

/-- With a previous estimate that is not identically zero, `is_converged` is the
comparison of the quotient of the two square roots with `tol`. -/
theorem is_converged_iff_sqrt {nt : ℕ} (uva u1a uvb u1b : CVec ℝ nt) (tol : ℝ)
    (h1 : (∃ j, u1a j ≠ 0) ∨ (∃ j, u1b j ≠ 0)) :
    Sspropvc.is_converged ⟨Real.cos, Real.sin, Real.exp, Real.sqrt, Real.pi⟩ uva u1a uvb u1b tol
        = true ↔
      Real.sqrt (∑ j, Complex.normSq (toC (uva j) / (nt : ℂ) - toC (u1a j)) +
          ∑ j, Complex.normSq (toC (uvb j) / (nt : ℂ) - toC (u1b j))) /
        Real.sqrt (∑ j, Complex.normSq (toC (u1a j)) + ∑ j, Complex.normSq (toC (u1b j)))
        < tol := by
  have ha : 0 ≤ ∑ j, Complex.normSq (toC (u1a j)) :=
    Finset.sum_nonneg fun j _ => Complex.normSq_nonneg _
  have hb : 0 ≤ ∑ j, Complex.normSq (toC (u1b j)) :=
    Finset.sum_nonneg fun j _ => Complex.normSq_nonneg _
  have hpos : 0 < ∑ j, Complex.normSq (toC (u1a j)) + ∑ j, Complex.normSq (toC (u1b j)) := by
    rcases h1 with h | h
    · have := energy_pos h
      simp only [energy, ← normSq_toC] at this
      linarith
    · have := energy_pos h
      simp only [energy, ← normSq_toC] at this
      linarith
  unfold Sspropvc.is_converged quotLt
  rw [is_converged_sums_eq]
  have hs : Real.sqrt (∑ j, Complex.normSq (toC (u1a j)) +
      ∑ j, Complex.normSq (toC (u1b j))) ≠ 0 := (Real.sqrt_pos.mpr hpos).ne'
  simp only [hs, if_false, decide_eq_true_eq]

/-! ### Complex exponentials in components -/

theorem cexp_I_mul (x : ℝ) :
    Complex.exp (Complex.I * (x : ℂ)) = ⟨Real.cos x, Real.sin x⟩ := by
  rw [mul_comm]
  apply Complex.ext
  · rw [Complex.exp_ofReal_mul_I_re]
  · rw [Complex.exp_ofReal_mul_I_im]

theorem cexp_neg_I_mul (x : ℝ) :
    Complex.exp (-(Complex.I * (x : ℂ))) = ⟨Real.cos x, -Real.sin x⟩ := by
  apply Complex.ext
  · rw [cexp_neg_I_mul_re]
  · rw [cexp_neg_I_mul_im]

/-! ### The general nonlinear branch on a single sample -/

/-- With one sample the first block of the general branch reads `u0[1]`. -/
theorem general_path_single_sample (M : Libm ℝ) (gamma dz traman toptical dt : ℝ)
    (ws : Sspropc.Workspace ℝ 1) :
    Sspropc.general_path M gamma dz traman toptical dt ws = none := by
  have h1 : rd ws.u0 (0 + 1) = none := rd_none ws.u0 (0 + 1) (Or.inr (by norm_num))
  unfold Sspropc.general_path Sspropc.general_sample
  rw [h1]
  cases rd ws.u0 (((1 : ℕ) : ℤ) - 1) <;> cases rd ws.u0 0 <;> rfl

/-! ### The convergence loops and the bound `maxiter` -/

/-- For `maxiter ≤ 0` the `do ... while` loop of the vector propagator runs its
body once and leaves `ii = 1`. -/
theorem doWhile_nonpos {nt : ℕ}
    (body : Sspropvc.Workspace ℝ nt → Sspropvc.Workspace ℝ nt × Bool) (maxiter : ℤ)
    (hm : maxiter ≤ 0) (ws : Sspropvc.Workspace ℝ nt) :
    Sspropvc.doWhile body maxiter (maxiter - 1).toNat 0 ws = (1, (body ws).1) := by
  have h0 : (maxiter - 1).toNat = 0 := Int.toNat_eq_zero.mpr (by omega)
  rw [h0]
  rfl

/-! ### The frequency-domain buffer across steps -/

/-- A pass of the scalar loop body completes when the pure-Kerr branch is taken
or there are at least two samples, and leaves the new estimate equal to the
scaled inverse transform of the new `ufft`. -/
theorem iterate_estimate {nt : ℕ} (M : Libm ℝ) (P : Fftw ℝ nt)
    (gamma dz traman toptical dt tol : ℝ) (hcase : (traman = 0 ∧ toptical = 0) ∨ 2 ≤ nt)
    (ws : Sspropc.Workspace ℝ nt) :
    ∃ r, Sspropc.iterate M P gamma dz traman toptical dt tol ws = some r ∧
      r.1.u1 = Sspropc.cscale (P.backward r.1.ufft) (1 / (nt : ℝ)) ∧
      r.1.u0 = ws.u0 ∧ r.1.halfstep = ws.halfstep ∧ r.1.uhalf = ws.uhalf := by
  unfold Sspropc.iterate
  by_cases hk : traman = 0 ∧ toptical = 0
  · rw [if_pos hk]
    simp only [Option.bind_eq_bind, Option.some_bind]
    exact ⟨_, rfl, rfl, rfl, rfl, rfl⟩
  · rw [if_neg hk, general_path_eq M gamma dz traman toptical dt ws (hcase.resolve_left hk)]
    simp only [Option.bind_eq_bind, Option.some_bind]
    exact ⟨_, rfl, rfl, rfl, rfl, rfl⟩

/-- The forward transform of a scaled inverse transform gives the spectrum
back. -/
theorem forward_scaled_backward {nt : ℕ} (hnt : 0 < nt) (P : Fftw ℝ nt) (hlin : P.Linear)
    (hfb : P.ForwardBackward) (x : CVec ℝ nt) :
    P.forward (Sspropc.cscale (P.backward x) (1 / (nt : ℝ))) = x := by
  rw [forward_cscale P hlin, hfb, cscale_inv_scaled hnt]

/-- One step of the scalar propagator keeps `ufft = fft(u0)` and `u1 = u0`. -/
theorem zstep_spectrum {nt : ℕ} (hnt : 0 < nt) (M : Libm ℝ) (P : Fftw ℝ nt) (hlin : P.Linear)
    (hfb : P.ForwardBackward) (gamma dz traman toptical dt tol : ℝ) (maxiter : ℤ)
    (hcase : (traman = 0 ∧ toptical = 0) ∨ 2 ≤ nt) (ws : Sspropc.Workspace ℝ nt)
    (h1 : ws.ufft = P.forward ws.u0) (h2 : ws.u1 = ws.u0) :
    ∃ r, Sspropc.zstep M P gamma dz traman toptical dt tol maxiter ws = some r ∧
      r.1.ufft = P.forward r.1.u0 ∧ r.1.u1 = r.1.u0 := by
  let I : Sspropc.Workspace ℝ nt → Prop := fun v => v.ufft = P.forward v.u1
  have hbody : ∀ v, I v → ∃ r, Sspropc.iterate M P gamma dz traman toptical dt tol v = some r ∧
      I r.1 := by
    intro v _
    obtain ⟨r, hr, hr1, -⟩ := iterate_estimate M P gamma dz traman toptical dt tol hcase v
    refine ⟨r, hr, ?_⟩
    show r.1.ufft = P.forward r.1.u1
    rw [hr1, forward_scaled_backward hnt P hlin hfb]
  have hI : I ⟨ws.u0, ws.ufft, P.backward (Sspropc.cmult ws.halfstep ws.ufft), ws.uv, ws.u1,
      ws.halfstep⟩ := by
    show ws.ufft = P.forward ws.u1
    rw [h2, h1]
  obtain ⟨q, hq, hqI⟩ := forLoop_inv _ I hbody maxiter.toNat 0 _ hI
  unfold Sspropc.zstep
  simp only [hq]
  refine ⟨_, rfl, ?_, ?_⟩
  · show q.2.ufft = P.forward (Sspropc.cscale q.2.u1 1)
    rw [cscale_one]
    exact hqI
  · show q.2.u1 = Sspropc.cscale q.2.u1 1
    rw [cscale_one]

/-- Whatever the loop `do ... while` starts from, it ends on a workspace a pass of
its body has produced. -/
theorem doWhile_post {nt : ℕ}
    (body : Sspropvc.Workspace ℝ nt → Sspropvc.Workspace ℝ nt × Bool) (maxiter : ℤ)
    (Q : Sspropvc.Workspace ℝ nt → Prop) (hQ : ∀ ws, Q (body ws).1) :
    ∀ (n : ℕ) (ii : ℤ) (ws : Sspropvc.Workspace ℝ nt),
      Q (Sspropvc.doWhile body maxiter n ii ws).2 := by
  intro n
  induction n with
  | zero =>
    intro ii ws
    exact hQ ws
  | succ n ih =>
    intro ii ws
    unfold Sspropvc.doWhile
    split_ifs
    · exact ih _ _
    · exact hQ ws

/-- One step of the vector propagator ends with `uafft = fft(u0a)` and
`ubfft = fft(u0b)`, whatever it starts from. -/
theorem vector_zstep_spectrum {nt : ℕ} (hnt : 0 < nt) (M : Libm ℝ) (P : Fftw ℝ nt)
    (hlin : P.Linear) (hfb : P.ForwardBackward)
    (lin : CVec ℝ nt → CVec ℝ nt → CVec ℝ nt × CVec ℝ nt) (chi gamma dz tol : ℝ)
    (maxiter : ℤ) (ws : Sspropvc.Workspace ℝ nt) :
    (Sspropvc.zstep M P lin chi gamma dz tol maxiter ws).1.uafft
        = P.forward (Sspropvc.zstep M P lin chi gamma dz tol maxiter ws).1.u0a ∧
      (Sspropvc.zstep M P lin chi gamma dz tol maxiter ws).1.ubfft
        = P.forward (Sspropvc.zstep M P lin chi gamma dz tol maxiter ws).1.u0b := by
  let Q : Sspropvc.Workspace ℝ nt → Prop := fun v =>
    v.u1a = Sspropc.cscale (P.backward v.uafft) (1 / (nt : ℝ)) ∧
    v.u1b = Sspropc.cscale (P.backward v.ubfft) (1 / (nt : ℝ))
  have hQ : ∀ v, Q (Sspropvc.iterate M P lin chi gamma dz tol v).1 := fun v => ⟨rfl, rfl⟩
  have hone : ∀ x : CVec ℝ nt, (fun jj => ((1 : ℝ) * (x jj).1, (1 : ℝ) * (x jj).2)) = x := by
    intro x
    funext jj
    simp
  unfold Sspropvc.zstep
  simp only [Sspropvc.cscale, hone]
  obtain ⟨ha, hb⟩ := doWhile_post (Sspropvc.iterate M P lin chi gamma dz tol) maxiter Q hQ
    (maxiter - 1).toNat 0
    ⟨ws.u0a, ws.u0b, ws.uafft, ws.ubfft,
      fun jj => (1 / (nt : ℝ) * (P.backward (lin ws.uafft ws.ubfft).1 jj).1,
        1 / (nt : ℝ) * (P.backward (lin ws.uafft ws.ubfft).1 jj).2),
      fun jj => (1 / (nt : ℝ) * (P.backward (lin ws.uafft ws.ubfft).2 jj).1,
        1 / (nt : ℝ) * (P.backward (lin ws.uafft ws.ubfft).2 jj).2),
      ws.uva, ws.uvb, ws.u1a, ws.u1b⟩
  constructor
  · rw [ha, forward_scaled_backward hnt P hlin hfb]
  · rw [hb, forward_scaled_backward hnt P hlin hfb]

theorem vector_zloop_inv {nt : ℕ}
    (step : Sspropvc.Workspace ℝ nt → Sspropvc.Workspace ℝ nt × Bool)
    (J : Sspropvc.Workspace ℝ nt → Prop) (hstep : ∀ ws, J ws → J (step ws).1) :
    ∀ (n : ℕ) (ws : Sspropvc.Workspace ℝ nt), J ws → J (Sspropvc.zloop step n ws).1 := by
  intro n
  induction n with
  | zero =>
    intro ws h
    exact h
  | succ n ih =>
    intro ws h
    unfold Sspropvc.zloop
    exact ih _ (hstep ws h)

/-! ### The counter of the scalar convergence loop -/

/-- The scalar loop ends with its counter at the bound exactly when every pass
the bound allows ran and none of them converged. -/
theorem forLoop_counter {nt : ℕ}
    (body : Sspropc.Workspace ℝ nt → Option (Sspropc.Workspace ℝ nt × Bool)) :
    ∀ (n : ℕ) (ii : ℤ) (ws : Sspropc.Workspace ℝ nt) (r : ℤ × Sspropc.Workspace ℝ nt),
      Sspropc.forLoop body n ii ws = some r →
      (r.1 = ii + (n : ℤ) ↔
        ∀ k < n, ∃ s q, passes body k ws = some s ∧ body s = some q ∧ q.2 = false) ∧
      ii ≤ r.1 := by
  intro n
  induction n with
  | zero =>
    intro ii ws r hr
    unfold Sspropc.forLoop at hr
    simp only [Option.some.injEq] at hr
    subst hr
    exact ⟨⟨fun _ k hk => absurd hk (Nat.not_lt_zero k), fun _ => by simp⟩, le_refl _⟩
  | succ n ih =>
    intro ii ws r hr
    unfold Sspropc.forLoop at hr
    cases hb : body ws with
    | none =>
        rw [hb] at hr
        simp at hr
    | some q0 =>
        rw [hb] at hr
        simp only at hr
        by_cases hc : q0.2 = true
        · rw [if_pos hc] at hr
          simp only [Option.some.injEq] at hr
          subst hr
          refine ⟨⟨fun h => ?_, fun h => ?_⟩, le_refl _⟩
          · exfalso
            simp only at h
            push_cast at h
            omega
          · exfalso
            obtain ⟨s, q, hs, hq, hq2⟩ := h 0 (Nat.succ_pos n)
            simp only [passes, Option.some.injEq] at hs
            subst hs
            rw [hb] at hq
            simp only [Option.some.injEq] at hq
            subst hq
            rw [hq2] at hc
            exact Bool.false_ne_true hc
        · rw [if_neg hc] at hr
          obtain ⟨hiff, hle⟩ := ih (ii + 1) q0.1 r hr
          refine ⟨⟨fun h => ?_, fun h => ?_⟩, by omega⟩
          · have h' : r.1 = ii + 1 + (n : ℤ) := by
              push_cast at h
              omega
            have hall := hiff.mp h'
            intro k hk
            cases k with
            | zero => exact ⟨ws, q0, rfl, hb, by simpa using hc⟩
            | succ k =>
                obtain ⟨s, q, hs, hq, hq2⟩ := hall k (by omega)
                exact ⟨s, q, by simp only [passes, hb]; exact hs, hq, hq2⟩
          · have hall : ∀ k < n, ∃ s q, passes body k q0.1 = some s ∧ body s = some q ∧
                q.2 = false := by
              intro k hk
              obtain ⟨s, q, hs, hq, hq2⟩ := h (k + 1) (by omega)
              simp only [passes, hb] at hs
              exact ⟨s, q, hs, hq, hq2⟩
            have := hiff.mpr hall
            push_cast
            omega

/-- The list of warnings has one entry per step. -/
theorem zloop_length {nt : ℕ}
    (step : Sspropc.Workspace ℝ nt → Option (Sspropc.Workspace ℝ nt × Bool)) :
    ∀ (n : ℕ) (ws : Sspropc.Workspace ℝ nt) (r : Sspropc.Workspace ℝ nt × List Bool),
      Sspropc.zloop step n ws = some r → r.2.length = n := by
  intro n
  induction n with
  | zero =>
    intro ws r hr
    unfold Sspropc.zloop at hr
    simp only [Option.some.injEq] at hr
    subst hr
    rfl
  | succ n ih =>
    intro ws r hr
    unfold Sspropc.zloop at hr
    cases hs : step ws with
    | none =>
        rw [hs] at hr
        simp at hr
    | some r1 =>
        rw [hs] at hr
        simp only at hr
        cases hz : Sspropc.zloop step n r1.1 with
        | none =>
            rw [hz] at hr
            simp at hr
        | some q =>
            rw [hz] at hr
            simp only [Option.some.injEq] at hr
            subst hr
            simp [ih r1.1 q hz]

/-- One step of the scalar propagator completes (pure-Kerr branch, or at least
two samples); its warning flag in terms of the passes of the loop body, and the
estimate it accepts. -/
theorem zstep_warning {nt : ℕ} (M : Libm ℝ) (P : Fftw ℝ nt)
    (gamma dz traman toptical dt tol : ℝ) (maxiter : ℤ)
    (hcase : (traman = 0 ∧ toptical = 0) ∨ 2 ≤ nt) (ws : Sspropc.Workspace ℝ nt) :
    ∃ r, Sspropc.zstep M P gamma dz traman toptical dt tol maxiter ws = some r ∧
      (0 ≤ maxiter →
        (r.2 = true ↔ ∀ k < maxiter.toNat, ∃ s q,
          passes (Sspropc.iterate M P gamma dz traman toptical dt tol) k
            { ws with uhalf := P.backward (Sspropc.cmult ws.halfstep ws.ufft) } = some s ∧
          Sspropc.iterate M P gamma dz traman toptical dt tol s = some q ∧ q.2 = false)) ∧
      (maxiter < 0 → r.2 = false) ∧
      r.1.u0 = r.1.u1 := by
  obtain ⟨q, hq, -⟩ := forLoop_inv (Sspropc.iterate M P gamma dz traman toptical dt tol)
    (fun _ => True)
    (fun v _ => by
      obtain ⟨r, hr, -⟩ := iterate_estimate M P gamma dz traman toptical dt tol hcase v
      exact ⟨r, hr, trivial⟩)
    maxiter.toNat 0
    { ws with uhalf := P.backward (Sspropc.cmult ws.halfstep ws.ufft) } trivial
  obtain ⟨hiff, hle⟩ := forLoop_counter _ _ _ _ _ hq
  unfold Sspropc.zstep
  simp only [hq]
  refine ⟨_, rfl, ?_, ?_, ?_⟩
  · intro hmax
    have hm : ((maxiter.toNat : ℕ) : ℤ) = maxiter := Int.toNat_of_nonneg hmax
    simp only [decide_eq_true_eq]
    rw [← hiff, zero_add, hm]
  · intro hneg
    simp only [decide_eq_false_iff_not]
    omega
  · show Sspropc.cscale q.2.u1 1 = q.2.u1
    rw [cscale_one]

/-! ### The matrices of the two rotations -/

theorem rotate_matrix_entries (M : Libm ℝ) (chi psi : ℝ) :
    rotate_matrix M chi psi 0 0 = (M.cos psi * M.cos chi, -(M.sin psi * M.sin chi)) ∧
    rotate_matrix M chi psi 0 1 = (M.sin psi * M.cos chi, M.cos psi * M.sin chi) ∧
    rotate_matrix M chi psi 1 0 = (-(M.sin psi * M.cos chi), M.cos psi * M.sin chi) ∧
    rotate_matrix M chi psi 1 1 = (M.cos psi * M.cos chi, M.sin psi * M.sin chi) := by
  refine ⟨?_, ?_, ?_, ?_⟩ <;> simp [rotate_matrix, Sspropvc.rotate_coord]

theorem inv_rotate_matrix_entries (M : Libm ℝ) (chi psi : ℝ) :
    inv_rotate_matrix M chi psi 0 0 = (M.cos psi * M.cos chi, M.sin psi * M.sin chi) ∧
    inv_rotate_matrix M chi psi 0 1 = (-(M.sin psi * M.cos chi), -(M.cos psi * M.sin chi)) ∧
    inv_rotate_matrix M chi psi 1 0 = (M.sin psi * M.cos chi, -(M.cos psi * M.sin chi)) ∧
    inv_rotate_matrix M chi psi 1 1 = (M.cos psi * M.cos chi, -(M.sin psi * M.sin chi)) := by
  refine ⟨?_, ?_, ?_, ?_⟩ <;>
    simp [inv_rotate_matrix, Sspropvc.inv_rotate_coord, mxArray.im]

/-! ### Products of the two rotation matrices -/

/-- Products of the entries of the rotation matrix, in double angles. -/
theorem rotation_entry_products (chi psi : ℝ) :
    toC (Real.cos psi * Real.cos chi, Real.sin psi * Real.sin chi) *
        toC (Real.cos psi * Real.cos chi, -(Real.sin psi * Real.sin chi))
      = (((1 + Real.cos (2 * psi) * Real.cos (2 * chi)) / 2 : ℝ) : ℂ) ∧
    toC (Real.sin psi * Real.cos chi, -(Real.cos psi * Real.sin chi)) *
        toC (Real.sin psi * Real.cos chi, Real.cos psi * Real.sin chi)
      = (((1 - Real.cos (2 * psi) * Real.cos (2 * chi)) / 2 : ℝ) : ℂ) ∧
    toC (Real.cos psi * Real.cos chi, Real.sin psi * Real.sin chi) *
        toC (Real.sin psi * Real.cos chi, Real.cos psi * Real.sin chi)
      = ⟨Real.sin (2 * psi) * Real.cos (2 * chi) / 2, Real.sin (2 * chi) / 2⟩ ∧
    toC (Real.sin psi * Real.cos chi, -(Real.cos psi * Real.sin chi)) *
        toC (Real.cos psi * Real.cos chi, -(Real.sin psi * Real.sin chi))
      = ⟨Real.sin (2 * psi) * Real.cos (2 * chi) / 2, -(Real.sin (2 * chi) / 2)⟩ := by
  have hp := Real.cos_sq_add_sin_sq psi
  have hc := Real.cos_sq_add_sin_sq chi
  have hc2p : Real.cos (2 * psi) = Real.cos psi ^ 2 - Real.sin psi ^ 2 := by
    rw [Real.cos_two_mul]
    linarith
  have hc2c : Real.cos (2 * chi) = Real.cos chi ^ 2 - Real.sin chi ^ 2 := by
    rw [Real.cos_two_mul]
    linarith
  have hs2p := Real.sin_two_mul psi
  have hs2c := Real.sin_two_mul chi
  refine ⟨?_, ?_, ?_, ?_⟩
  · apply Complex.ext
    · simp only [Complex.mul_re, toC_re, toC_im, Complex.ofReal_re]
      rw [hc2p, hc2c]
      linear_combination (1 / 2) * (Real.cos chi ^ 2 + Real.sin chi ^ 2) * hp + (1 / 2) * hc
    · simp only [Complex.mul_im, toC_re, toC_im, Complex.ofReal_im]
      ring
  · apply Complex.ext
    · simp only [Complex.mul_re, toC_re, toC_im, Complex.ofReal_re]
      rw [hc2p, hc2c]
      linear_combination (1 / 2) * (Real.cos chi ^ 2 + Real.sin chi ^ 2) * hp + (1 / 2) * hc
    · simp only [Complex.mul_im, toC_re, toC_im, Complex.ofReal_im]
      ring
  · apply Complex.ext
    · simp only [Complex.mul_re, toC_re, toC_im]
      rw [hs2p, hc2c]
      ring
    · simp only [Complex.mul_im, toC_re, toC_im]
      rw [hs2c]
      linear_combination (Real.cos chi * Real.sin chi) * hp
  · apply Complex.ext
    · simp only [Complex.mul_re, toC_re, toC_im]
      rw [hs2p, hc2c]
      ring
    · simp only [Complex.mul_im, toC_re, toC_im]
      rw [hs2c]
      linear_combination (-(Real.cos chi * Real.sin chi)) * hp

theorem rotate_matrix_eq (c p : ℝ) :
    (Matrix.of fun i j =>
        toC (rotate_matrix ⟨Real.cos, Real.sin, Real.exp, Real.sqrt, Real.pi⟩ c p i j) :
      Matrix (Fin 2) (Fin 2) ℂ)
      = !![toC (Real.cos p * Real.cos c, -(Real.sin p * Real.sin c)),
            toC (Real.sin p * Real.cos c, Real.cos p * Real.sin c);
           -toC (Real.sin p * Real.cos c, -(Real.cos p * Real.sin c)),
            toC (Real.cos p * Real.cos c, Real.sin p * Real.sin c)] := by
  obtain ⟨h00, h01, h10, h11⟩ :=
    rotate_matrix_entries ⟨Real.cos, Real.sin, Real.exp, Real.sqrt, Real.pi⟩ c p
  have hneg : -toC (Real.sin p * Real.cos c, -(Real.cos p * Real.sin c))
      = toC (-(Real.sin p * Real.cos c), Real.cos p * Real.sin c) := by
    apply Complex.ext <;> simp [toC]
  rw [hneg, Matrix.eta_fin_two (Matrix.of _)]
  simp only [Matrix.of_apply, h00, h01, h10, h11]

theorem inv_rotate_matrix_eq (c p : ℝ) :
    (Matrix.of fun i j =>
        toC (inv_rotate_matrix ⟨Real.cos, Real.sin, Real.exp, Real.sqrt, Real.pi⟩ c p i j) :
      Matrix (Fin 2) (Fin 2) ℂ)
      = !![toC (Real.cos p * Real.cos c, Real.sin p * Real.sin c),
            -toC (Real.sin p * Real.cos c, Real.cos p * Real.sin c);
           toC (Real.sin p * Real.cos c, -(Real.cos p * Real.sin c)),
            toC (Real.cos p * Real.cos c, -(Real.sin p * Real.sin c))] := by
  obtain ⟨h00, h01, h10, h11⟩ :=
    inv_rotate_matrix_entries ⟨Real.cos, Real.sin, Real.exp, Real.sqrt, Real.pi⟩ c p
  have hneg : -toC (Real.sin p * Real.cos c, Real.cos p * Real.sin c)
      = toC (-(Real.sin p * Real.cos c), -(Real.cos p * Real.sin c)) := by
    apply Complex.ext <;> simp [toC]
  rw [hneg, Matrix.eta_fin_two (Matrix.of _)]
  simp only [Matrix.of_apply, h00, h01, h10, h11]

theorem matrix_fin_two_congr {a b c d a' b' c' d' : ℂ} (h1 : a = a') (h2 : b = b')
    (h3 : c = c') (h4 : d = d') : !![a, b; c, d] = !![a', b'; c', d'] := by
  rw [h1, h2, h3, h4]

theorem diagonal_fin_two (a b : ℂ) :
    (Matrix.diagonal ![a, b] : Matrix (Fin 2) (Fin 2) ℂ) = !![a, 0; 0, b] := by
  ext i j
  fin_cases i <;> fin_cases j <;> simp

/-- The matrix of `inv_rotate_coord` is the inverse of the matrix of
`rotate_coord` for the same angles. -/
theorem inv_rotate_matrix_mul (c p : ℝ) :
    (Matrix.of fun i j =>
        toC (inv_rotate_matrix ⟨Real.cos, Real.sin, Real.exp, Real.sqrt, Real.pi⟩ c p i j) :
      Matrix (Fin 2) (Fin 2) ℂ) *
      (Matrix.of fun i j =>
        toC (rotate_matrix ⟨Real.cos, Real.sin, Real.exp, Real.sqrt, Real.pi⟩ c p i j))
      = 1 ∧
    (Matrix.of fun i j =>
        toC (rotate_matrix ⟨Real.cos, Real.sin, Real.exp, Real.sqrt, Real.pi⟩ c p i j) :
      Matrix (Fin 2) (Fin 2) ℂ) *
      (Matrix.of fun i j =>
        toC (inv_rotate_matrix ⟨Real.cos, Real.sin, Real.exp, Real.sqrt, Real.pi⟩ c p i j))
      = 1 := by
  obtain ⟨hP, hQ, -, -⟩ := rotation_entry_products c p
  have hsum : ((((1 + Real.cos (2 * p) * Real.cos (2 * c)) / 2 : ℝ) : ℂ)) +
      (((1 - Real.cos (2 * p) * Real.cos (2 * c)) / 2 : ℝ) : ℂ) = 1 := by
    push_cast
    ring
  rw [rotate_matrix_eq, inv_rotate_matrix_eq, Matrix.mul_fin_two, Matrix.mul_fin_two,
    Matrix.one_fin_two]
  constructor
  · apply matrix_fin_two_congr
    · linear_combination hP + hQ + hsum
    · ring
    · ring
    · linear_combination hP + hQ + hsum
  · apply matrix_fin_two_congr
    · linear_combination hP + hQ + hsum
    · ring
    · ring
    · linear_combination hP + hQ + hsum

/-- The diagonal propagator carried from the eigenbasis to the input basis. -/
theorem rotate_conjugate_diag (c p : ℝ) (a b : ℂ) :
    (Matrix.of fun i j =>
        toC (inv_rotate_matrix ⟨Real.cos, Real.sin, Real.exp, Real.sqrt, Real.pi⟩ c p i j) :
      Matrix (Fin 2) (Fin 2) ℂ) * Matrix.diagonal ![a, b] *
      (Matrix.of fun i j =>
        toC (rotate_matrix ⟨Real.cos, Real.sin, Real.exp, Real.sqrt, Real.pi⟩ c p i j))
      = !![a * (((1 + Real.cos (2 * p) * Real.cos (2 * c)) / 2 : ℝ) : ℂ) +
              b * (((1 - Real.cos (2 * p) * Real.cos (2 * c)) / 2 : ℝ) : ℂ),
            (a - b) * ⟨Real.sin (2 * p) * Real.cos (2 * c) / 2, Real.sin (2 * c) / 2⟩;
           (a - b) * ⟨Real.sin (2 * p) * Real.cos (2 * c) / 2, -(Real.sin (2 * c) / 2)⟩,
            a * (((1 - Real.cos (2 * p) * Real.cos (2 * c)) / 2 : ℝ) : ℂ) +
              b * (((1 + Real.cos (2 * p) * Real.cos (2 * c)) / 2 : ℝ) : ℂ)] := by
  obtain ⟨hP, hQ, hpq, hqp⟩ := rotation_entry_products c p
  rw [rotate_matrix_eq, inv_rotate_matrix_eq, diagonal_fin_two, Matrix.mul_fin_two,
    Matrix.mul_fin_two]
  apply matrix_fin_two_congr
  · linear_combination a * hP + b * hQ
  · linear_combination (a - b) * hpq
  · linear_combination (a - b) * hqp
  · linear_combination a * hQ + b * hP

/-- The matrices of the two rotations for the angles `π/4`, `0` of the circular
basis. -/
theorem circular_matrices :
    (Matrix.of fun i j =>
        toC (rotate_matrix ⟨Real.cos, Real.sin, Real.exp, Real.sqrt, Real.pi⟩ (Real.pi / 4) 0
          i j) : Matrix (Fin 2) (Fin 2) ℂ)
      = !![((Real.sqrt 2 / 2 : ℝ) : ℂ), Complex.I * ((Real.sqrt 2 / 2 : ℝ) : ℂ);
           Complex.I * ((Real.sqrt 2 / 2 : ℝ) : ℂ), ((Real.sqrt 2 / 2 : ℝ) : ℂ)] ∧
    (Matrix.of fun i j =>
        toC (inv_rotate_matrix ⟨Real.cos, Real.sin, Real.exp, Real.sqrt, Real.pi⟩ (Real.pi / 4) 0
          i j) : Matrix (Fin 2) (Fin 2) ℂ)
      = !![((Real.sqrt 2 / 2 : ℝ) : ℂ), -(Complex.I * ((Real.sqrt 2 / 2 : ℝ) : ℂ));
           -(Complex.I * ((Real.sqrt 2 / 2 : ℝ) : ℂ)), ((Real.sqrt 2 / 2 : ℝ) : ℂ)] := by
  rw [rotate_matrix_eq, inv_rotate_matrix_eq]
  constructor <;> apply matrix_fin_two_congr <;> apply Complex.ext <;>
    simp [toC, Real.cos_pi_div_four, Real.sin_pi_div_four]

theorem smul_one_fin_two (a : ℂ) :
    a • (1 : Matrix (Fin 2) (Fin 2) ℂ) = !![a, 0; 0, a] := by
  ext i j
  fin_cases i <;> fin_cases j <;> simp

/-- The matrix read off `rotate_coord` gives `rotate_coord` at every sample of
any two arrays. -/
theorem rotate_matrix_mulVec (c p : ℝ) {n : ℕ} (ux uy : mxArray ℝ n) (jj : Fin n) :
    (Matrix.of fun i j =>
        toC (rotate_matrix ⟨Real.cos, Real.sin, Real.exp, Real.sqrt, Real.pi⟩ c p i j) :
      Matrix (Fin 2) (Fin 2) ℂ).mulVec ![toC (ux.pr jj, ux.im jj), toC (uy.pr jj, uy.im jj)]
      = ![toC ((Sspropvc.rotate_coord ⟨Real.cos, Real.sin, Real.exp, Real.sqrt, Real.pi⟩ ux uy
              c p).1 jj),
          toC ((Sspropvc.rotate_coord ⟨Real.cos, Real.sin, Real.exp, Real.sqrt, Real.pi⟩ ux uy
              c p).2 jj)] := by
  rw [rotate_matrix_eq,
    (rotate_coord_apply ⟨Real.cos, Real.sin, Real.exp, Real.sqrt, Real.pi⟩ ux uy c p jj).1,
    (rotate_coord_apply ⟨Real.cos, Real.sin, Real.exp, Real.sqrt, Real.pi⟩ ux uy c p jj).2]
  ext i
  fin_cases i <;> apply Complex.ext <;>
    simp [Matrix.mulVec, Matrix.dotProduct, Fin.sum_univ_two, toC] <;> ring

/-- The matrix read off `inv_rotate_coord` gives `inv_rotate_coord` at every
sample of any two buffers. -/
theorem inv_rotate_matrix_mulVec (c p : ℝ) {n : ℕ} (u1a u1b : CVec ℝ n) (jj : Fin n) :
    (Matrix.of fun i j =>
        toC (inv_rotate_matrix ⟨Real.cos, Real.sin, Real.exp, Real.sqrt, Real.pi⟩ c p i j) :
      Matrix (Fin 2) (Fin 2) ℂ).mulVec ![toC (u1a jj), toC (u1b jj)]
      = ![toC ((Sspropvc.inv_rotate_coord ⟨Real.cos, Real.sin, Real.exp, Real.sqrt, Real.pi⟩
                u1a u1b c p).1.pr jj,
              (Sspropvc.inv_rotate_coord ⟨Real.cos, Real.sin, Real.exp, Real.sqrt, Real.pi⟩
                u1a u1b c p).1.im jj),
          toC ((Sspropvc.inv_rotate_coord ⟨Real.cos, Real.sin, Real.exp, Real.sqrt, Real.pi⟩
                u1a u1b c p).2.pr jj,
              (Sspropvc.inv_rotate_coord ⟨Real.cos, Real.sin, Real.exp, Real.sqrt, Real.pi⟩
                u1a u1b c p).2.im jj)] := by
  rw [inv_rotate_matrix_eq]
  ext i
  fin_cases i <;> apply Complex.ext <;>
    simp [Matrix.mulVec, Matrix.dotProduct, Fin.sum_univ_two, toC, Sspropvc.inv_rotate_coord,
      mxArray.im] <;> ring

/-- The matrix of `compute_H` is the diagonal propagator of the eigenbasis
carried to the circular basis. -/
theorem compute_H_conjugation {nt : ℕ} (chi psi : ℝ) (ha hb : CVec ℝ nt) (k : Fin nt) :
    (!![toC ((Sspropvc.compute_H ⟨Real.cos, Real.sin, Real.exp, Real.sqrt, Real.pi⟩ ha hb chi
            psi).h11 k),
        toC ((Sspropvc.compute_H ⟨Real.cos, Real.sin, Real.exp, Real.sqrt, Real.pi⟩ ha hb chi
            psi).h12 k);
        toC ((Sspropvc.compute_H ⟨Real.cos, Real.sin, Real.exp, Real.sqrt, Real.pi⟩ ha hb chi
            psi).h21 k),
        toC ((Sspropvc.compute_H ⟨Real.cos, Real.sin, Real.exp, Real.sqrt, Real.pi⟩ ha hb chi
            psi).h22 k)] : Matrix (Fin 2) (Fin 2) ℂ)
      = (Matrix.of fun i j =>
            toC (rotate_matrix ⟨Real.cos, Real.sin, Real.exp, Real.sqrt, Real.pi⟩ (Real.pi / 4)
              0 i j)) *
          ((Matrix.of fun i j =>
              toC (inv_rotate_matrix ⟨Real.cos, Real.sin, Real.exp, Real.sqrt, Real.pi⟩ chi psi
                i j)) *
            Matrix.diagonal ![toC (ha k), toC (hb k)] *
            (Matrix.of fun i j =>
              toC (rotate_matrix ⟨Real.cos, Real.sin, Real.exp, Real.sqrt, Real.pi⟩ chi psi
                i j))) *
          (Matrix.of fun i j =>
            toC (inv_rotate_matrix ⟨Real.cos, Real.sin, Real.exp, Real.sqrt, Real.pi⟩
              (Real.pi / 4) 0 i j)) := by
  have hsq : Real.sqrt 2 ^ 2 = 2 := Real.sq_sqrt (by norm_num)
  rw [rotate_conjugate_diag chi psi, circular_matrices.1, circular_matrices.2,
    Matrix.mul_fin_two, Matrix.mul_fin_two]
  apply matrix_fin_two_congr <;> apply Complex.ext <;>
    simp only [Sspropvc.compute_H, toC_re, toC_im, Complex.add_re, Complex.add_im,
      Complex.mul_re, Complex.mul_im, Complex.sub_re, Complex.sub_im, Complex.neg_re,
      Complex.neg_im, Complex.I_re, Complex.I_im, Complex.ofReal_re, Complex.ofReal_im] <;>
    ring_nf <;> simp only [hsq] <;> ring

/-! ## The claims -/

/-! ### Rotation of coordinates -/

open Sspropvc in
/-- C1: over exact reals, for every `chi`, `psi` and every two length-`nt`
channels (each stored as a real or as a complex array), `inv_rotate_coord`
applied to the output of `rotate_coord` with the same angles returns exactly the
original samples: at every index the real parts and the imaginary parts (zero
for a channel stored as real) of `ux` and `uy`. -/
theorem rotate_coord_roundtrip {nt : ℕ} (chi psi : ℝ) (ux uy : mxArray ℝ nt) :
    let M : Libm ℝ := ⟨Real.cos, Real.sin, Real.exp, Real.sqrt, Real.pi⟩
    inv_rotate_coord M (rotate_coord M ux uy chi psi).1 (rotate_coord M ux uy chi psi).2 chi psi
      = (⟨ux.pr, some ux.im⟩, ⟨uy.pr, some uy.im⟩) := by
  intro M
  have hp := Real.cos_sq_add_sin_sq psi
  have hc := Real.cos_sq_add_sin_sq chi
  have h : (Real.cos psi * Real.cos chi) ^ 2 + (Real.sin psi * Real.sin chi) ^ 2 +
      (Real.sin psi * Real.cos chi) ^ 2 + (Real.cos psi * Real.sin chi) ^ 2 = 1 := by
    linear_combination (Real.cos chi ^ 2 + Real.sin chi ^ 2) * hp + hc
  obtain ⟨xr, xi⟩ := ux
  obtain ⟨yr, yi⟩ := uy
  cases xi with
  | none =>
    cases yi with
    | none =>
      simp only [M, rotate_coord, inv_rotate_coord, Prod.mk.injEq, mxArray.mk.injEq,
        Option.some.injEq]
      refine ⟨⟨?_, ?_⟩, ?_, ?_⟩ <;> funext jj <;> try simp only [mxArray.im]
      · linear_combination xr jj * h
      · ring
      · linear_combination yr jj * h
      · ring
    | some yi =>
      simp only [M, rotate_coord, inv_rotate_coord, Prod.mk.injEq, mxArray.mk.injEq,
        Option.some.injEq]
      refine ⟨⟨?_, ?_⟩, ?_, ?_⟩ <;> funext jj <;> try simp only [mxArray.im]
      · linear_combination xr jj * h
      · ring
      · linear_combination yr jj * h
      · linear_combination yi jj * h
  | some xi =>
    cases yi with
    | none =>
      simp only [M, rotate_coord, inv_rotate_coord, Prod.mk.injEq, mxArray.mk.injEq,
        Option.some.injEq]
      refine ⟨⟨?_, ?_⟩, ?_, ?_⟩ <;> funext jj <;> try simp only [mxArray.im]
      · linear_combination xr jj * h
      · linear_combination xi jj * h
      · linear_combination yr jj * h
      · ring
    | some yi =>
      simp only [M, rotate_coord, inv_rotate_coord, Prod.mk.injEq, mxArray.mk.injEq,
        Option.some.injEq]
      refine ⟨⟨?_, ?_⟩, ?_, ?_⟩ <;> funext jj <;> try simp only [mxArray.im]
      · linear_combination xr jj * h
      · linear_combination xi jj * h
      · linear_combination yr jj * h
      · linear_combination yi jj * h

/-! ### The scalar propagator without nonlinearity and loss -/

open Sspropc in
/-- C2: for the scalar propagator on `nt ≥ 1` samples with `gamma = 0`, every
`alpha` entry zero, `nz = 1`, zero Raman and optical-cycle times and every
`maxiter ≥ 1`, with a linear provider whose forward transform undoes its
unnormalized inverse up to the factor `nt`: the call returns, and at every
frequency index `k` the forward transform of the output is the forward
transform of the input times `exp(-i·β(w[k])·dz)`, where `β(w[k])` is the value
the code evaluates from the `beta` list on the frequency grid. -/
theorem pure_dispersion_spectrum {nt : ℕ} (hnt : 0 < nt) (P : Fftw ℝ nt) (hlin : P.Linear)
    (hfb : P.ForwardBackward) (u : mxArray ℝ nt) (dt dz tol : ℝ) (maxiter : ℤ)
    (hmax : 1 ≤ maxiter) (alphap beta : List ℝ)
    (hlen : alphap.length = 1 ∨ alphap.length = nt) (halpha : ∀ a ∈ alphap, a = 0)
    (w0 : Fin nt → ℝ) (ws : Workspace ℝ nt) :
    ∃ out warn,
      propagate ⟨Real.cos, Real.sin, Real.exp, Real.sqrt, Real.pi⟩ P u dt dz 1 alphap beta
        0 0 0 maxiter tol w0 ws = .ok (out, warn) ∧
      ∀ k, toC (P.forward (fun j => (out.pr j, out.im j)) k)
        = toC (P.forward (fun j => (u.pr j, u.im j)) k) *
            Complex.exp (-(Complex.I *
              ((coefAt beta (wgrid ⟨Real.cos, Real.sin, Real.exp, Real.sqrt, Real.pi⟩ nt dt) k *
                dz : ℝ) : ℂ))) := by
  obtain ⟨r, hr, hr1⟩ := zstep_linear hnt P hlin hfb dz dt tol maxiter hmax
    { setup ⟨Real.cos, Real.sin, Real.exp, Real.sqrt, Real.pi⟩ u alphap beta hlen
        (wgrid ⟨Real.cos, Real.sin, Real.exp, Real.sqrt, Real.pi⟩ nt dt) dz ws with
      ufft := P.forward (setup ⟨Real.cos, Real.sin, Real.exp, Real.sqrt, Real.pi⟩ u alphap beta
        hlen (wgrid ⟨Real.cos, Real.sin, Real.exp, Real.sqrt, Real.pi⟩ nt dt) dz ws).u0 }
  refine ⟨⟨fun j => (r.1.u1 j).1, some fun j => (r.1.u1 j).2⟩, [r.2], ?_, ?_⟩
  · unfold propagate
    rw [dif_pos hlen]
    have h1 : (1 : ℤ).toNat = 1 := rfl
    simp only [wspace_eq hnt, h1, zloop, hr]
  · intro k
    have hout : (fun j => ((r.1.u1 j).1, (r.1.u1 j).2)) = r.1.u1 := rfl
    show toC (P.forward (fun j => ((r.1.u1 j).1, (r.1.u1 j).2)) k) = _
    rw [hout, hr1, forward_cscale P hlin, hfb, cscale_inv_scaled hnt, toC_cmult, toC_cmult]
    have hH : toC ((setup ⟨Real.cos, Real.sin, Real.exp, Real.sqrt, Real.pi⟩ u alphap beta hlen
        (wgrid ⟨Real.cos, Real.sin, Real.exp, Real.sqrt, Real.pi⟩ nt dt) dz ws).halfstep k) ^ 2
        = (Real.exp (-alphaAt alphap hlen k * dz / 2) : ℂ) *
          Complex.exp (-(Complex.I *
            ((coefAt beta (wgrid ⟨Real.cos, Real.sin, Real.exp, Real.sqrt, Real.pi⟩ nt dt) k *
              dz : ℝ) : ℂ))) :=
      (isHalfStep_of_parts (alphaAt alphap hlen k)
        (coefAt beta (wgrid ⟨Real.cos, Real.sin, Real.exp, Real.sqrt, Real.pi⟩ nt dt) k)
        dz).2.2.2.1
    have hE : (Real.exp (-alphaAt alphap hlen k * dz / 2) : ℂ) = 1 := by
      rw [alphaAt_zero alphap hlen k halpha]
      simp
    rw [hE, one_mul] at hH
    rw [← hH]
    show toC ((setup ⟨Real.cos, Real.sin, Real.exp, Real.sqrt, Real.pi⟩ u alphap beta hlen
        (wgrid ⟨Real.cos, Real.sin, Real.exp, Real.sqrt, Real.pi⟩ nt dt) dz ws).halfstep k) *
      toC (P.forward (fun j => (u.pr j, u.im j)) k) *
      toC ((setup ⟨Real.cos, Real.sin, Real.exp, Real.sqrt, Real.pi⟩ u alphap beta hlen
        (wgrid ⟨Real.cos, Real.sin, Real.exp, Real.sqrt, Real.pi⟩ nt dt) dz ws).halfstep k) = _
    ring

open Sspropc in
/-- C2 at a concrete input: the two-point transform, `u0 = [1, 2]`,
`dt = dz = 1`, `maxiter = 4`, `alpha = [0]`, `beta = [0, 0, 1]`. -/
theorem pure_dispersion_spectrum_witness :
    (dft2 : Fftw ℝ 2).Linear ∧ (dft2 : Fftw ℝ 2).ForwardBackward ∧ (1 : ℤ) ≤ 4 ∧
    (∃ out warn,
      propagate ⟨Real.cos, Real.sin, Real.exp, Real.sqrt, Real.pi⟩ dft2 ⟨![1, 2], none⟩ 1 1 1
        [0] [0, 0, 1] 0 0 0 4 (1 / 100000) (fun _ => 0)
        ⟨fun _ => 0, fun _ => 0, fun _ => 0, fun _ => 0, fun _ => 0, fun _ => 0⟩
        = .ok (out, warn) ∧
      ∀ k, toC ((dft2 : Fftw ℝ 2).forward (fun j => (out.pr j, out.im j)) k)
        = toC ((dft2 : Fftw ℝ 2).forward (fun j => ((⟨![1, 2], none⟩ : mxArray ℝ 2).pr j,
            (⟨![1, 2], none⟩ : mxArray ℝ 2).im j)) k) *
            Complex.exp (-(Complex.I *
              ((coefAt [0, 0, 1]
                  (wgrid ⟨Real.cos, Real.sin, Real.exp, Real.sqrt, Real.pi⟩ 2 1) k * 1 : ℝ) : ℂ)))) :=
  ⟨dft2_linear, dft2_forwardBackward, by decide,
    pure_dispersion_spectrum (by decide) dft2 dft2_linear dft2_forwardBackward ⟨![1, 2], none⟩
      1 1 (1 / 100000) 4 (by decide) [0] [0, 0, 1] (Or.inl rfl) (by simp) (fun _ => 0)
      ⟨fun _ => 0, fun _ => 0, fun _ => 0, fun _ => 0, fun _ => 0, fun _ => 0⟩⟩

/-! ### The scalar propagator without dispersion and loss -/

open Sspropc in
/-- C3: for the scalar propagator on `nt ≥ 1` samples with every `alpha` entry
zero, every `beta` coefficient zero, zero Raman and optical-cycle times, every
`gamma`, `dz`, `nz ≥ 0` and `maxiter ≥ 1`, and a provider whose unnormalized
inverse undoes its forward transform up to the factor `nt`: the call returns,
and every output sample is the input sample times
`exp(-i·nz·gamma·dz·|u0[j]|²)`; in particular a field of constant intensity `c`
acquires the uniform phase `nz·gamma·dz·c`. -/
theorem pure_kerr_phase {nt : ℕ} (hnt : 0 < nt) (P : Fftw ℝ nt) (hinv : P.BackwardForward)
    (u : mxArray ℝ nt) (dt dz gamma tol : ℝ) (nz maxiter : ℤ) (hnz : 0 ≤ nz)
    (hmax : 1 ≤ maxiter) (alphap beta : List ℝ)
    (hlen : alphap.length = 1 ∨ alphap.length = nt)
    (halpha : ∀ a ∈ alphap, a = 0) (hbeta : ∀ b ∈ beta, b = 0)
    (w0 : Fin nt → ℝ) (ws : Workspace ℝ nt) :
    ∃ out warn,
      propagate ⟨Real.cos, Real.sin, Real.exp, Real.sqrt, Real.pi⟩ P u dt dz nz alphap beta
        gamma 0 0 maxiter tol w0 ws = .ok (out, warn) ∧
      (∀ j, toC (out.pr j, out.im j)
        = toC (u.pr j, u.im j) *
            Complex.exp (-(Complex.I *
              (((nz : ℝ) * gamma * dz * Complex.normSq (toC (u.pr j, u.im j)) : ℝ) : ℂ)))) ∧
      (∀ c : ℝ, (∀ j, Complex.normSq (toC (u.pr j, u.im j)) = c) →
        ∀ j, toC (out.pr j, out.im j)
          = toC (u.pr j, u.im j) *
              Complex.exp (-(Complex.I * (((nz : ℝ) * gamma * dz * c : ℝ) : ℂ)))) := by
  let x : CVec ℝ nt := fun j => (u.pr j, u.im j)
  let J : ℕ → Workspace ℝ nt → Prop := fun k v =>
    v.halfstep = (fun _ => ((1 : ℝ), (0 : ℝ))) ∧ v.u0 = v.u1 ∧ v.ufft = P.forward v.u1 ∧
    ∀ j, v.u1 j = rot ⟨Real.cos, Real.sin, Real.exp, Real.sqrt, Real.pi⟩
      ((k : ℝ) * (gamma * abs2 (x j) * dz)) (x j)
  have hstep : ∀ k v, J k v → ∃ r,
      zstep ⟨Real.cos, Real.sin, Real.exp, Real.sqrt, Real.pi⟩ P gamma dz 0 0 dt tol maxiter v
        = some r ∧ J (k + 1) r.1 := by
    intro k v hv
    obtain ⟨hvH, hv0, hvf, hv1⟩ := hv
    obtain ⟨r, hr, hrH, hr0, hrf, hr1⟩ :=
      zstep_pure_kerr hnt P hinv gamma dz dt tol maxiter hmax v hvH hv0 hvf
    refine ⟨r, hr, hrH, hr0, hrf, fun j => ?_⟩
    have hφ : (k : ℝ) * (gamma * abs2 (x j) * dz) + gamma * abs2 (x j) * dz
        = ((k + 1 : ℕ) : ℝ) * (gamma * abs2 (x j) * dz) := by
      push_cast
      ring
    rw [hr1 j, hv1 j, abs2_rot, rot_rot, hφ]
  have hinit : J 0
      { setup ⟨Real.cos, Real.sin, Real.exp, Real.sqrt, Real.pi⟩ u alphap beta hlen
          (wgrid ⟨Real.cos, Real.sin, Real.exp, Real.sqrt, Real.pi⟩ nt dt) dz ws with
        ufft := P.forward (setup ⟨Real.cos, Real.sin, Real.exp, Real.sqrt, Real.pi⟩ u alphap beta
          hlen (wgrid ⟨Real.cos, Real.sin, Real.exp, Real.sqrt, Real.pi⟩ nt dt) dz ws).u0 } := by
    refine ⟨?_, rfl, rfl, fun j => ?_⟩
    · funext j
      simp [setup, alphaAt_zero alphap hlen j halpha, coefAt_zero beta _ j hbeta]
    · show x j = _
      simp [rot_zero]
  obtain ⟨r, hr, -, -, -, hr1⟩ := zloop_inv _ J hstep nz.toNat 0 _ hinit
  have hcast : ((0 + nz.toNat : ℕ) : ℝ) = (nz : ℝ) := by
    rw [Nat.zero_add]
    have h : ((nz.toNat : ℤ) : ℝ) = (nz : ℝ) := by rw [Int.toNat_of_nonneg hnz]
    exact_mod_cast h
  have hout : ∀ j, toC (r.1.u1 j)
      = toC (x j) * Complex.exp (-(Complex.I *
          (((nz : ℝ) * gamma * dz * Complex.normSq (toC (x j)) : ℝ) : ℂ))) := by
    intro j
    have hφ : (nz : ℝ) * (gamma * abs2 (x j) * dz) = (nz : ℝ) * gamma * dz * abs2 (x j) := by
      ring
    rw [hr1 j, hcast, toC_rot, normSq_toC, hφ]
  refine ⟨⟨fun j => (r.1.u1 j).1, some fun j => (r.1.u1 j).2⟩, r.2, ?_, hout, ?_⟩
  · unfold propagate
    rw [dif_pos hlen]
    simp only [wspace_eq hnt, hr]
  · intro c hc j
    have := hout j
    rw [hc j] at this
    exact this

open Sspropc in
/-- C3 at a concrete input: the two-point transform, `u0 = [1, 2]`,
`dt = dz = gamma = 1`, `nz = 1`, `maxiter = 4`, `alpha = [0]`, `beta = [0]`. -/
theorem pure_kerr_phase_witness :
    (dft2 : Fftw ℝ 2).BackwardForward ∧ (0 : ℤ) ≤ 1 ∧ (1 : ℤ) ≤ 4 ∧
    (∃ out warn,
      propagate ⟨Real.cos, Real.sin, Real.exp, Real.sqrt, Real.pi⟩ dft2 ⟨![1, 2], none⟩ 1 1 1
        [0] [0] 1 0 0 4 (1 / 100000) (fun _ => 0)
        ⟨fun _ => 0, fun _ => 0, fun _ => 0, fun _ => 0, fun _ => 0, fun _ => 0⟩
        = .ok (out, warn) ∧
      (∀ j, toC (out.pr j, out.im j)
        = toC ((⟨![1, 2], none⟩ : mxArray ℝ 2).pr j, (⟨![1, 2], none⟩ : mxArray ℝ 2).im j) *
            Complex.exp (-(Complex.I *
              ((((1 : ℤ) : ℝ) * 1 * 1 * Complex.normSq
                (toC ((⟨![1, 2], none⟩ : mxArray ℝ 2).pr j,
                  (⟨![1, 2], none⟩ : mxArray ℝ 2).im j)) : ℝ) : ℂ)))) ∧
      (∀ c : ℝ, (∀ j, Complex.normSq
          (toC ((⟨![1, 2], none⟩ : mxArray ℝ 2).pr j, (⟨![1, 2], none⟩ : mxArray ℝ 2).im j)) = c) →
        ∀ j, toC (out.pr j, out.im j)
          = toC ((⟨![1, 2], none⟩ : mxArray ℝ 2).pr j, (⟨![1, 2], none⟩ : mxArray ℝ 2).im j) *
              Complex.exp (-(Complex.I * ((((1 : ℤ) : ℝ) * 1 * 1 * c : ℝ) : ℂ))))) :=
  ⟨dft2_backwardForward, by decide, by decide,
    pure_kerr_phase (by decide) dft2 dft2_backwardForward ⟨![1, 2], none⟩ 1 1 1 (1 / 100000) 1 4
      (by decide) (by decide) [0] [0] (Or.inl rfl) (by simp) (by simp) (fun _ => 0)
      ⟨fun _ => 0, fun _ => 0, fun _ => 0, fun _ => 0, fun _ => 0, fun _ => 0⟩⟩

/-! ### Half-step transfer function -/

/-- C4: in both propagators the precomputed half-step transfer function
satisfies `IsHalfStep` at every index `k`: in `sspropc.c` for `halfstep[k]` with
the loss `alpha` selected at line 314 and the phase evaluated from `beta` at
`w[k]`; in `compute_hahb` for `ha[k]` and `hb[k]` with the loss and phase
evaluated from `alphaa`, `betaa` and `alphab`, `betab` at `w[k]`. -/
theorem halfstep_transfer_function {nt : ℕ} (u : mxArray ℝ nt)
    (alphap beta alphaa alphab betaa betab : List ℝ)
    (h : alphap.length = 1 ∨ alphap.length = nt) (w : Fin nt → ℝ) (dz : ℝ)
    (ws : Sspropc.Workspace ℝ nt) (k : Fin nt) :
    let M : Libm ℝ := ⟨Real.cos, Real.sin, Real.exp, Real.sqrt, Real.pi⟩
    IsHalfStep (toC ((Sspropc.setup M u alphap beta h w dz ws).halfstep k))
      (Sspropc.alphaAt alphap h k) (coefAt beta w k) dz ∧
    IsHalfStep (toC ((Sspropvc.compute_hahb M alphaa alphab betaa betab w dz).1 k))
      (coefAt alphaa w k) (coefAt betaa w k) dz ∧
    IsHalfStep (toC ((Sspropvc.compute_hahb M alphaa alphab betaa betab w dz).2 k))
      (coefAt alphab w k) (coefAt betab w k) dz := by
  intro M
  exact ⟨isHalfStep_of_parts _ _ _, isHalfStep_of_parts _ _ _, isHalfStep_of_parts _ _ _⟩

/-- C4 at a concrete input: `nt = 2`, `alpha = [0]`, `beta = [0, 1]`,
`alphaa = alphab = [0]`, `betaa = betab = [1, 2]` (used per frequency),
`w = [0, -π]`, `dz = 1`, index `1`. -/
theorem halfstep_transfer_function_witness :
    (([0] : List ℝ).length = 1 ∨ ([0] : List ℝ).length = 2) ∧
    (let M : Libm ℝ := ⟨Real.cos, Real.sin, Real.exp, Real.sqrt, Real.pi⟩
     let w : Fin 2 → ℝ := ![0, -Real.pi]
     let ws : Sspropc.Workspace ℝ 2 :=
       ⟨fun _ => 0, fun _ => 0, fun _ => 0, fun _ => 0, fun _ => 0, fun _ => 0⟩
     IsHalfStep (toC ((Sspropc.setup M ⟨![1, 0], none⟩ [0] [0, 1] (Or.inl rfl) w 1 ws).halfstep 1))
       (Sspropc.alphaAt [0] (Or.inl rfl) (1 : Fin 2)) (coefAt [0, 1] w 1) 1 ∧
     IsHalfStep (toC ((Sspropvc.compute_hahb M [0] [0] [1, 2] [1, 2] w 1).1 1))
       (coefAt [0] w 1) (coefAt [1, 2] w 1) 1 ∧
     IsHalfStep (toC ((Sspropvc.compute_hahb M [0] [0] [1, 2] [1, 2] w 1).2 1))
       (coefAt [0] w 1) (coefAt [1, 2] w 1) 1) :=
  ⟨Or.inl rfl, halfstep_transfer_function ⟨![1, 0], none⟩ [0] [0, 1] [0] [0] [1, 2] [1, 2]
    (Or.inl rfl) ![0, -Real.pi] 1
    ⟨fun _ => 0, fun _ => 0, fun _ => 0, fun _ => 0, fun _ => 0, fun _ => 0⟩ 1⟩

/-! ### Convergence tests -/

open Sspropc in
/-- C5: for every pair of length-`nt` complex arrays with `b` not identically
zero, `ssconverged(a, b, t)` is true exactly when
`(Σ_j |a[j]/nt - b[j]|²) / (Σ_j |b[j]|²) < t`. -/
theorem ssconverged_iff {nt : ℕ} (a b : CVec ℝ nt) (t : ℝ) (hb : ∃ j, b j ≠ 0) :
    ssconverged a b t = true ↔
      (∑ j, Complex.normSq (toC (a j) / (nt : ℂ) - toC (b j))) /
        (∑ j, Complex.normSq (toC (b j))) < t := by
  have hpos : 0 < ∑ j, Complex.normSq (toC (b j)) := by
    have := energy_pos hb
    simpa [energy, normSq_toC] using this
  unfold ssconverged quotLt
  rw [ssconverged_sums_eq]
  simp [hpos.ne']

open Sspropc in
/-- C5 at a concrete input: `nt = 2`, `a = [(2,0),(4,0)]`, `b = [(1,0),(1,0)]`,
`t = 1`. -/
theorem ssconverged_iff_witness :
    (∃ j, (![(1, 0), (1, 0)] : CVec ℝ 2) j ≠ 0) ∧
    (ssconverged (![(2, 0), (4, 0)] : CVec ℝ 2) ![(1, 0), (1, 0)] 1 = true ↔
      (∑ j, Complex.normSq (toC ((![(2, 0), (4, 0)] : CVec ℝ 2) j) / ((2 : ℕ) : ℂ) -
          toC ((![(1, 0), (1, 0)] : CVec ℝ 2) j))) /
        (∑ j, Complex.normSq (toC ((![(1, 0), (1, 0)] : CVec ℝ 2) j))) < 1) :=
  ⟨⟨0, by simp⟩, ssconverged_iff _ _ 1 ⟨0, by simp⟩⟩

open Sspropvc in
/-- C6 fails as stated: with `nt = 1`, `uva = [(1,0)]`, `u1a = [(2,0)]`,
`uvb = u1b = [(0,0)]` and `tol = 1/3` the joint ratio is `1/4 < tol`, yet
`is_converged` returns false, because it compares `sqrt(num)/sqrt(denom) = 1/2`
with `tol`. -/
theorem is_converged_ratio_counterexample :
    let M : Libm ℝ := ⟨Real.cos, Real.sin, Real.exp, Real.sqrt, Real.pi⟩
    let uva : CVec ℝ 1 := fun _ => (1, 0)
    let u1a : CVec ℝ 1 := fun _ => (2, 0)
    let uvb : CVec ℝ 1 := fun _ => (0, 0)
    let u1b : CVec ℝ 1 := fun _ => (0, 0)
    (∃ j, u1a j ≠ 0) ∧
    (∑ j, Complex.normSq (toC (uva j) / ((1 : ℕ) : ℂ) - toC (u1a j)) +
        ∑ j, Complex.normSq (toC (uvb j) / ((1 : ℕ) : ℂ) - toC (u1b j))) /
      (∑ j, Complex.normSq (toC (u1a j)) + ∑ j, Complex.normSq (toC (u1b j))) < 1 / 3 ∧
    is_converged M uva u1a uvb u1b (1 / 3) = false := by
  intro M uva u1a uvb u1b
  have h4 : Real.sqrt 4 = 2 := by
    rw [show (4 : ℝ) = 2 ^ 2 by norm_num]
    exact Real.sqrt_sq (by norm_num)
  refine ⟨⟨0, by simp [u1a]⟩, ?_, ?_⟩
  · simp [uva, u1a, uvb, u1b, toC, Complex.normSq_apply]
    norm_num
  · unfold is_converged quotLt
    rw [is_converged_sums_eq]
    simp [M, uva, u1a, uvb, u1b, toC, Complex.normSq_apply]
    norm_num [h4]

open Sspropvc in
/-- C6 as amended: for every `tol ≥ 0` and every input whose previous estimate
`(u1a, u1b)` is not identically zero, `is_converged` is true exactly when the
joint ratio `(Σ_j |uva[j]/nt - u1a[j]|² + Σ_j |uvb[j]/nt - u1b[j]|²) /
(Σ_j |u1a[j]|² + Σ_j |u1b[j]|²)` is below `tol²` (the function compares the
square root of the ratio with `tol`). -/
theorem is_converged_iff_ratio_lt_sq {nt : ℕ} (uva u1a uvb u1b : CVec ℝ nt) (tol : ℝ)
    (htol : 0 ≤ tol) (h1 : (∃ j, u1a j ≠ 0) ∨ (∃ j, u1b j ≠ 0)) :
    is_converged ⟨Real.cos, Real.sin, Real.exp, Real.sqrt, Real.pi⟩ uva u1a uvb u1b tol = true ↔
      (∑ j, Complex.normSq (toC (uva j) / (nt : ℂ) - toC (u1a j)) +
          ∑ j, Complex.normSq (toC (uvb j) / (nt : ℂ) - toC (u1b j))) /
        (∑ j, Complex.normSq (toC (u1a j)) + ∑ j, Complex.normSq (toC (u1b j))) < tol ^ 2 := by
  have ha : 0 ≤ ∑ j, Complex.normSq (toC (u1a j)) :=
    Finset.sum_nonneg fun j _ => Complex.normSq_nonneg _
  have hb : 0 ≤ ∑ j, Complex.normSq (toC (u1b j)) :=
    Finset.sum_nonneg fun j _ => Complex.normSq_nonneg _
  have hpos : 0 < ∑ j, Complex.normSq (toC (u1a j)) + ∑ j, Complex.normSq (toC (u1b j)) := by
    rcases h1 with h | h
    · have := energy_pos h
      simp only [energy, ← normSq_toC] at this
      linarith
    · have := energy_pos h
      simp only [energy, ← normSq_toC] at this
      linarith
  have hnum : 0 ≤ ∑ j, Complex.normSq (toC (uva j) / (nt : ℂ) - toC (u1a j)) +
      ∑ j, Complex.normSq (toC (uvb j) / (nt : ℂ) - toC (u1b j)) :=
    add_nonneg (Finset.sum_nonneg fun j _ => Complex.normSq_nonneg _)
      (Finset.sum_nonneg fun j _ => Complex.normSq_nonneg _)
  unfold is_converged quotLt
  rw [is_converged_sums_eq]
  have hs : Real.sqrt (∑ j, Complex.normSq (toC (u1a j)) +
      ∑ j, Complex.normSq (toC (u1b j))) ≠ 0 := (Real.sqrt_pos.mpr hpos).ne'
  simp only [hs, if_false, decide_eq_true_eq]
  rw [← Real.sqrt_div hnum]
  rcases htol.eq_or_lt with h0 | h0
  · rw [← h0]
    have hq := div_nonneg hnum hpos.le
    constructor
    · intro h
      exact absurd h (not_lt.mpr (Real.sqrt_nonneg _))
    · intro h
      norm_num at h
      exact absurd h (not_lt.mpr hq)
  · exact Real.sqrt_lt' h0

open Sspropvc in
/-- C6 as amended, at a concrete input: `nt = 1`, `uva = [(1,0)]`,
`u1a = [(2,0)]`, `uvb = u1b = [(0,0)]`, `tol = 1/3`. -/
theorem is_converged_iff_ratio_lt_sq_witness :
    (0 : ℝ) ≤ 1 / 3 ∧
    ((∃ j, (fun _ => (2, 0) : CVec ℝ 1) j ≠ 0) ∨ (∃ j, (fun _ => (0, 0) : CVec ℝ 1) j ≠ 0)) ∧
    (is_converged ⟨Real.cos, Real.sin, Real.exp, Real.sqrt, Real.pi⟩
        (fun _ => (1, 0) : CVec ℝ 1) (fun _ => (2, 0)) (fun _ => (0, 0)) (fun _ => (0, 0))
        (1 / 3) = true ↔
      (∑ j, Complex.normSq (toC ((fun _ => (1, 0) : CVec ℝ 1) j) / ((1 : ℕ) : ℂ) -
            toC ((fun _ => (2, 0) : CVec ℝ 1) j)) +
          ∑ j, Complex.normSq (toC ((fun _ => (0, 0) : CVec ℝ 1) j) / ((1 : ℕ) : ℂ) -
            toC ((fun _ => (0, 0) : CVec ℝ 1) j))) /
        (∑ j, Complex.normSq (toC ((fun _ => (2, 0) : CVec ℝ 1) j)) +
          ∑ j, Complex.normSq (toC ((fun _ => (0, 0) : CVec ℝ 1) j))) < (1 / 3 : ℝ) ^ 2) :=
  ⟨by norm_num, Or.inl ⟨0, by simp⟩,
    is_converged_iff_ratio_lt_sq _ _ _ _ (1 / 3) (by norm_num) (Or.inl ⟨0, by simp⟩)⟩

/-! ### Nonlinear operator of the scalar propagator -/

open Sspropc in
/-- C7 fails as stated: on the general path with `nt = 2`, `u0 = u1 = [1, 1]`,
`uhalf = [2, 2]`, `gamma = π/2`, `dz = 1`, `traman = 1`, `toptical = 0`, `dt = 1`
the accumulated `nlp[0]` is `π/2 + 0i` and the code stores `uv[0] = -i`, whereas
`uhalf[0]·exp(i·nlp[0])/N = +i`. -/
theorem nonlinear_operator_sign_counterexample :
    let M : Libm ℝ := ⟨Real.cos, Real.sin, Real.exp, Real.sqrt, Real.pi⟩
    let ws : Workspace ℝ 2 :=
      { u0 := fun _ => (1, 0), ufft := fun _ => (0, 0), uhalf := fun _ => (2, 0),
        uv := fun _ => (0, 0), u1 := fun _ => (1, 0), halfstep := fun _ => (0, 0) }
    let nlp : COMPLEX ℝ := nlp_scaled M (Real.pi / 2) 1 1 0 1
      (ws.u0 1) (ws.u0 0) (ws.u0 1) (ws.u1 1) (ws.u1 0) (ws.u1 1)
    nlp = (Real.pi / 2, 0) ∧
    (∃ ws', general_path M (Real.pi / 2) 1 1 0 1 ws = some ws' ∧ toC (ws'.uv 0) = -Complex.I) ∧
    toC (ws.uhalf 0) * Complex.exp (Complex.I * toC nlp) / ((2 : ℕ) : ℂ) = Complex.I := by
  intro M ws nlp
  have hnlp : nlp = (Real.pi / 2, 0) := by
    simp only [nlp, ws, M, nlp_scaled, nlp_term, abs2, prodi, prodr, Prod.mk.injEq]
    constructor <;> ring
  refine ⟨hnlp, ⟨_, general_path_eq M (Real.pi / 2) 1 1 0 1 ws (le_refl 2), ?_⟩, ?_⟩
  · have hn : nlpAt M (Real.pi / 2) 1 1 0 1 ws.u0 ws.u1 0 = (Real.pi / 2, 0) := hnlp
    simp only [hn]
    apply Complex.ext
    · simp [toC, apply_nlp, M, ws]
    · simp [toC, apply_nlp, M, ws]
  · rw [hnlp]
    have h : Complex.I * toC (Real.pi / 2, 0) = ((Real.pi / 2 : ℝ) : ℂ) * Complex.I := by
      simp [toC, mul_comm]
      apply Complex.ext <;> simp
    rw [h, Complex.exp_mul_I]
    simp [toC, ws, ← Complex.ofReal_cos, ← Complex.ofReal_sin]
    apply Complex.ext <;> simp

open Sspropc in
/-- C7 as amended: in the scalar propagator the nonlinear operator is applied at
every sample `j` as `uv[j] = uhalf[j]·exp(-i·nlp[j])/nt`. On the pure-Kerr path
`nlp[j]` is the real phase `gamma·(|u0[j]|²+|u1[j]|²)·dz/2`; on the general path,
for `nt ≥ 2`, it is `nlpReal + i·nlpImag`, the value accumulated from the
circularly wrapped neighbours and already scaled by `gamma·dz/2`. -/
theorem nonlinear_operator_applied {nt : ℕ} (gamma dz traman toptical dt : ℝ)
    (ws : Workspace ℝ nt) :
    let M : Libm ℝ := ⟨Real.cos, Real.sin, Real.exp, Real.sqrt, Real.pi⟩
    (∀ j, toC ((kerr_path M gamma dz ws).uv j)
        = toC (ws.uhalf j) *
            Complex.exp (-(Complex.I *
              ((gamma * (abs2 (ws.u0 j) + abs2 (ws.u1 j)) * dz / 2 : ℝ) : ℂ))) / (nt : ℂ)) ∧
    (2 ≤ nt → ∃ ws', general_path M gamma dz traman toptical dt ws = some ws' ∧
      ∀ j, toC (ws'.uv j)
        = toC (ws.uhalf j) *
            Complex.exp (-(Complex.I * toC (nlpAt M gamma dz traman toptical dt ws.u0 ws.u1 j))) /
              (nt : ℂ)) := by
  intro M
  refine ⟨fun j => toC_kerr_path gamma dz ws j, fun h2 => ?_⟩
  exact ⟨_, general_path_eq M gamma dz traman toptical dt ws h2, fun j => toC_apply_nlp nt _ _⟩

open Sspropc in
/-- C7 as amended, at a concrete input: `nt = 2`, all parameters `1`, the
workspace of the counterexample. -/
theorem nonlinear_operator_applied_witness :
    2 ≤ 2 ∧
    (let M : Libm ℝ := ⟨Real.cos, Real.sin, Real.exp, Real.sqrt, Real.pi⟩
     let ws : Workspace ℝ 2 :=
       { u0 := fun _ => (1, 0), ufft := fun _ => (0, 0), uhalf := fun _ => (2, 0),
         uv := fun _ => (0, 0), u1 := fun _ => (1, 0), halfstep := fun _ => (0, 0) }
     ∃ ws', general_path M 1 1 1 1 1 ws = some ws' ∧
       ∀ j, toC (ws'.uv j)
         = toC (ws.uhalf j) *
             Complex.exp (-(Complex.I * toC (nlpAt M 1 1 1 1 1 ws.u0 ws.u1 j))) /
               ((2 : ℕ) : ℂ)) :=
  ⟨le_refl 2, (nonlinear_operator_applied 1 1 1 1 1
    { u0 := fun _ => (1, 0), ufft := fun _ => (0, 0), uhalf := fun _ => (2, 0),
      uv := fun _ => (0, 0), u1 := fun _ => (1, 0), halfstep := fun _ => (0, 0) }).2 (le_refl 2)⟩

/-! ### Nonlinear operator of the vector propagator -/

open Sspropvc in
/-- C8: for every `chi`, `gamma`, `dz` and every sample `jj`,
`nonlinear_propagate` sets `uva[jj] = uahalf[jj]·exp(-i·phiA)` and
`uvb[jj] = ubhalf[jj]·exp(-i·phiB)`, with
`phiA = coef·(twoPlusCos·(|u0a|²+|u1a|²) + twoPlusSin·(|u0b|²+|u1b|²))`, `phiB`
the same with the channels swapped, `coef = gamma·dz/3`,
`twoPlusCos = (2+cos²(2chi))/2` and `twoPlusSin = (2+2sin²(2chi))/2`. -/
theorem nonlinear_propagate_phase {nt : ℕ} (uahalf ubhalf u0a u0b u1a u1b : CVec ℝ nt)
    (gamma dz chi : ℝ) (jj : Fin nt) :
    let M : Libm ℝ := ⟨Real.cos, Real.sin, Real.exp, Real.sqrt, Real.pi⟩
    let coef : ℝ := gamma * dz / 3
    let twoPlusCos : ℝ := (2 + Real.cos (2 * chi) ^ 2) / 2
    let twoPlusSin : ℝ := (2 + 2 * Real.sin (2 * chi) ^ 2) / 2
    let phiA : ℝ := coef * (twoPlusCos * (Complex.normSq (toC (u0a jj)) +
        Complex.normSq (toC (u1a jj))) +
      twoPlusSin * (Complex.normSq (toC (u0b jj)) + Complex.normSq (toC (u1b jj))))
    let phiB : ℝ := coef * (twoPlusCos * (Complex.normSq (toC (u0b jj)) +
        Complex.normSq (toC (u1b jj))) +
      twoPlusSin * (Complex.normSq (toC (u0a jj)) + Complex.normSq (toC (u1a jj))))
    toC ((nonlinear_propagate M uahalf ubhalf u0a u0b u1a u1b gamma dz chi).1 jj)
        = toC (uahalf jj) * Complex.exp (-(Complex.I * (phiA : ℂ))) ∧
    toC ((nonlinear_propagate M uahalf ubhalf u0a u0b u1a u1b gamma dz chi).2 jj)
        = toC (ubhalf jj) * Complex.exp (-(Complex.I * (phiB : ℂ))) := by
  intro M coef twoPlusCos twoPlusSin phiA phiB
  have hA : (1 / 3 : ℝ) * gamma * dz *
      ((2 + Real.cos (2 * chi) * Real.cos (2 * chi)) / 2 * (abs2 (u0a jj) + abs2 (u1a jj)) +
       (2 + 2 * Real.sin (2 * chi) * Real.sin (2 * chi)) / 2 * (abs2 (u0b jj) + abs2 (u1b jj)))
      = phiA := by
    simp only [phiA, coef, twoPlusCos, twoPlusSin, normSq_toC]
    ring
  have hB : (1 / 3 : ℝ) * gamma * dz *
      ((2 + Real.cos (2 * chi) * Real.cos (2 * chi)) / 2 * (abs2 (u0b jj) + abs2 (u1b jj)) +
       (2 + 2 * Real.sin (2 * chi) * Real.sin (2 * chi)) / 2 * (abs2 (u0a jj) + abs2 (u1a jj)))
      = phiB := by
    simp only [phiB, coef, twoPlusCos, twoPlusSin, normSq_toC]
    ring
  rw [toC_mul_cexp_neg, toC_mul_cexp_neg]
  simp only [nonlinear_propagate, M, hA, hB]
  exact ⟨trivial, trivial⟩

/-! ### Elliptical and circular methods of the vector propagator -/

open Sspropvc in
/-- C9: over exact reals, with the constant `pi` of the source taken as `π`,
for every input pair, every `dt`, `dz`, `nz`, `gamma`, `maxiter`, `tol`, every
coefficient lists and the same transform provider, the vector propagator run
with the elliptical method at `chi = π/4`, `psi = 0` and run with the circular
method at `chi = π/4`, `psi = 0` return the same result: at these angles
`compute_H` gives `h11 = ha`, `h22 = hb`, `h12 = h21 = 0`, so `prop_linear_circ`
coincides with `prop_linear_ellipt`. -/
theorem elliptical_circular_agree {nt : ℕ} (P : Fftw ℝ nt) (u0x u0y : mxArray ℝ nt)
    (dt dz : ℝ) (nz : ℤ) (alphaa alphab betaa betab : List ℝ) (gamma : ℝ) (maxiter : ℤ)
    (tol : ℝ) (w0 : Fin nt → ℝ) (ws : Workspace ℝ nt) :
    let M : Libm ℝ := ⟨Real.cos, Real.sin, Real.exp, Real.sqrt, Real.pi⟩
    (∀ ha hb : CVec ℝ nt,
      (compute_H M ha hb (Real.pi / 4) 0).h11 = ha ∧
      (compute_H M ha hb (Real.pi / 4) 0).h22 = hb ∧
      (compute_H M ha hb (Real.pi / 4) 0).h12 = (fun _ => (0, 0)) ∧
      (compute_H M ha hb (Real.pi / 4) 0).h21 = (fun _ => (0, 0)) ∧
      prop_linear_circ (compute_H M ha hb (Real.pi / 4) 0) = prop_linear_ellipt ha hb) ∧
    propagate M P u0x u0y dt dz nz alphaa alphab betaa betab gamma 0 (Real.pi / 4) true
        maxiter tol w0 ws
      = propagate M P u0x u0y dt dz nz alphaa alphab betaa betab gamma 0 (Real.pi / 4) false
        maxiter tol w0 ws := by
  intro M
  have hlin : ∀ ha hb : CVec ℝ nt,
      prop_linear_circ (compute_H M ha hb (Real.pi / 4) 0) = prop_linear_ellipt ha hb := by
    intro ha hb
    rw [compute_H_quarter_pi, prop_linear_circ_diag]
  refine ⟨fun ha hb => ?_, ?_⟩
  · refine ⟨?_, ?_, ?_, ?_, hlin ha hb⟩ <;> rw [compute_H_quarter_pi]
  · unfold propagate
    cases compute_w M w0 dt with
    | none => rfl
    | some w =>
      simp only [elliptical_method, circular_method, hlin, M, if_true, Bool.false_eq_true,
        if_false]

/-! ### Energy conservation in the scalar propagator -/

open Sspropc in
/-- C10: for the scalar propagator on `nt ≥ 1` samples with every `alpha` entry
zero and zero Raman and optical-cycle times, with a provider satisfying
Parseval, for every `beta`, `gamma`, `dz`, `maxiter`, every input and every
number of steps `nz`: the call returns and the energy `Σ_j |u[j]|²` of the field
after `nz` steps equals that of the input (so it does after every step). -/
theorem energy_conserved {nt : ℕ} (hnt : 0 < nt) (P : Fftw ℝ nt) (hpar : P.Parseval)
    (u : mxArray ℝ nt) (dt dz gamma tol : ℝ) (nz maxiter : ℤ) (alphap beta : List ℝ)
    (hlen : alphap.length = 1 ∨ alphap.length = nt) (halpha : ∀ a ∈ alphap, a = 0)
    (w0 : Fin nt → ℝ) (ws : Workspace ℝ nt) :
    ∃ out warn,
      propagate ⟨Real.cos, Real.sin, Real.exp, Real.sqrt, Real.pi⟩ P u dt dz nz alphap beta
        gamma 0 0 maxiter tol w0 ws = .ok (out, warn) ∧
      energy (fun j => (out.pr j, out.im j)) = energy (fun j => (u.pr j, u.im j)) := by
  let E : ℝ := energy (fun j => (u.pr j, u.im j))
  let J : ℕ → Workspace ℝ nt → Prop := fun _ v =>
    (∀ k, abs2 (v.halfstep k) = 1) ∧ energy v.u1 = E ∧ energy v.ufft = (nt : ℝ) * E
  have hstep : ∀ k v, J k v → ∃ r,
      zstep ⟨Real.cos, Real.sin, Real.exp, Real.sqrt, Real.pi⟩ P gamma dz 0 0 dt tol maxiter v
        = some r ∧ J (k + 1) r.1 := by
    intro k v hv
    exact zstep_energy hnt P hpar gamma dz dt tol maxiter E v hv.1 hv.2.1 hv.2.2
  have hinit : J 0
      { setup ⟨Real.cos, Real.sin, Real.exp, Real.sqrt, Real.pi⟩ u alphap beta hlen
          (wgrid ⟨Real.cos, Real.sin, Real.exp, Real.sqrt, Real.pi⟩ nt dt) dz ws with
        ufft := P.forward (setup ⟨Real.cos, Real.sin, Real.exp, Real.sqrt, Real.pi⟩ u alphap beta
          hlen (wgrid ⟨Real.cos, Real.sin, Real.exp, Real.sqrt, Real.pi⟩ nt dt) dz ws).u0 } := by
    refine ⟨fun k => setup_halfstep_unimodular u alphap beta hlen halpha _ dz ws k, rfl, ?_⟩
    exact hpar.1 _
  obtain ⟨r, hr, -, hr1, -⟩ := zloop_inv _ J hstep nz.toNat 0 _ hinit
  refine ⟨⟨fun j => (r.1.u1 j).1, some fun j => (r.1.u1 j).2⟩, r.2, ?_, hr1⟩
  unfold propagate
  rw [dif_pos hlen]
  simp only [wspace_eq hnt, hr]

open Sspropc in
/-- C10 at a concrete input: the two-point transform, `u0 = [1, 2]`,
`dt = dz = gamma = 1`, `nz = 3`, `maxiter = 4`, `alpha = [0]`, `beta = [0, 0, 1]`. -/
theorem energy_conserved_witness :
    (dft2 : Fftw ℝ 2).Parseval ∧
    (∃ out warn,
      propagate ⟨Real.cos, Real.sin, Real.exp, Real.sqrt, Real.pi⟩ dft2 ⟨![1, 2], none⟩ 1 1 3
        [0] [0, 0, 1] 1 0 0 4 (1 / 100000) (fun _ => 0)
        ⟨fun _ => 0, fun _ => 0, fun _ => 0, fun _ => 0, fun _ => 0, fun _ => 0⟩
        = .ok (out, warn) ∧
      energy (fun j => (out.pr j, out.im j))
        = energy (fun j => ((⟨![1, 2], none⟩ : mxArray ℝ 2).pr j,
            (⟨![1, 2], none⟩ : mxArray ℝ 2).im j))) :=
  ⟨dft2_parseval,
    energy_conserved (by decide) dft2 dft2_parseval ⟨![1, 2], none⟩ 1 1 1 (1 / 100000) 3 4
      [0] [0, 0, 1] (Or.inl rfl) (by simp) (fun _ => 0)
      ⟨fun _ => 0, fun _ => 0, fun _ => 0, fun _ => 0, fun _ => 0, fun _ => 0⟩⟩

/-! ### The frequency grid -/

/-- C12: for every `nt ≥ 1` and every `dt`, the loops of the scalar propagator
and `compute_w` build the same sequence of length `nt`, with
`w[k] = 2π·k/(dt·nt)` for every `k ≤ (nt-1)/2` (integer division) and
`w[k] = 2π·k/(dt·nt) - 2π/dt` for every other `k < nt`, whatever the buffers
held before. -/
theorem frequency_grid {nt : ℕ} (hnt : 0 < nt) (dt : ℝ) (w0 w0' : Fin nt → ℝ) :
    let M : Libm ℝ := ⟨Real.cos, Real.sin, Real.exp, Real.sqrt, Real.pi⟩
    ∃ w : Fin nt → ℝ, Sspropc.wspace M w0 dt = some w ∧ Sspropvc.compute_w M w0' dt = some w ∧
      ∀ k : Fin nt, w k =
        if k.val ≤ (nt - 1) / 2 then 2 * Real.pi * (k.val : ℝ) / (dt * (nt : ℝ))
        else 2 * Real.pi * (k.val : ℝ) / (dt * (nt : ℝ)) - 2 * Real.pi / dt := by
  intro M
  exact ⟨wgrid M nt dt, wspace_eq hnt w0 dt, compute_w_eq hnt w0' dt, fun k => rfl⟩

/-- C12 at a concrete input: `nt = 8`, `dt = 1`, buffers initially zero. -/
theorem frequency_grid_witness :
    0 < 8 ∧
    (let M : Libm ℝ := ⟨Real.cos, Real.sin, Real.exp, Real.sqrt, Real.pi⟩
     ∃ w : Fin 8 → ℝ, Sspropc.wspace M (fun _ => 0) 1 = some w ∧
       Sspropvc.compute_w M (fun _ => 0) 1 = some w ∧
       ∀ k : Fin 8, w k =
         if k.val ≤ (8 - 1) / 2 then 2 * Real.pi * (k.val : ℝ) / (1 * ((8 : ℕ) : ℝ))
         else 2 * Real.pi * (k.val : ℝ) / (1 * ((8 : ℕ) : ℝ)) - 2 * Real.pi / 1) :=
  ⟨by decide, frequency_grid (by decide) 1 (fun _ => 0) (fun _ => 0)⟩

/-! ### Evaluation of the coefficient lists -/

/-- C13: a coefficient list is evaluated by switching on its length: a list of
length `nt` is used verbatim (the value at index `k` is `coef[k]`) and a list of
any other length is evaluated at `w[k]` as the Taylor sum
`Σ_i coef[i]·w[k]^i / i!`; when the loop has consumed the first `i`
coefficients its counter is `i`, its running factorial `i!`, its running power
`w^i` and its accumulator the partial sum; a one-element list gives `coef[0]` at
every frequency. The scalar `beta` and the four lists of `compute_hahb` are all
evaluated by this rule. -/
theorem coefficient_evaluation {nt : ℕ} (u : mxArray ℝ nt)
    (alphap beta alphaa alphab betaa betab : List ℝ)
    (h : alphap.length = 1 ∨ alphap.length = nt) (w : Fin nt → ℝ) (dz : ℝ)
    (ws : Sspropc.Workspace ℝ nt) (k : Fin nt) :
    let M : Libm ℝ := ⟨Real.cos, Real.sin, Real.exp, Real.sqrt, Real.pi⟩
    (∀ coef : List ℝ, coefAt coef w k =
      if hn : coef.length = nt then coef.get (Fin.cast hn.symm k) else taylorSum coef (w k)) ∧
    (∀ (x : ℝ) (pre post : List ℝ), taylorLoop x (pre ++ post) 0 0 1 1 =
      taylorLoop x post pre.length (taylorSum pre x) ((Nat.factorial pre.length : ℕ) : ℝ)
        (x ^ pre.length)) ∧
    (∀ c0 : ℝ, coefAt [c0] w k = c0) ∧
    (Sspropc.setup M u alphap beta h w dz ws).halfstep k
      = (Real.exp (-Sspropc.alphaAt alphap h k * dz / 4) * Real.cos (coefAt beta w k * dz / 2),
         -Real.exp (-Sspropc.alphaAt alphap h k * dz / 4) *
            Real.sin (coefAt beta w k * dz / 2)) ∧
    (Sspropvc.compute_hahb M alphaa alphab betaa betab w dz).1 k
      = (Real.exp (-coefAt alphaa w k * dz / 4) * Real.cos (coefAt betaa w k * dz / 2),
         -Real.exp (-coefAt alphaa w k * dz / 4) * Real.sin (coefAt betaa w k * dz / 2)) ∧
    (Sspropvc.compute_hahb M alphaa alphab betaa betab w dz).2 k
      = (Real.exp (-coefAt alphab w k * dz / 4) * Real.cos (coefAt betab w k * dz / 2),
         -Real.exp (-coefAt alphab w k * dz / 4) * Real.sin (coefAt betab w k * dz / 2)) := by
  intro M
  have hrule : ∀ coef : List ℝ, coefAt coef w k =
      if hn : coef.length = nt then coef.get (Fin.cast hn.symm k) else taylorSum coef (w k) := by
    intro coef
    unfold coefAt
    split
    · rfl
    · exact taylor_eq_taylorSum _ _
  refine ⟨hrule, ?_, ?_, rfl, rfl, rfl⟩
  · intro x pre post
    have hl := taylorLoop_append x pre post 0 0
    simp only [Nat.factorial_zero, Nat.cast_one, pow_zero, zero_add] at hl
    exact hl
  · intro c0
    have hget : ∀ i : Fin [c0].length, [c0].get i = c0 := by
      intro i
      match i with
      | ⟨0, _⟩ => rfl
    rw [hrule]
    split
    · exact hget _
    · simp [taylorSum]

/-- C13 at a concrete input: `nt = 2`, `alpha = [0]`, `beta = [1, 2, 3]`,
`alphaa = alphab = [0]`, `betaa = betab = [1, 2]`, `w = [0, -π]`, `dz = 1`,
index `1`. -/
theorem coefficient_evaluation_witness :
    (([0] : List ℝ).length = 1 ∨ ([0] : List ℝ).length = 2) ∧
    (let M : Libm ℝ := ⟨Real.cos, Real.sin, Real.exp, Real.sqrt, Real.pi⟩
     let w : Fin 2 → ℝ := ![0, -Real.pi]
     let ws : Sspropc.Workspace ℝ 2 :=
       ⟨fun _ => 0, fun _ => 0, fun _ => 0, fun _ => 0, fun _ => 0, fun _ => 0⟩
     (∀ coef : List ℝ, coefAt coef w 1 =
       if hn : coef.length = 2 then coef.get (Fin.cast hn.symm 1) else taylorSum coef (w 1)) ∧
     (∀ (x : ℝ) (pre post : List ℝ), taylorLoop x (pre ++ post) 0 0 1 1 =
       taylorLoop x post pre.length (taylorSum pre x) ((Nat.factorial pre.length : ℕ) : ℝ)
         (x ^ pre.length)) ∧
     (∀ c0 : ℝ, coefAt [c0] w 1 = c0) ∧
     (Sspropc.setup M ⟨![1, 0], none⟩ [0] [1, 2, 3] (Or.inl rfl) w 1 ws).halfstep 1
       = (Real.exp (-Sspropc.alphaAt [0] (Or.inl rfl) (1 : Fin 2) * 1 / 4) *
            Real.cos (coefAt [1, 2, 3] w 1 * 1 / 2),
          -Real.exp (-Sspropc.alphaAt [0] (Or.inl rfl) (1 : Fin 2) * 1 / 4) *
            Real.sin (coefAt [1, 2, 3] w 1 * 1 / 2)) ∧
     (Sspropvc.compute_hahb M [0] [0] [1, 2] [1, 2] w 1).1 1
       = (Real.exp (-coefAt [0] w 1 * 1 / 4) * Real.cos (coefAt [1, 2] w 1 * 1 / 2),
          -Real.exp (-coefAt [0] w 1 * 1 / 4) * Real.sin (coefAt [1, 2] w 1 * 1 / 2)) ∧
     (Sspropvc.compute_hahb M [0] [0] [1, 2] [1, 2] w 1).2 1
       = (Real.exp (-coefAt [0] w 1 * 1 / 4) * Real.cos (coefAt [1, 2] w 1 * 1 / 2),
          -Real.exp (-coefAt [0] w 1 * 1 / 4) * Real.sin (coefAt [1, 2] w 1 * 1 / 2))) :=
  ⟨Or.inl rfl, coefficient_evaluation ⟨![1, 0], none⟩ [0] [1, 2, 3] [0] [0] [1, 2] [1, 2]
    (Or.inl rfl) ![0, -Real.pi] 1
    ⟨fun _ => 0, fun _ => 0, fun _ => 0, fun _ => 0, fun _ => 0, fun _ => 0⟩ 1⟩

/-! ### The change of basis -/

open Sspropvc in
/-- C14: for every `chi`, `psi` and every samples `ux`, `uy` (the imaginary part
of a channel stored as real being zero), `rotate_coord` computes
`ua = (cosψ·cosχ - i·sinψ·sinχ)·ux + (sinψ·cosχ + i·cosψ·sinχ)·uy` and
`ub = (-sinψ·cosχ + i·cosψ·sinχ)·ux + (cosψ·cosχ + i·sinψ·sinχ)·uy`; at
`chi = π/4`, `psi = 0` this is `ua = (ux + i·uy)/√2`, `ub = (i·ux + uy)/√2`, and
at `chi = psi = 0` it is the identity. -/
theorem rotate_coord_formula {nt : ℕ} (chi psi : ℝ) (ux uy : mxArray ℝ nt) (jj : Fin nt) :
    let M : Libm ℝ := ⟨Real.cos, Real.sin, Real.exp, Real.sqrt, Real.pi⟩
    let X : ℂ := toC (ux.pr jj, ux.im jj)
    let Y : ℂ := toC (uy.pr jj, uy.im jj)
    toC ((rotate_coord M ux uy chi psi).1 jj)
      = ((Real.cos psi * Real.cos chi : ℝ) - Complex.I * (Real.sin psi * Real.sin chi : ℝ)) * X +
        ((Real.sin psi * Real.cos chi : ℝ) + Complex.I * (Real.cos psi * Real.sin chi : ℝ)) * Y ∧
    toC ((rotate_coord M ux uy chi psi).2 jj)
      = (-(Real.sin psi * Real.cos chi : ℝ) + Complex.I * (Real.cos psi * Real.sin chi : ℝ)) * X +
        ((Real.cos psi * Real.cos chi : ℝ) + Complex.I * (Real.sin psi * Real.sin chi : ℝ)) * Y ∧
    toC ((rotate_coord M ux uy (Real.pi / 4) 0).1 jj) = (X + Complex.I * Y) / (Real.sqrt 2 : ℂ) ∧
    toC ((rotate_coord M ux uy (Real.pi / 4) 0).2 jj) = (Complex.I * X + Y) / (Real.sqrt 2 : ℂ) ∧
    (rotate_coord M ux uy 0 0).1 jj = (ux.pr jj, ux.im jj) ∧
    (rotate_coord M ux uy 0 0).2 jj = (uy.pr jj, uy.im jj) := by
  intro M X Y
  have hs : Real.sqrt 2 ≠ 0 := by positivity
  have hs2 : Real.sqrt 2 * Real.sqrt 2 = 2 := Real.mul_self_sqrt (by norm_num)
  have hdiv : ∀ z : ℂ, z / (Real.sqrt 2 : ℂ) = ((Real.sqrt 2 / 2 : ℝ) : ℂ) * z := by
    intro z
    have hc : (Real.sqrt 2 : ℂ) ≠ 0 := by exact_mod_cast hs
    have hc2 : (Real.sqrt 2 : ℂ) * (Real.sqrt 2 : ℂ) = 2 := by exact_mod_cast hs2
    have hz : z = ((Real.sqrt 2 / 2 : ℝ) : ℂ) * z * (Real.sqrt 2 : ℂ) := by
      push_cast
      rw [show (Real.sqrt 2 : ℂ) / 2 * z * (Real.sqrt 2 : ℂ)
        = ((Real.sqrt 2 : ℂ) * (Real.sqrt 2 : ℂ)) / 2 * z by ring, hc2]
      ring
    rw [div_eq_iff hc]
    exact hz
  refine ⟨?_, ?_, ?_, ?_, ?_, ?_⟩
  · rw [(rotate_coord_apply M ux uy chi psi jj).1]
    apply Complex.ext <;>
      simp only [toC, X, Y, M, Complex.add_re, Complex.mul_re, Complex.sub_re, Complex.ofReal_re,
        Complex.ofReal_im, Complex.I_re, Complex.I_im, Complex.add_im, Complex.mul_im,
        Complex.sub_im, Complex.neg_re, Complex.neg_im] <;> ring
  · rw [(rotate_coord_apply M ux uy chi psi jj).2]
    apply Complex.ext <;>
      simp only [toC, X, Y, M, Complex.add_re, Complex.mul_re, Complex.sub_re, Complex.ofReal_re,
        Complex.ofReal_im, Complex.I_re, Complex.I_im, Complex.add_im, Complex.mul_im,
        Complex.sub_im, Complex.neg_re, Complex.neg_im] <;> ring
  · rw [(rotate_coord_apply M ux uy (Real.pi / 4) 0 jj).1, hdiv]
    apply Complex.ext <;>
      simp only [toC, X, Y, M, Complex.add_re, Complex.mul_re, Complex.sub_re, Complex.ofReal_re,
        Complex.ofReal_im, Complex.I_re, Complex.I_im, Complex.add_im, Complex.mul_im,
        Complex.sub_im, Complex.neg_re, Complex.neg_im, Real.cos_pi_div_four,
        Real.sin_pi_div_four, Real.cos_zero, Real.sin_zero] <;> ring
  · rw [(rotate_coord_apply M ux uy (Real.pi / 4) 0 jj).2, hdiv]
    apply Complex.ext <;>
      simp only [toC, X, Y, M, Complex.add_re, Complex.mul_re, Complex.sub_re, Complex.ofReal_re,
        Complex.ofReal_im, Complex.I_re, Complex.I_im, Complex.add_im, Complex.mul_im,
        Complex.sub_im, Complex.neg_re, Complex.neg_im, Real.cos_pi_div_four,
        Real.sin_pi_div_four, Real.cos_zero, Real.sin_zero] <;> ring
  · rw [(rotate_coord_apply M ux uy 0 0 jj).1]
    simp [M]
  · rw [(rotate_coord_apply M ux uy 0 0 jj).2]
    simp [M]

open Sspropvc in
/-- C15: the change of basis is unitary: for every `chi`, `psi` and every
samples, the outputs of `rotate_coord` satisfy
`|ua|² + |ub|² = |ux|² + |uy|²`, and the outputs of `inv_rotate_coord` satisfy
`|u1x|² + |u1y|² = |u1a|² + |u1b|²`. -/
theorem rotation_unitary {nt : ℕ} (chi psi : ℝ) (ux uy : mxArray ℝ nt) (u1a u1b : CVec ℝ nt)
    (jj : Fin nt) :
    let M : Libm ℝ := ⟨Real.cos, Real.sin, Real.exp, Real.sqrt, Real.pi⟩
    Complex.normSq (toC ((rotate_coord M ux uy chi psi).1 jj)) +
        Complex.normSq (toC ((rotate_coord M ux uy chi psi).2 jj))
      = Complex.normSq (toC (ux.pr jj, ux.im jj)) + Complex.normSq (toC (uy.pr jj, uy.im jj)) ∧
    Complex.normSq (toC ((inv_rotate_coord M u1a u1b chi psi).1.pr jj,
          (inv_rotate_coord M u1a u1b chi psi).1.im jj)) +
        Complex.normSq (toC ((inv_rotate_coord M u1a u1b chi psi).2.pr jj,
          (inv_rotate_coord M u1a u1b chi psi).2.im jj))
      = Complex.normSq (toC (u1a jj)) + Complex.normSq (toC (u1b jj)) := by
  intro M
  have hp := Real.cos_sq_add_sin_sq psi
  have hc := Real.cos_sq_add_sin_sq chi
  have h : (Real.cos psi * Real.cos chi) ^ 2 + (Real.sin psi * Real.sin chi) ^ 2 +
      (Real.sin psi * Real.cos chi) ^ 2 + (Real.cos psi * Real.sin chi) ^ 2 = 1 := by
    linear_combination (Real.cos chi ^ 2 + Real.sin chi ^ 2) * hp + hc
  constructor
  · rw [(rotate_coord_apply M ux uy chi psi jj).1, (rotate_coord_apply M ux uy chi psi jj).2]
    simp only [normSq_toC, abs2, M]
    linear_combination (ux.pr jj * ux.pr jj + ux.im jj * ux.im jj + uy.pr jj * uy.pr jj +
      uy.im jj * uy.im jj) * h
  · simp only [normSq_toC, abs2, M, inv_rotate_coord, mxArray.im]
    linear_combination ((u1a jj).1 * (u1a jj).1 + (u1a jj).2 * (u1a jj).2 +
      (u1b jj).1 * (u1b jj).1 + (u1b jj).2 * (u1b jj).2) * h

/-! ### The scalar propagator that changes nothing -/

open Sspropc in
/-- C11: for the scalar propagator on `nt ≥ 1` samples with every `alpha` entry
zero, every `beta` coefficient zero (in particular `beta = [0]`) and
`gamma = 0`, assuming only that the provider's unnormalized inverse undoes its
forward transform up to the factor `nt`: for every input field, every `nz` and
every `maxiter` the call returns the input unchanged (real parts, and imaginary
parts taken as zero for a real input). This holds with zero Raman and
optical-cycle times, and with any such times when `nt ≥ 2`. -/
theorem zero_medium_identity {nt : ℕ} (hnt : 0 < nt) (P : Fftw ℝ nt)
    (hinv : P.BackwardForward) (u : mxArray ℝ nt) (dt dz traman toptical tol : ℝ)
    (nz maxiter : ℤ) (hcase : (traman = 0 ∧ toptical = 0) ∨ 2 ≤ nt) (alphap beta : List ℝ)
    (hlen : alphap.length = 1 ∨ alphap.length = nt)
    (halpha : ∀ a ∈ alphap, a = 0) (hbeta : ∀ b ∈ beta, b = 0)
    (w0 : Fin nt → ℝ) (ws : Workspace ℝ nt) :
    ∃ warn,
      propagate ⟨Real.cos, Real.sin, Real.exp, Real.sqrt, Real.pi⟩ P u dt dz nz alphap beta
        0 traman toptical maxiter tol w0 ws = .ok (⟨u.pr, some u.im⟩, warn) := by
  let x : CVec ℝ nt := fun j => (u.pr j, u.im j)
  let J : ℕ → Workspace ℝ nt → Prop := fun _ v =>
    v.halfstep = (fun _ => ((1 : ℝ), (0 : ℝ))) ∧ v.u1 = x ∧ v.ufft = P.forward x
  have hstep : ∀ k v, J k v → ∃ r,
      zstep ⟨Real.cos, Real.sin, Real.exp, Real.sqrt, Real.pi⟩ P 0 dz traman toptical dt tol
        maxiter v = some r ∧ J (k + 1) r.1 := by
    intro k v hv
    exact zstep_identity hnt P hinv dz traman toptical dt tol maxiter hcase x v hv.1 hv.2.1 hv.2.2
  have hinit : J 0
      { setup ⟨Real.cos, Real.sin, Real.exp, Real.sqrt, Real.pi⟩ u alphap beta hlen
          (wgrid ⟨Real.cos, Real.sin, Real.exp, Real.sqrt, Real.pi⟩ nt dt) dz ws with
        ufft := P.forward (setup ⟨Real.cos, Real.sin, Real.exp, Real.sqrt, Real.pi⟩ u alphap beta
          hlen (wgrid ⟨Real.cos, Real.sin, Real.exp, Real.sqrt, Real.pi⟩ nt dt) dz ws).u0 } := by
    refine ⟨?_, rfl, rfl⟩
    funext j
    simp [setup, alphaAt_zero alphap hlen j halpha, coefAt_zero beta _ j hbeta]
  obtain ⟨r, hr, -, hr1, -⟩ := zloop_inv _ J hstep nz.toNat 0 _ hinit
  refine ⟨r.2, ?_⟩
  unfold propagate
  rw [dif_pos hlen]
  simp only [wspace_eq hnt, hr, hr1]

/-- C11 at the worked input: `nt = 8`, `dt = dz = 1`, `nz = 1`, a unit impulse at
index 0, `alpha = [0]`, `beta = [0]`, `gamma = 0`, with the discrete Fourier
transform computed from its definition as provider. -/
theorem zero_medium_identity_witness :
    (dft ⟨Real.cos, Real.sin, Real.exp, Real.sqrt, Real.pi⟩ 8 : Fftw ℝ 8).BackwardForward ∧
    (∃ warn,
      Sspropc.propagate ⟨Real.cos, Real.sin, Real.exp, Real.sqrt, Real.pi⟩
        (dft ⟨Real.cos, Real.sin, Real.exp, Real.sqrt, Real.pi⟩ 8)
        ⟨![1, 0, 0, 0, 0, 0, 0, 0], none⟩ 1 1 1 [0] [0] 0 0 0 4 (1 / 100000) (fun _ => 0)
        ⟨fun _ => 0, fun _ => 0, fun _ => 0, fun _ => 0, fun _ => 0, fun _ => 0⟩
        = .ok (⟨![1, 0, 0, 0, 0, 0, 0, 0],
            some (⟨![1, 0, 0, 0, 0, 0, 0, 0], none⟩ : mxArray ℝ 8).im⟩, warn)) :=
  ⟨dft_backwardForward 8 (by decide),
    zero_medium_identity (by decide) _ (dft_backwardForward 8 (by decide))
      ⟨![1, 0, 0, 0, 0, 0, 0, 0], none⟩ 1 1 0 0 (1 / 100000) 1 4 (Or.inl ⟨rfl, rfl⟩)
      [0] [0] (Or.inl rfl) (by simp) (by simp) (fun _ => 0)
      ⟨fun _ => 0, fun _ => 0, fun _ => 0, fun _ => 0, fun _ => 0, fun _ => 0⟩⟩

/-! ### The convergence diagnostic of the vector propagator -/

open Sspropvc in
/-- C16 at an input where the code departs from it: one sample `u0x = [1]`,
`u0y = [0]`, `dt = dz = 1`, `nz = 1`, all four coefficient lists `[0]`,
`gamma = 0`, `psi = chi = 0`, elliptical method, `maxiter = 1`,
`tol = 1e-5`. The single iteration of the single step, entered with the
workspace the step has built, returns `converged = true`, and yet the run
reports the warning for that step. With `maxiter = 1` every step reports it,
whatever `is_converged` returned. -/
theorem warning_despite_convergence :
    (∃ out,
      propagate ⟨Real.cos, Real.sin, Real.exp, Real.sqrt, Real.pi⟩
        (dft ⟨Real.cos, Real.sin, Real.exp, Real.sqrt, Real.pi⟩ 1)
        ⟨![1], none⟩ ⟨![0], none⟩ 1 1 1 [0] [0] [0] [0] 0 0 0 true 1 (1 / 100000)
        (fun _ => 0)
        ⟨fun _ => 0, fun _ => 0, fun _ => 0, fun _ => 0, fun _ => 0, fun _ => 0,
          fun _ => 0, fun _ => 0, fun _ => 0, fun _ => 0⟩
        = .ok (out, [true])) ∧
    (iterate ⟨Real.cos, Real.sin, Real.exp, Real.sqrt, Real.pi⟩
        (dft ⟨Real.cos, Real.sin, Real.exp, Real.sqrt, Real.pi⟩ 1)
        (prop_linear_ellipt (fun _ => (1, 0)) (fun _ => (1, 0))) 0 0 1 (1 / 100000)
        (⟨fun _ => (1, 0), fun _ => (0, 0), fun _ => (1, 0), fun _ => (0, 0),
          fun _ => (1, 0), fun _ => (0, 0), fun _ => 0, fun _ => 0,
          fun _ => (1, 0), fun _ => (0, 0)⟩ : Workspace ℝ 1)).2 = true ∧
    (∀ (P : Fftw ℝ 1) (lin : CVec ℝ 1 → CVec ℝ 1 → CVec ℝ 1 × CVec ℝ 1)
        (chi gamma dz tol : ℝ) (ws : Workspace ℝ 1),
      (zstep ⟨Real.cos, Real.sin, Real.exp, Real.sqrt, Real.pi⟩ P lin chi gamma dz tol 1
        ws).2 = true) := by
  refine ⟨?_, ?_, ?_⟩
  · simp only [propagate, compute_w_eq (by decide : 0 < 1)]
    simp [elliptical_method, method_branch, zloop, zstep, doWhile]
  · simp [iterate, nonlinear_propagate, prop_linear_ellipt, dft_one_forward,
      dft_one_backward, is_converged, is_converged_sums, quotLt, abs2, cscale,
      List.finRange]
  · intro P lin chi gamma dz tol ws
    exact zstep_maxiter_one_warns _ P lin chi gamma dz tol ws

/-! ### Validation of the arguments -/

open Sspropc in
/-- C17: among calls of the scalar propagator with at least 7 inputs and at most
1 output, the call fails with an error message if and only if the length of
`alpha` is neither 1 nor `nt`, and the message is then
`Invalid vector length (alpha).`. For a length that passes, the half-step factor
at frequency `jj` is built from the value `alphaAt` selects: the single entry for
every `jj` when the length is 1, the entry `jj` when the length is `nt`. -/
theorem alpha_length_validation {nt : ℕ} (M : Libm ℝ) (P : Fftw ℝ nt) (g : Globals)
    (c : Call ℝ nt) (w0 : Fin nt → ℝ) (ws : Workspace ℝ nt)
    (hin : 7 ≤ c.nrhs) (hout : c.nlhs ≤ 1) :
    ((∃ msg, (mexFunction M P g c w0 ws).2 = .error (.errMsg msg)) ↔
      (c.alphap.length ≠ 1 ∧ c.alphap.length ≠ nt)) ∧
    ((c.alphap.length ≠ 1 ∧ c.alphap.length ≠ nt) →
      (mexFunction M P g c w0 ws).2 = .error (.errMsg "Invalid vector length (alpha).")) ∧
    (∀ (h : c.alphap.length = 1 ∨ c.alphap.length = nt) (w : Fin nt → ℝ) (jj : Fin nt),
      (setup M c.u0 c.alphap c.beta h w c.dz ws).halfstep jj =
        (M.exp (-(alphaAt c.alphap h jj) * c.dz / 4) * M.cos (coefAt c.beta w jj * c.dz / 2),
         -M.exp (-(alphaAt c.alphap h jj) * c.dz / 4) *
            M.sin (coefAt c.beta w jj * c.dz / 2))) ∧
    (∀ (h1 : c.alphap.length = 1) (h : c.alphap.length = 1 ∨ c.alphap.length = nt)
        (jj : Fin nt), alphaAt c.alphap h jj = c.alphap.get ⟨0, by omega⟩) ∧
    (∀ (hn : c.alphap.length = nt) (h : c.alphap.length = 1 ∨ c.alphap.length = nt)
        (jj : Fin nt), alphaAt c.alphap h jj = c.alphap.get (Fin.cast hn.symm jj)) := by
  obtain ⟨traman, toptical, tol, maxiter, herr, hok⟩ :=
    scalar_mexFunction_main M P g c w0 ws hin hout
  have hbad : (c.alphap.length ≠ 1 ∧ c.alphap.length ≠ nt) →
      (mexFunction M P g c w0 ws).2 = .error (.errMsg "Invalid vector length (alpha).") := by
    intro hl
    have hp := (scalar_propagate_errMsg M P c.u0 c.dt c.dz (SSProp.round c.nz) c.alphap c.beta
      c.gamma traman toptical maxiter tol w0 ws "Invalid vector length (alpha).").mpr
      ⟨by rintro (h | h); exact hl.1 h; exact hl.2 h, rfl⟩
    rw [herr _ hp]
  refine ⟨⟨?_, fun hl => ⟨_, hbad hl⟩⟩, hbad, fun h w jj => rfl, ?_, ?_⟩
  · rintro ⟨msg, hmsg⟩
    cases hp : propagate M P c.u0 c.dt c.dz (SSProp.round c.nz) c.alphap c.beta c.gamma
        traman toptical maxiter tol w0 ws with
    | error e =>
        rw [herr e hp] at hmsg
        simp only [Except.error.injEq] at hmsg
        rw [hmsg] at hp
        have hl := ((scalar_propagate_errMsg M P c.u0 c.dt c.dz (SSProp.round c.nz) c.alphap
          c.beta c.gamma traman toptical maxiter tol w0 ws msg).mp hp).1
        exact ⟨fun h => hl (Or.inl h), fun h => hl (Or.inr h)⟩
    | ok r =>
        rw [hok r hp] at hmsg
        simp at hmsg
  · intro h1 h jj
    unfold alphaAt
    split_ifs with hn
    · congr 1
      apply Fin.ext
      have := jj.isLt
      simp only [Fin.coe_cast]
      omega
    · rfl
  · intro hn h jj
    unfold alphaAt
    rw [dif_pos hn]

/-- C17 at a concrete call: two samples, seven inputs, one output, and an `alpha`
of length 3. -/
theorem alpha_length_validation_witness :
    let c : Sspropc.Call ℝ 2 :=
      ⟨1, 7, none, ⟨![1, 2], none⟩, 1, 1, 1, [1, 2, 3], [0], 0, none, none, none, none⟩
    (7 ≤ c.nrhs ∧ c.nlhs ≤ 1) ∧
    (c.alphap.length ≠ 1 ∧ c.alphap.length ≠ 2) ∧
    (Sspropc.mexFunction ⟨Real.cos, Real.sin, Real.exp, Real.sqrt, Real.pi⟩ dft2
      ⟨0, true, false, .patient⟩ c (fun _ => 0)
      ⟨fun _ => 0, fun _ => 0, fun _ => 0, fun _ => 0, fun _ => 0, fun _ => 0⟩).2
        = .error (.errMsg "Invalid vector length (alpha).") :=
  ⟨⟨by decide, by decide⟩, ⟨by decide, by decide⟩,
    (alpha_length_validation ⟨Real.cos, Real.sin, Real.exp, Real.sqrt, Real.pi⟩ dft2
      ⟨0, true, false, .patient⟩
      ⟨1, 7, none, ⟨![1, 2], none⟩, 1, 1, 1, [1, 2, 3], [0], 0, none, none, none, none⟩
      (fun _ => 0)
      ⟨fun _ => 0, fun _ => 0, fun _ => 0, fun _ => 0, fun _ => 0, fun _ => 0⟩
      (by decide) (by decide)).2.1 ⟨by decide, by decide⟩⟩

/-- C18 fails on the code: a scalar call and a vector call on two samples with
`nz = -3` and otherwise valid arguments both succeed, and return the input
field. -/
theorem negative_nz_accepted :
    (Sspropc.mexFunction ⟨Real.cos, Real.sin, Real.exp, Real.sqrt, Real.pi⟩ dft2
        ⟨0, true, false, .patient⟩
        ⟨1, 7, none, ⟨![1, 2], none⟩, 1, 1, -3, [0], [0], 1, none, none, none, none⟩
        (fun _ => 0)
        ⟨fun _ => 0, fun _ => 0, fun _ => 0, fun _ => 0, fun _ => 0, fun _ => 0⟩).2
      = .ok (some ⟨![1, 2], some (⟨![1, 2], none⟩ : mxArray ℝ 2).im⟩, []) ∧
    (Sspropvc.mexFunction ⟨Real.cos, Real.sin, Real.exp, Real.sqrt, Real.pi⟩ dft2
        .absent ⟨true, false, .patient⟩
        ⟨2, 10, none, ⟨![1, 2], none⟩, ⟨![3, 4], none⟩, 1, 1, -3, [0], [0], [0], [0], 1, 0,
          none, none, 4, 1 / 100000⟩
        (fun _ => 0)
        ⟨fun _ => 0, fun _ => 0, fun _ => 0, fun _ => 0, fun _ => 0, fun _ => 0,
          fun _ => 0, fun _ => 0, fun _ => 0, fun _ => 0⟩).2
      = .ok (some (⟨![1, 2], some (⟨![1, 2], none⟩ : mxArray ℝ 2).im⟩,
          ⟨![3, 4], some (⟨![3, 4], none⟩ : mxArray ℝ 2).im⟩), []) :=
  ⟨scalar_call_negative_nz (by decide) dft2 _ _ _ _ (by decide) (by decide) (Or.inl rfl)
      (by norm_num),
    vector_call_negative_nz (by decide) dft2 _ _ _ _ _ (by decide) (by decide) (by simp)
      (Or.inl (by decide)) (by norm_num)⟩

/-- C18, amended: neither propagator checks the sign of `nz`. On `nt ≥ 1`
samples, a scalar call with at least 7 inputs, at most 1 output, an `alpha` of
length 1 or `nt` and a negative `nz` raises no error, takes no step and returns
the input field with no warning; so does a vector call with at least 10 inputs,
at most 2 outputs, a wisdom file that does not stop a first call, a method
argument that is absent, `circular` or `elliptical`, and a negative `nz`. -/
theorem negative_nz_takes_no_step {nt : ℕ} (hnt : 0 < nt) (P : Fftw ℝ nt)
    (gs : Sspropc.Globals) (cs : Sspropc.Call ℝ nt) (w0 : Fin nt → ℝ)
    (wss : Sspropc.Workspace ℝ nt) (f : WisdomFile) (gv : Sspropvc.Globals)
    (cv : Sspropvc.Call ℝ nt) (wsv : Sspropvc.Workspace ℝ nt) :
    (7 ≤ cs.nrhs → cs.nlhs ≤ 1 → (cs.alphap.length = 1 ∨ cs.alphap.length = nt) →
      cs.nz < 0 →
      (Sspropc.mexFunction ⟨Real.cos, Real.sin, Real.exp, Real.sqrt, Real.pi⟩ P gs cs w0
        wss).2 = .ok (some ⟨cs.u0.pr, some cs.u0.im⟩, [])) ∧
    (10 ≤ cv.nrhs → cv.nlhs ≤ 2 → (gv.firstcall = true → f ≠ .unreadable) →
      (cv.nrhs ≤ 11 ∨ cv.methodstr = some "circular" ∨ cv.methodstr = some "elliptical") →
      cv.nz < 0 →
      (Sspropvc.mexFunction ⟨Real.cos, Real.sin, Real.exp, Real.sqrt, Real.pi⟩ P f gv cv w0
        wsv).2
        = .ok (some (⟨cv.u0x.pr, some cv.u0x.im⟩, ⟨cv.u0y.pr, some cv.u0y.im⟩), [])) :=
  ⟨fun hin hout hlen hnz => scalar_call_negative_nz hnt P gs cs w0 wss hin hout hlen hnz,
    fun hin hout hw hm hnz => vector_call_negative_nz hnt P f gv cv w0 wsv hin hout hw hm hnz⟩

/-- C18 amended, at concrete calls: four samples, `nz = -1`, a circular-method
vector call on a later call of the process. -/
theorem negative_nz_takes_no_step_witness :
    0 < 4 ∧
    (Sspropc.mexFunction ⟨Real.cos, Real.sin, Real.exp, Real.sqrt, Real.pi⟩
        (dft ⟨Real.cos, Real.sin, Real.exp, Real.sqrt, Real.pi⟩ 4)
        ⟨0, false, false, .estimate⟩
        ⟨1, 8, none, ⟨![1, 2, 3, 4], none⟩, 1, 1, -1, [0, 0, 0, 0], [0, 1], 1, some 1, none,
          none, none⟩
        (fun _ => 0)
        ⟨fun _ => 0, fun _ => 0, fun _ => 0, fun _ => 0, fun _ => 0, fun _ => 0⟩).2
      = .ok (some ⟨![1, 2, 3, 4], some (⟨![1, 2, 3, 4], none⟩ : mxArray ℝ 4).im⟩, []) ∧
    (Sspropvc.mexFunction ⟨Real.cos, Real.sin, Real.exp, Real.sqrt, Real.pi⟩
        (dft ⟨Real.cos, Real.sin, Real.exp, Real.sqrt, Real.pi⟩ 4)
        .unreadable ⟨false, false, .estimate⟩
        ⟨2, 12, none, ⟨![1, 2, 3, 4], none⟩, ⟨![5, 6, 7, 8], none⟩, 1, 1, -1, [0], [0], [0],
          [0], 1, 0, none, some "circular", 4, 1 / 100000⟩
        (fun _ => 0)
        ⟨fun _ => 0, fun _ => 0, fun _ => 0, fun _ => 0, fun _ => 0, fun _ => 0,
          fun _ => 0, fun _ => 0, fun _ => 0, fun _ => 0⟩).2
      = .ok (some (⟨![1, 2, 3, 4], some (⟨![1, 2, 3, 4], none⟩ : mxArray ℝ 4).im⟩,
          ⟨![5, 6, 7, 8], some (⟨![5, 6, 7, 8], none⟩ : mxArray ℝ 4).im⟩), []) :=
  ⟨by decide,
    (negative_nz_takes_no_step (by decide) _ _ _ _ _ .unreadable ⟨false, false, .estimate⟩
      ⟨2, 12, none, ⟨![1, 2, 3, 4], none⟩, ⟨![5, 6, 7, 8], none⟩, 1, 1, -1, [0], [0], [0],
        [0], 1, 0, none, some "circular", 4, 1 / 100000⟩
      ⟨fun _ => 0, fun _ => 0, fun _ => 0, fun _ => 0, fun _ => 0, fun _ => 0,
        fun _ => 0, fun _ => 0, fun _ => 0, fun _ => 0⟩).1
      (by decide) (by decide) (Or.inr rfl) (by norm_num),
    (negative_nz_takes_no_step (by decide) _ ⟨0, false, false, .estimate⟩
      ⟨1, 8, none, ⟨![1, 2, 3, 4], none⟩, 1, 1, -1, [0, 0, 0, 0], [0, 1], 1, some 1, none,
        none, none⟩ _ ⟨fun _ => 0, fun _ => 0, fun _ => 0, fun _ => 0, fun _ => 0, fun _ => 0⟩
      _ _ _ _).2
      (by decide) (by decide) (by simp) (Or.inr (Or.inl rfl)) (by norm_num)⟩

/-- C20 fails on the scalar propagator. A scalar call on two samples with seven
inputs, one output and an `alpha` of length 3, made with `nt = 0` and
`allocated` clear, fails with the message `Invalid vector length (alpha).` and
leaves `nt = 2` and `allocated` set: the length check comes after
`sspropc_initialize_data`. So does every scalar call with at least 7 inputs and
at most 1 output whose `alpha` has a length other than 1 and `nt`: it leaves the
variables as `sspropc_initialize_data` set them, with `allocated` set. Every
other failed scalar call leaves the process-wide variables as they were, and so
does every failed call of the vector propagator, which validates before it
allocates, `allocated` and the planner method included, except that the message
of its method selection comes after a first call has cleared `firstcall`. -/
theorem alpha_error_after_allocation :
    (Sspropc.mexFunction ⟨Real.cos, Real.sin, Real.exp, Real.sqrt, Real.pi⟩ dft2
        ⟨0, false, false, .patient⟩
        ⟨1, 7, none, ⟨![1, 2], none⟩, 1, 1, 1, [1, 2, 3], [0], 0, none, none, none, none⟩
        (fun _ => 0)
        ⟨fun _ => 0, fun _ => 0, fun _ => 0, fun _ => 0, fun _ => 0, fun _ => 0⟩
      = (⟨2, false, true, .patient⟩, .error (.errMsg "Invalid vector length (alpha)."))) ∧
    (∀ (nt : ℕ) (M : Libm ℝ) (P : Fftw ℝ nt) (gs : Sspropc.Globals) (cs : Sspropc.Call ℝ nt)
        (w0 : Fin nt → ℝ) (wss : Sspropc.Workspace ℝ nt),
      7 ≤ cs.nrhs → cs.nlhs ≤ 1 → ¬(cs.alphap.length = 1 ∨ cs.alphap.length = nt) →
      Sspropc.mexFunction M P gs cs w0 wss
          = (Sspropc.sspropc_initialize_data gs (nt : ℤ),
              .error (.errMsg "Invalid vector length (alpha).")) ∧
        (Sspropc.mexFunction M P gs cs w0 wss).1.allocated = true ∧
        (Sspropc.mexFunction M P gs cs w0 wss).1.nt = (nt : ℤ)) ∧
    (∀ (nt : ℕ) (M : Libm ℝ) (P : Fftw ℝ nt) (gs : Sspropc.Globals) (cs : Sspropc.Call ℝ nt)
        (w0 : Fin nt → ℝ) (wss : Sspropc.Workspace ℝ nt) (msg : String),
      (Sspropc.mexFunction M P gs cs w0 wss).2 = .error (.errMsg msg) →
      msg ≠ "Invalid vector length (alpha)." →
      (Sspropc.mexFunction M P gs cs w0 wss).1 = gs) ∧
    (∀ (nt : ℕ) (M : Libm ℝ) (P : Fftw ℝ nt) (f : WisdomFile) (gv : Sspropvc.Globals)
        (cv : Sspropvc.Call ℝ nt) (w0 : Fin nt → ℝ) (wsv : Sspropvc.Workspace ℝ nt)
        (msg : String),
      (Sspropvc.mexFunction M P f gv cv w0 wsv).2 = .error (.errMsg msg) →
      (Sspropvc.mexFunction M P f gv cv w0 wsv).1.allocated = gv.allocated ∧
      (Sspropvc.mexFunction M P f gv cv w0 wsv).1.method = gv.method ∧
      ((Sspropvc.mexFunction M P f gv cv w0 wsv).1 = gv ∨
        ((Sspropvc.mexFunction M P f gv cv w0 wsv).1 = { gv with firstcall := false } ∧
          msg = "incorrect method: elliptical or ciruclar only"))) ∧
    (Sspropvc.mexFunction ⟨Real.cos, Real.sin, Real.exp, Real.sqrt, Real.pi⟩ dft2
        .absent ⟨false, false, .patient⟩
        ⟨2, 12, none, ⟨![1, 2], none⟩, ⟨![3, 4], none⟩, 1, 1, 1, [0], [0], [0], [0], 1, 0,
          none, some "linear", 4, 1 / 100000⟩
        (fun _ => 0)
        ⟨fun _ => 0, fun _ => 0, fun _ => 0, fun _ => 0, fun _ => 0, fun _ => 0,
          fun _ => 0, fun _ => 0, fun _ => 0, fun _ => 0⟩
      = (⟨false, false, .patient⟩,
          .error (.errMsg "incorrect method: elliptical or ciruclar only"))) := by
  have hgen : ∀ (nt : ℕ) (M : Libm ℝ) (P : Fftw ℝ nt) (gs : Sspropc.Globals)
      (cs : Sspropc.Call ℝ nt) (w0 : Fin nt → ℝ) (wss : Sspropc.Workspace ℝ nt),
      7 ≤ cs.nrhs → cs.nlhs ≤ 1 → ¬(cs.alphap.length = 1 ∨ cs.alphap.length = nt) →
      Sspropc.mexFunction M P gs cs w0 wss
          = (Sspropc.sspropc_initialize_data gs (nt : ℤ),
              .error (.errMsg "Invalid vector length (alpha).")) := by
    intro nt M P gs cs w0 wss hin hout hlen
    obtain ⟨traman, toptical, tol, maxiter, herr, -⟩ :=
      scalar_mexFunction_main M P gs cs w0 wss hin hout
    exact herr _ ((scalar_propagate_errMsg _ _ _ _ _ _ _ _ _ _ _ _ _ _ _ _).mpr ⟨hlen, rfl⟩)
  refine ⟨?_, ?_, ?_, ?_, ?_⟩
  · rw [hgen 2 _ dft2 _ _ _ _ (by decide) (by decide) (by decide)]
    rfl
  · intro nt M P gs cs w0 wss hin hout hlen
    have h := hgen nt M P gs cs w0 wss hin hout hlen
    refine ⟨h, ?_, ?_⟩
    · rw [h]
      rfl
    · rw [h]
      rfl
  · intro nt M P gs cs w0 wss msg herr hmsg
    exact scalar_error_state M P gs cs w0 wss msg herr hmsg
  · intro nt M P f gv cv w0 wsv msg herr
    have h := vector_error_state M P f gv cv w0 wsv msg herr
    refine ⟨?_, ?_, h⟩
    · rcases h with h | ⟨h, -⟩ <;> rw [h]
    · rcases h with h | ⟨h, -⟩ <;> rw [h]
  · exact (vector_mexFunction_main _ dft2 .absent ⟨false, false, .patient⟩ _ _ _ (by decide)
      (by decide) (by simp)).1 _ (by rw [method_flag_spec]; rfl)

/-! ### A run of zero steps -/

/-- C21: with `nz = 0` on `nt ≥ 1` samples the field never leaves its initial
state. The scalar propagator, for an `alpha` of length 1 or `nt`, returns its
input (imaginary part zero for a real input) with no warning; the vector
propagator, with the elliptical method for every `chi`, `psi` and with the
circular method, returns `(u0x, u0y)` with no warning; for every input, provider
and every other parameter. -/
theorem zero_steps_identity {nt : ℕ} (hnt : 0 < nt) (P : Fftw ℝ nt) (u u0x u0y : mxArray ℝ nt)
    (dt dz gamma traman toptical tol psi chi : ℝ) (maxiter : ℤ)
    (alphap beta alphaa alphab betaa betab : List ℝ)
    (hlen : alphap.length = 1 ∨ alphap.length = nt) (w0 : Fin nt → ℝ)
    (wss : Sspropc.Workspace ℝ nt) (wsv : Sspropvc.Workspace ℝ nt) :
    let M : Libm ℝ := ⟨Real.cos, Real.sin, Real.exp, Real.sqrt, Real.pi⟩
    Sspropc.propagate M P u dt dz 0 alphap beta gamma traman toptical maxiter tol w0 wss
      = .ok (⟨u.pr, some u.im⟩, []) ∧
    ∀ elliptical : Bool,
      Sspropvc.propagate M P u0x u0y dt dz 0 alphaa alphab betaa betab gamma psi chi elliptical
        maxiter tol w0 wsv
        = .ok ((⟨u0x.pr, some u0x.im⟩, ⟨u0y.pr, some u0y.im⟩), []) := by
  intro M
  exact ⟨scalar_zero_steps hnt P u dt dz 0 rfl alphap beta hlen gamma traman toptical maxiter
      tol w0 wss,
    fun elliptical => vector_zero_steps hnt P u0x u0y dt dz 0 rfl alphaa alphab betaa betab
      gamma psi chi elliptical maxiter tol w0 wsv⟩

/-- C21 at a concrete input: two samples, a complex and a real channel,
nonzero loss, dispersion and nonlinearity, circular method. -/
theorem zero_steps_identity_witness :
    0 < 2 ∧ ([1] : List ℝ).length = 1 ∧
    (let M : Libm ℝ := ⟨Real.cos, Real.sin, Real.exp, Real.sqrt, Real.pi⟩
     Sspropc.propagate M dft2 ⟨![1, 2], some ![3, 4]⟩ 1 1 0 [1] [0, 0, 1] 1 0 0 4 (1 / 100000)
        (fun _ => 0) ⟨fun _ => 0, fun _ => 0, fun _ => 0, fun _ => 0, fun _ => 0, fun _ => 0⟩
       = .ok (⟨![1, 2], some (⟨![1, 2], some ![3, 4]⟩ : mxArray ℝ 2).im⟩, []) ∧
     Sspropvc.propagate M dft2 ⟨![1, 2], some ![3, 4]⟩ ⟨![5, 6], none⟩ 1 1 0 [1] [2] [0, 0, 1]
        [0, 1] 1 (1 / 2) (1 / 3) false 4 (1 / 100000) (fun _ => 0)
        ⟨fun _ => 0, fun _ => 0, fun _ => 0, fun _ => 0, fun _ => 0, fun _ => 0,
          fun _ => 0, fun _ => 0, fun _ => 0, fun _ => 0⟩
       = .ok ((⟨![1, 2], some (⟨![1, 2], some ![3, 4]⟩ : mxArray ℝ 2).im⟩,
          ⟨![5, 6], some (⟨![5, 6], none⟩ : mxArray ℝ 2).im⟩), [])) :=
  ⟨by decide, rfl,
    (zero_steps_identity (by decide) dft2 ⟨![1, 2], some ![3, 4]⟩ ⟨![1, 2], some ![3, 4]⟩
      ⟨![5, 6], none⟩ 1 1 1 0 0 (1 / 100000) (1 / 2) (1 / 3) 4 [1] [0, 0, 1] [1] [2] [0, 0, 1]
      [0, 1] (Or.inl rfl) (fun _ => 0)
      ⟨fun _ => 0, fun _ => 0, fun _ => 0, fun _ => 0, fun _ => 0, fun _ => 0⟩
      ⟨fun _ => 0, fun _ => 0, fun _ => 0, fun _ => 0, fun _ => 0, fun _ => 0,
        fun _ => 0, fun _ => 0, fun _ => 0, fun _ => 0⟩).1,
    (zero_steps_identity (by decide) dft2 ⟨![1, 2], some ![3, 4]⟩ ⟨![1, 2], some ![3, 4]⟩
      ⟨![5, 6], none⟩ 1 1 1 0 0 (1 / 100000) (1 / 2) (1 / 3) 4 [1] [0, 0, 1] [1] [2] [0, 0, 1]
      [0, 1] (Or.inl rfl) (fun _ => 0)
      ⟨fun _ => 0, fun _ => 0, fun _ => 0, fun _ => 0, fun _ => 0, fun _ => 0⟩
      ⟨fun _ => 0, fun _ => 0, fun _ => 0, fun _ => 0, fun _ => 0, fun _ => 0,
        fun _ => 0, fun _ => 0, fun _ => 0, fun _ => 0⟩).2 false⟩

/-! ### The convergence test of the vector propagator as documented -/

open Sspropvc in
/-- C22: for every `tol` and every input whose previous estimate `(u1a, u1b)` is
not identically zero, `is_converged` returns true exactly when
`sqrt(‖uva/nt - u1a‖² + ‖uvb/nt - u1b‖²) / sqrt(‖u1a‖² + ‖u1b‖²) < tol`, the
norms being the Euclidean 2-norms of the `nt` complex samples. -/
theorem is_converged_documented {nt : ℕ} (uva u1a uvb u1b : CVec ℝ nt) (tol : ℝ)
    (h1 : (∃ j, u1a j ≠ 0) ∨ (∃ j, u1b j ≠ 0)) :
    is_converged ⟨Real.cos, Real.sin, Real.exp, Real.sqrt, Real.pi⟩ uva u1a uvb u1b tol = true ↔
      Real.sqrt
          (‖(WithLp.equiv 2 (Fin nt → ℂ)).symm
              (fun j => toC (uva j) / (nt : ℂ) - toC (u1a j))‖ ^ 2 +
            ‖(WithLp.equiv 2 (Fin nt → ℂ)).symm
              (fun j => toC (uvb j) / (nt : ℂ) - toC (u1b j))‖ ^ 2) /
        Real.sqrt
          (‖(WithLp.equiv 2 (Fin nt → ℂ)).symm (fun j => toC (u1a j))‖ ^ 2 +
            ‖(WithLp.equiv 2 (Fin nt → ℂ)).symm (fun j => toC (u1b j))‖ ^ 2)
        < tol := by
  rw [is_converged_iff_sqrt uva u1a uvb u1b tol h1]
  simp only [euclid_norm_sq]

open Sspropvc in
/-- C22 at a concrete input: `nt = 2`, `uva = [(2,0), (4,0)]`,
`u1a = [(1,0), (1,0)]`, `uvb = u1b = [(0,0), (0,1)]`, `tol = 1/2`. -/
theorem is_converged_documented_witness :
    ((∃ j, (fun _ => (1, 0) : CVec ℝ 2) j ≠ 0) ∨ (∃ j, (![(0, 0), (0, 1)] : CVec ℝ 2) j ≠ 0)) ∧
    (is_converged ⟨Real.cos, Real.sin, Real.exp, Real.sqrt, Real.pi⟩
        (![(2, 0), (4, 0)] : CVec ℝ 2) (fun _ => (1, 0)) ![(0, 0), (0, 1)] ![(0, 0), (0, 1)]
        (1 / 2) = true ↔
      Real.sqrt
          (‖(WithLp.equiv 2 (Fin 2 → ℂ)).symm
              (fun j => toC ((![(2, 0), (4, 0)] : CVec ℝ 2) j) / ((2 : ℕ) : ℂ) -
                toC ((fun _ => (1, 0) : CVec ℝ 2) j))‖ ^ 2 +
            ‖(WithLp.equiv 2 (Fin 2 → ℂ)).symm
              (fun j => toC ((![(0, 0), (0, 1)] : CVec ℝ 2) j) / ((2 : ℕ) : ℂ) -
                toC ((![(0, 0), (0, 1)] : CVec ℝ 2) j))‖ ^ 2) /
        Real.sqrt
          (‖(WithLp.equiv 2 (Fin 2 → ℂ)).symm
              (fun j => toC ((fun _ => (1, 0) : CVec ℝ 2) j))‖ ^ 2 +
            ‖(WithLp.equiv 2 (Fin 2 → ℂ)).symm
              (fun j => toC ((![(0, 0), (0, 1)] : CVec ℝ 2) j))‖ ^ 2)
        < 1 / 2) :=
  ⟨Or.inl ⟨0, by simp⟩,
    is_converged_documented ![(2, 0), (4, 0)] (fun _ => (1, 0)) ![(0, 0), (0, 1)]
      ![(0, 0), (0, 1)] (1 / 2) (Or.inl ⟨0, by simp⟩)⟩

/-! ### The matrix of the circular method -/

open Sspropvc in
/-- C25: for every `chi`, `psi` and every complex `ha[k]`, `hb[k]`, `compute_H`
stores `h11 = ((1+sin 2χ)·ha + (1-sin 2χ)·hb)/2`,
`h12 = -i·exp(+i·2ψ)·cos(2χ)·(ha-hb)/2`, `h21 = +i·exp(-i·2ψ)·cos(2χ)·(ha-hb)/2`
and `h22 = ((1-sin 2χ)·ha + (1+sin 2χ)·hb)/2` at every index `k`, and
`prop_linear_circ` computes the complex products `uZa = h11·u0a + h12·u0b`,
`uZb = h21·u0a + h22·u0b` at every index, for any four buffers it is given. -/
theorem compute_H_formula {nt : ℕ} (chi psi : ℝ) (ha hb u0a u0b : CVec ℝ nt)
    (H : HMatrix ℝ nt) (k : Fin nt) :
    let M : Libm ℝ := ⟨Real.cos, Real.sin, Real.exp, Real.sqrt, Real.pi⟩
    toC ((compute_H M ha hb chi psi).h11 k)
      = ((1 + (Real.sin (2 * chi) : ℂ)) * toC (ha k) +
          (1 - (Real.sin (2 * chi) : ℂ)) * toC (hb k)) / 2 ∧
    toC ((compute_H M ha hb chi psi).h12 k)
      = -Complex.I * Complex.exp (Complex.I * ((2 * psi : ℝ) : ℂ)) *
          (Real.cos (2 * chi) : ℂ) * (toC (ha k) - toC (hb k)) / 2 ∧
    toC ((compute_H M ha hb chi psi).h21 k)
      = Complex.I * Complex.exp (-(Complex.I * ((2 * psi : ℝ) : ℂ))) *
          (Real.cos (2 * chi) : ℂ) * (toC (ha k) - toC (hb k)) / 2 ∧
    toC ((compute_H M ha hb chi psi).h22 k)
      = ((1 - (Real.sin (2 * chi) : ℂ)) * toC (ha k) +
          (1 + (Real.sin (2 * chi) : ℂ)) * toC (hb k)) / 2 ∧
    toC ((prop_linear_circ H u0a u0b).1 k)
      = toC (H.h11 k) * toC (u0a k) + toC (H.h12 k) * toC (u0b k) ∧
    toC ((prop_linear_circ H u0a u0b).2 k)
      = toC (H.h21 k) * toC (u0a k) + toC (H.h22 k) * toC (u0b k) := by
  intro M
  have hmul : ∀ z : ℂ, z / 2 = (1 / 2 : ℝ) * z := by
    intro z
    push_cast
    ring
  refine ⟨?_, ?_, ?_, ?_, ?_, ?_⟩
  · rw [hmul]
    apply Complex.ext <;>
      simp only [toC, compute_H, M, Complex.add_re, Complex.add_im, Complex.mul_re,
        Complex.mul_im, Complex.sub_re, Complex.sub_im, Complex.ofReal_re, Complex.ofReal_im,
        Complex.one_re, Complex.one_im] <;> ring
  · rw [hmul, cexp_I_mul]
    apply Complex.ext <;>
      simp only [toC, compute_H, M, Complex.add_re, Complex.add_im, Complex.mul_re,
        Complex.mul_im, Complex.sub_re, Complex.sub_im, Complex.ofReal_re, Complex.ofReal_im,
        Complex.neg_re, Complex.neg_im, Complex.I_re, Complex.I_im] <;> ring
  · rw [hmul, cexp_neg_I_mul]
    apply Complex.ext <;>
      simp only [toC, compute_H, M, Complex.add_re, Complex.add_im, Complex.mul_re,
        Complex.mul_im, Complex.sub_re, Complex.sub_im, Complex.ofReal_re, Complex.ofReal_im,
        Complex.neg_re, Complex.neg_im, Complex.I_re, Complex.I_im] <;> ring
  · rw [hmul]
    apply Complex.ext <;>
      simp only [toC, compute_H, M, Complex.add_re, Complex.add_im, Complex.mul_re,
        Complex.mul_im, Complex.sub_re, Complex.sub_im, Complex.ofReal_re, Complex.ofReal_im,
        Complex.one_re, Complex.one_im] <;> ring
  · apply Complex.ext <;>
      simp only [toC, prop_linear_circ, Complex.add_re, Complex.add_im, Complex.mul_re,
        Complex.mul_im] <;> ring
  · apply Complex.ext <;>
      simp only [toC, prop_linear_circ, Complex.add_re, Complex.add_im, Complex.mul_re,
        Complex.mul_im] <;> ring

/-! ### The storage branches of the rotation -/

open Sspropvc in
/-- C26: for every `chi`, `psi`, every math library and every sample, each of
the four branches of `rotate_coord` (both inputs complex, only `ux` complex, only
`uy` complex, both real) returns what the single complex formula
`rotate_coord_unified` returns on the same inputs with the imaginary part of a
real-valued input taken as zero. -/
theorem rotate_coord_branches_unified {nt : ℕ} (M : Libm ℝ) (chi psi : ℝ)
    (xr xi yr yi : Fin nt → ℝ) :
    rotate_coord M ⟨xr, some xi⟩ ⟨yr, some yi⟩ chi psi
      = rotate_coord_unified M (fun jj => (xr jj, xi jj)) (fun jj => (yr jj, yi jj)) chi psi ∧
    rotate_coord M ⟨xr, some xi⟩ ⟨yr, none⟩ chi psi
      = rotate_coord_unified M (fun jj => (xr jj, xi jj)) (fun jj => (yr jj, 0)) chi psi ∧
    rotate_coord M ⟨xr, none⟩ ⟨yr, some yi⟩ chi psi
      = rotate_coord_unified M (fun jj => (xr jj, 0)) (fun jj => (yr jj, yi jj)) chi psi ∧
    rotate_coord M ⟨xr, none⟩ ⟨yr, none⟩ chi psi
      = rotate_coord_unified M (fun jj => (xr jj, 0)) (fun jj => (yr jj, 0)) chi psi := by
  refine ⟨?_, ?_, ?_, ?_⟩ <;>
    refine Prod.ext (funext fun jj => Prod.ext ?_ ?_) (funext fun jj => Prod.ext ?_ ?_) <;>
    simp only [rotate_coord, rotate_coord_unified, cmul, Prod.fst_add, Prod.snd_add] <;> ring

/-! ### Order of the frequency grid -/

/-- C27: for every `nt ≥ 1` and `dt > 0` the grid both propagators build is in
the order of the discrete Fourier transform: `w[0] = 0`; `w[k] > 0` and `w`
strictly increasing on `1 ≤ k ≤ (nt-1)/2`; `w[k] < 0` for every index
`(nt-1)/2 < k < nt`; and for even `nt` the index `nt/2` holds `-π/dt`. -/
theorem frequency_grid_order {nt : ℕ} (hnt : 0 < nt) (dt : ℝ) (hdt : 0 < dt)
    (w0 w0' : Fin nt → ℝ) :
    let M : Libm ℝ := ⟨Real.cos, Real.sin, Real.exp, Real.sqrt, Real.pi⟩
    ∃ w : Fin nt → ℝ, Sspropc.wspace M w0 dt = some w ∧ Sspropvc.compute_w M w0' dt = some w ∧
      w ⟨0, hnt⟩ = 0 ∧
      (∀ k : Fin nt, 1 ≤ k.val → k.val ≤ (nt - 1) / 2 → 0 < w k) ∧
      (∀ j k : Fin nt, 1 ≤ j.val → j.val < k.val → k.val ≤ (nt - 1) / 2 → w j < w k) ∧
      (∀ k : Fin nt, (nt - 1) / 2 < k.val → w k < 0) ∧
      (∀ k : Fin nt, nt % 2 = 0 → k.val = nt / 2 → w k = -Real.pi / dt) := by
  intro M
  have hN : (0 : ℝ) < (nt : ℝ) := by exact_mod_cast hnt
  have hpi := Real.pi_pos
  have hden : 0 < dt * (nt : ℝ) := mul_pos hdt hN
  refine ⟨wgrid M nt dt, wspace_eq hnt w0 dt, compute_w_eq hnt w0' dt, ?_, ?_, ?_, ?_, ?_⟩
  · simp [wgrid]
  · intro k h1 h2
    have hk : (0 : ℝ) < (k.val : ℝ) := by exact_mod_cast h1
    simp only [wgrid, if_pos h2, M]
    positivity
  · intro j k h1 hjk h2
    have hj2 : j.val ≤ (nt - 1) / 2 := by omega
    have hlt : (j.val : ℝ) < (k.val : ℝ) := by exact_mod_cast hjk
    simp only [wgrid, if_pos h2, if_pos hj2, M]
    apply div_lt_div_of_pos_right _ hden
    nlinarith
  · intro k hk
    have hkN : (k.val : ℝ) < (nt : ℝ) := by exact_mod_cast k.isLt
    simp only [wgrid, if_neg (not_le.mpr hk), M]
    have e : 2 * Real.pi * (k.val : ℝ) / (dt * (nt : ℝ)) - 2 * Real.pi / dt
        = 2 * Real.pi * ((k.val : ℝ) - (nt : ℝ)) / (dt * (nt : ℝ)) := by
      field_simp
      ring
    rw [e]
    apply div_neg_of_neg_of_pos _ hden
    nlinarith
  · intro k heven hk
    have hgt : ¬ k.val ≤ (nt - 1) / 2 := by omega
    have h2k : (nt : ℝ) = 2 * (k.val : ℝ) := by
      have : nt = 2 * k.val := by omega
      exact_mod_cast this
    simp only [wgrid, if_neg hgt, M]
    rw [h2k]
    have hk0 : (0 : ℝ) < (k.val : ℝ) := by
      have : 0 < k.val := by omega
      exact_mod_cast this
    field_simp
    ring

/-- C27 at a concrete input: `nt = 8`, `dt = 1 / 2`. -/
theorem frequency_grid_order_witness :
    0 < 8 ∧ (0 : ℝ) < 1 / 2 ∧
    (let M : Libm ℝ := ⟨Real.cos, Real.sin, Real.exp, Real.sqrt, Real.pi⟩
     ∃ w : Fin 8 → ℝ, Sspropc.wspace M (fun _ => 0) (1 / 2) = some w ∧
       Sspropvc.compute_w M (fun _ => 0) (1 / 2) = some w ∧
       w ⟨0, by decide⟩ = 0 ∧
       (∀ k : Fin 8, 1 ≤ k.val → k.val ≤ (8 - 1) / 2 → 0 < w k) ∧
       (∀ j k : Fin 8, 1 ≤ j.val → j.val < k.val → k.val ≤ (8 - 1) / 2 → w j < w k) ∧
       (∀ k : Fin 8, (8 - 1) / 2 < k.val → w k < 0) ∧
       (∀ k : Fin 8, 8 % 2 = 0 → k.val = 8 / 2 → w k = -Real.pi / (1 / 2))) :=
  ⟨by decide, by norm_num,
    frequency_grid_order (by decide) (1 / 2) (by norm_num) (fun _ => 0) (fun _ => 0)⟩

/-! ### The Raman and self-steepening terms -/

open Sspropc in
/-- C23: on the general path of the scalar propagator, for every interior
sample `j` (so `1 ≤ j` and `j + 1 < nt`) the value stored is
`uv[j] = apply_nlp(uhalf[j], nlp)` with `nlp` accumulated from the samples
`j-1`, `j`, `j+1` of `u0` and of `u1`: its real part is `gamma·dz/2` times the
sum over the two snapshots of `|u_curr|² - tauR·(|u_next|² - |u_prev|²)/(2·dt) +
tauOpt·(Im(conj(u_curr)·u_next) - Im(conj(u_curr)·u_prev))/(4π·dt)`, and its
imaginary part is `gamma·dz/2` times the sum over the two snapshots of
`-tauOpt·(|u_next|² - |u_prev|² + Re(u_curr·conj(u_next)) -
Re(u_curr·conj(u_prev)))/(4π·dt)`. -/
theorem raman_interior_nlp {nt : ℕ} (gamma dz traman toptical dt : ℝ) (ws : Workspace ℝ nt)
    (j : Fin nt) (hprev : 1 ≤ j.val) (hnext : j.val + 1 < nt) :
    let M : Libm ℝ := ⟨Real.cos, Real.sin, Real.exp, Real.sqrt, Real.pi⟩
    let prev : Fin nt := ⟨j.val - 1, by omega⟩
    let next : Fin nt := ⟨j.val + 1, hnext⟩
    let re : CVec ℝ nt → ℝ := fun u =>
      Complex.normSq (toC (u j)) -
        traman * (Complex.normSq (toC (u next)) - Complex.normSq (toC (u prev))) / (2 * dt) +
        toptical * (((starRingEnd ℂ) (toC (u j)) * toC (u next)).im -
          ((starRingEnd ℂ) (toC (u j)) * toC (u prev)).im) / (4 * Real.pi * dt)
    let im : CVec ℝ nt → ℝ := fun u =>
      -toptical * (Complex.normSq (toC (u next)) - Complex.normSq (toC (u prev)) +
          (toC (u j) * (starRingEnd ℂ) (toC (u next))).re -
          (toC (u j) * (starRingEnd ℂ) (toC (u prev))).re) / (4 * Real.pi * dt)
    ∃ (ws' : Workspace ℝ nt) (nlp : COMPLEX ℝ),
      general_path M gamma dz traman toptical dt ws = some ws' ∧
      ws'.uv j = apply_nlp M nt (ws.uhalf j) nlp ∧
      nlp = nlp_scaled M gamma dz traman toptical dt (ws.u0 prev) (ws.u0 j) (ws.u0 next)
        (ws.u1 prev) (ws.u1 j) (ws.u1 next) ∧
      nlp.1 = gamma * dz / 2 * (re ws.u0 + re ws.u1) ∧
      nlp.2 = gamma * dz / 2 * (im ws.u0 + im ws.u1) := by
  intro M prev next re im
  have hp : prevIdx j = prev := Fin.ext (prevIdx_val_of_pos j hprev)
  have hn : nextIdx j = next := Fin.ext (nextIdx_val_of_lt j hnext)
  refine ⟨_, _, general_path_eq M gamma dz traman toptical dt ws (by omega), ?_, rfl, ?_, ?_⟩
  · show apply_nlp M nt (ws.uhalf j) (nlpAt M gamma dz traman toptical dt ws.u0 ws.u1 j) = _
    unfold nlpAt
    rw [hp, hn]
  · simp only [nlp_scaled, nlp_term, re, M, normSq_toC, abs2, prodi, toC_re, toC_im,
      Complex.mul_im, Complex.conj_re, Complex.conj_im]
    ring
  · simp only [nlp_scaled, nlp_term, im, M, normSq_toC, abs2, prodr, toC_re, toC_im,
      Complex.mul_re, Complex.conj_re, Complex.conj_im]
    ring

open Sspropc in
/-- C23 at a concrete input: three samples, the interior sample `j = 1`. -/
theorem raman_interior_nlp_witness :
    1 ≤ (1 : Fin 3).val ∧ (1 : Fin 3).val + 1 < 3 ∧
    (let ws : Workspace ℝ 3 :=
       ⟨![(1, 0), (0, 1), (1, 1)], fun _ => 0, fun _ => (3, 0), fun _ => 0,
         ![(1, 0), (0, 2), (1, 1)], fun _ => 0⟩
     ∃ (ws' : Workspace ℝ 3) (nlp : COMPLEX ℝ),
      general_path ⟨Real.cos, Real.sin, Real.exp, Real.sqrt, Real.pi⟩ 1 1 1 1 1 ws = some ws' ∧
      ws'.uv 1 = apply_nlp ⟨Real.cos, Real.sin, Real.exp, Real.sqrt, Real.pi⟩ 3 (ws.uhalf 1)
        nlp ∧
      nlp = nlp_scaled ⟨Real.cos, Real.sin, Real.exp, Real.sqrt, Real.pi⟩ 1 1 1 1 1
        (ws.u0 ⟨1 - 1, by decide⟩) (ws.u0 1) (ws.u0 ⟨1 + 1, by decide⟩)
        (ws.u1 ⟨1 - 1, by decide⟩) (ws.u1 1) (ws.u1 ⟨1 + 1, by decide⟩)) :=
  ⟨by decide, by decide,
    let ⟨ws', nlp, h1, h2, h3, _⟩ := raman_interior_nlp 1 1 1 1 1
      (⟨![(1, 0), (0, 1), (1, 1)], fun _ => 0, fun _ => (3, 0), fun _ => 0,
        ![(1, 0), (0, 2), (1, 1)], fun _ => 0⟩ : Workspace ℝ 3) 1 (by decide) (by decide)
    ⟨ws', nlp, h1, h2, h3⟩⟩

/-! ### Array accesses of the general nonlinear branch -/

open Sspropc in
/-- C24 at an input where the code departs from it: one sample. For every
workspace of length 1 the first block of the general branch sets `uc = &u0[1]`
and reads it, outside the buffer `u0[0..0]`, so the branch does not complete;
the run `u0 = [1]`, `dt = dz = 1`, `nz = 1`, `alpha = [0]`, `beta = [0]`,
`gamma = 1`, `traman = 1`, `toptical = 0`, `maxiter = 4`, `tol = 1e-5` stops
on that access. -/
theorem raman_single_sample_out_of_bounds :
    (∀ (M : Libm ℝ) (gamma dz traman toptical dt : ℝ) (ws : Workspace ℝ 1),
      rd ws.u0 (0 + 1) = none ∧ general_path M gamma dz traman toptical dt ws = none) ∧
    propagate ⟨Real.cos, Real.sin, Real.exp, Real.sqrt, Real.pi⟩
        (dft ⟨Real.cos, Real.sin, Real.exp, Real.sqrt, Real.pi⟩ 1) ⟨![1], none⟩ 1 1 1 [0] [0]
        1 1 0 4 (1 / 100000) (fun _ => 0)
        ⟨fun _ => 0, fun _ => 0, fun _ => 0, fun _ => 0, fun _ => 0, fun _ => 0⟩
      = .error .outOfBounds := by
  refine ⟨fun M gamma dz traman toptical dt ws =>
    ⟨rd_none ws.u0 (0 + 1) (Or.inr (by norm_num)),
      general_path_single_sample M gamma dz traman toptical dt ws⟩, ?_⟩
  have hlen : ([0] : List ℝ).length = 1 ∨ ([0] : List ℝ).length = 1 := Or.inl rfl
  unfold propagate
  rw [dif_pos hlen]
  simp only [wspace_eq (by decide : 0 < 1)]
  have hz : ∀ ws : Workspace ℝ 1,
      zstep ⟨Real.cos, Real.sin, Real.exp, Real.sqrt, Real.pi⟩
        (dft ⟨Real.cos, Real.sin, Real.exp, Real.sqrt, Real.pi⟩ 1) 1 1 1 0 1 (1 / 100000) 4 ws
        = none := by
    intro ws
    have hi : ∀ ws : Workspace ℝ 1,
        iterate ⟨Real.cos, Real.sin, Real.exp, Real.sqrt, Real.pi⟩
          (dft ⟨Real.cos, Real.sin, Real.exp, Real.sqrt, Real.pi⟩ 1) 1 1 1 0 1 (1 / 100000) ws
          = none := by
      intro ws
      unfold iterate
      rw [if_neg (by norm_num), general_path_single_sample]
      rfl
    unfold zstep
    have h4 : (4 : ℤ).toNat = 3 + 1 := rfl
    rw [h4]
    unfold forLoop
    simp only [hi]
  have h1 : (1 : ℤ).toNat = 0 + 1 := rfl
  rw [h1]
  unfold zloop
  simp only [hz]

/-! ### The number of iterations of a step -/

open Sspropvc in
/-- C28 at an input where the code departs from it: the vector propagator with
`maxiter = 0`. For every `maxiter ≤ 0` the `do ... while` loop evaluates its body,
and with it `nonlinear_propagate`, once. On one sample with `u0x = [1]`,
`u0y = [0]`, `dt = dz = 1`, `nz = 1`, all coefficient lists `[0]`, `gamma = 1`,
`psi = chi = 0`, elliptical method, `maxiter = 0`, the run returns
`u1x = [cos 1 - i·sin 1]`, not the input that zero evaluations would leave,
without a warning. -/
theorem vector_iterates_at_maxiter_zero :
    (∀ (nt : ℕ) (body : Workspace ℝ nt → Workspace ℝ nt × Bool) (maxiter : ℤ)
        (ws : Workspace ℝ nt), maxiter ≤ 0 →
      doWhile body maxiter (maxiter - 1).toNat 0 ws = (1, (body ws).1)) ∧
    propagate ⟨Real.cos, Real.sin, Real.exp, Real.sqrt, Real.pi⟩
        (dft ⟨Real.cos, Real.sin, Real.exp, Real.sqrt, Real.pi⟩ 1)
        ⟨![1], none⟩ ⟨![0], none⟩ 1 1 1 [0] [0] [0] [0] 1 0 0 true 0 (1 / 100000)
        (fun _ => 0)
        ⟨fun _ => 0, fun _ => 0, fun _ => 0, fun _ => 0, fun _ => 0, fun _ => 0,
          fun _ => 0, fun _ => 0, fun _ => 0, fun _ => 0⟩
      = .ok ((⟨fun _ => Real.cos 1, some fun _ => -Real.sin 1⟩,
          ⟨fun _ => 0, some fun _ => 0⟩), [false]) ∧
    -Real.sin 1 ≠ 0 := by
  refine ⟨fun nt body maxiter ws hm => doWhile_nonpos body maxiter hm ws, ?_, ?_⟩
  · have e : (3 : ℝ)⁻¹ * ((2 + 1) / 2 * (1 + 1)) = 1 := by norm_num
    simp only [propagate, compute_w_eq (by decide : 0 < 1)]
    simp [elliptical_method, method_branch, zloop, zstep, doWhile, iterate,
      nonlinear_propagate, prop_linear_ellipt, dft_one_forward, dft_one_backward, cscale,
      rotate_coord, inv_rotate_coord, compute_hahb, coefAt, abs2, e]
  · have hpos : 0 < Real.sin 1 :=
      Real.sin_pos_of_pos_of_lt_pi one_pos (by linarith [Real.pi_gt_three])
    linarith

/-! ### The frequency-domain buffer at the start of every step -/

/-- C29: with a linear provider whose forward transform undoes its unnormalized
inverse up to the factor `nt`, on `nt ≥ 1` samples and for every `maxiter`: in
the scalar propagator (pure-Kerr branch, or general branch on at least two
samples) the workspace entering the z loop and the workspace after any number
`n` of steps, which is the one the next step starts from, has
`ufft = fft(u0)`; in the vector propagator, for either method's linear
propagation `lin`, it has `uafft = fft(u0a)` and `ubfft = fft(u0b)`, where the
workspace entering the loop is the one `method_branch` builds. The forward
transform of the field itself is executed only before the loop. -/
theorem spectrum_buffer_invariant {nt : ℕ} (hnt : 0 < nt) (M : Libm ℝ) (P : Fftw ℝ nt)
    (hlin : P.Linear) (hfb : P.ForwardBackward) (gamma dz traman toptical dt tol chi psi : ℝ)
    (maxiter nz : ℤ) (hcase : (traman = 0 ∧ toptical = 0) ∨ 2 ≤ nt)
    (u u0x u0y : mxArray ℝ nt) (alphap beta : List ℝ)
    (hlen : alphap.length = 1 ∨ alphap.length = nt) (w : Fin nt → ℝ)
    (lin : CVec ℝ nt → CVec ℝ nt → CVec ℝ nt × CVec ℝ nt)
    (wss : Sspropc.Workspace ℝ nt) (wsv : Sspropvc.Workspace ℝ nt) :
    let ws0 : Sspropc.Workspace ℝ nt :=
      { Sspropc.setup M u alphap beta hlen w dz wss with
        ufft := P.forward (Sspropc.setup M u alphap beta hlen w dz wss).u0 }
    let wv0 : Sspropvc.Workspace ℝ nt :=
      { wsv with
        u0a := (Sspropvc.rotate_coord M u0x u0y chi psi).1
        u0b := (Sspropvc.rotate_coord M u0x u0y chi psi).2
        u1a := (Sspropvc.cscale (Sspropvc.rotate_coord M u0x u0y chi psi).1
          (Sspropvc.rotate_coord M u0x u0y chi psi).2 1).1
        u1b := (Sspropvc.cscale (Sspropvc.rotate_coord M u0x u0y chi psi).1
          (Sspropvc.rotate_coord M u0x u0y chi psi).2 1).2
        uafft := P.forward (Sspropvc.rotate_coord M u0x u0y chi psi).1
        ubfft := P.forward (Sspropvc.rotate_coord M u0x u0y chi psi).2 }
    (∀ n : ℕ, ∃ r,
      Sspropc.zloop (Sspropc.zstep M P gamma dz traman toptical dt tol maxiter) n ws0
        = some r ∧
      r.1.ufft = P.forward r.1.u0) ∧
    Sspropvc.method_branch M P lin chi psi gamma dz tol maxiter nz u0x u0y wsv
      = (Sspropvc.inv_rotate_coord M
          (Sspropvc.zloop (Sspropvc.zstep M P lin chi gamma dz tol maxiter) nz.toNat wv0).1.u1a
          (Sspropvc.zloop (Sspropvc.zstep M P lin chi gamma dz tol maxiter) nz.toNat wv0).1.u1b
          chi psi,
        (Sspropvc.zloop (Sspropvc.zstep M P lin chi gamma dz tol maxiter) nz.toNat wv0).2) ∧
    (∀ n : ℕ,
      (Sspropvc.zloop (Sspropvc.zstep M P lin chi gamma dz tol maxiter) n wv0).1.uafft
        = P.forward
          (Sspropvc.zloop (Sspropvc.zstep M P lin chi gamma dz tol maxiter) n wv0).1.u0a ∧
      (Sspropvc.zloop (Sspropvc.zstep M P lin chi gamma dz tol maxiter) n wv0).1.ubfft
        = P.forward
          (Sspropvc.zloop (Sspropvc.zstep M P lin chi gamma dz tol maxiter) n wv0).1.u0b) := by
  intro ws0 wv0
  refine ⟨?_, rfl, ?_⟩
  · intro n
    obtain ⟨r, hr, h1, -⟩ := zloop_inv
      (Sspropc.zstep M P gamma dz traman toptical dt tol maxiter)
      (fun _ v => v.ufft = P.forward v.u0 ∧ v.u1 = v.u0)
      (fun _ v hv => by
        obtain ⟨r, hr, h1, h2⟩ := zstep_spectrum hnt M P hlin hfb gamma dz traman toptical dt
          tol maxiter hcase v hv.1 hv.2
        exact ⟨r, hr, h1, h2⟩)
      n 0 ws0 ⟨rfl, rfl⟩
    exact ⟨r, hr, h1⟩
  · intro n
    exact vector_zloop_inv (Sspropvc.zstep M P lin chi gamma dz tol maxiter)
      (fun v => v.uafft = P.forward v.u0a ∧ v.ubfft = P.forward v.u0b)
      (fun v _ => vector_zstep_spectrum hnt M P hlin hfb lin chi gamma dz tol maxiter v)
      n wv0 ⟨rfl, rfl⟩

/-- C29 at a concrete input: the two-point transform, two samples,
`maxiter = 4`, `nz = 3`, general-branch parameters in the scalar propagator and
elliptical propagation with `ha = hb = 1` in the vector propagator. -/
theorem spectrum_buffer_invariant_witness :
    (0 < 2 ∧ (dft2 : Fftw ℝ 2).Linear ∧ (dft2 : Fftw ℝ 2).ForwardBackward ∧
      (((1 : ℝ) = 0 ∧ (1 : ℝ) = 0) ∨ 2 ≤ 2) ∧
      (([0] : List ℝ).length = 1 ∨ ([0] : List ℝ).length = 2)) ∧
    (let M : Libm ℝ := ⟨Real.cos, Real.sin, Real.exp, Real.sqrt, Real.pi⟩
    let u : mxArray ℝ 2 := ⟨![1, 2], none⟩
    let u0x : mxArray ℝ 2 := ⟨![1, 2], none⟩
    let u0y : mxArray ℝ 2 := ⟨![3, 4], none⟩
    let lin : CVec ℝ 2 → CVec ℝ 2 → CVec ℝ 2 × CVec ℝ 2 :=
      Sspropvc.prop_linear_ellipt (fun _ => (1, 0)) (fun _ => (1, 0))
    let wss : Sspropc.Workspace ℝ 2 :=
      ⟨fun _ => 0, fun _ => 0, fun _ => 0, fun _ => 0, fun _ => 0, fun _ => 0⟩
    let wsv : Sspropvc.Workspace ℝ 2 :=
      ⟨fun _ => 0, fun _ => 0, fun _ => 0, fun _ => 0, fun _ => 0, fun _ => 0,
        fun _ => 0, fun _ => 0, fun _ => 0, fun _ => 0⟩
    let ws0 : Sspropc.Workspace ℝ 2 :=
      { Sspropc.setup M u [0] [0, 0, 1] (Or.inl rfl) (fun _ => 0) 1 wss with
        ufft := dft2.forward
          (Sspropc.setup M u [0] [0, 0, 1] (Or.inl rfl) (fun _ => 0) 1 wss).u0 }
    let wv0 : Sspropvc.Workspace ℝ 2 :=
      { wsv with
        u0a := (Sspropvc.rotate_coord M u0x u0y 0 0).1
        u0b := (Sspropvc.rotate_coord M u0x u0y 0 0).2
        u1a := (Sspropvc.cscale (Sspropvc.rotate_coord M u0x u0y 0 0).1
          (Sspropvc.rotate_coord M u0x u0y 0 0).2 1).1
        u1b := (Sspropvc.cscale (Sspropvc.rotate_coord M u0x u0y 0 0).1
          (Sspropvc.rotate_coord M u0x u0y 0 0).2 1).2
        uafft := dft2.forward (Sspropvc.rotate_coord M u0x u0y 0 0).1
        ubfft := dft2.forward (Sspropvc.rotate_coord M u0x u0y 0 0).2 }
    (∀ n : ℕ, ∃ r,
      Sspropc.zloop (Sspropc.zstep M dft2 1 1 1 1 1 (1 / 100000) 4) n ws0 = some r ∧
      r.1.ufft = dft2.forward r.1.u0) ∧
    Sspropvc.method_branch M dft2 lin 0 0 1 1 (1 / 100000) 4 3 u0x u0y wsv
      = (Sspropvc.inv_rotate_coord M
          (Sspropvc.zloop (Sspropvc.zstep M dft2 lin 0 1 1 (1 / 100000) 4)
            (3 : ℤ).toNat wv0).1.u1a
          (Sspropvc.zloop (Sspropvc.zstep M dft2 lin 0 1 1 (1 / 100000) 4)
            (3 : ℤ).toNat wv0).1.u1b
          0 0,
        (Sspropvc.zloop (Sspropvc.zstep M dft2 lin 0 1 1 (1 / 100000) 4)
          (3 : ℤ).toNat wv0).2) ∧
    (∀ n : ℕ,
      (Sspropvc.zloop (Sspropvc.zstep M dft2 lin 0 1 1 (1 / 100000) 4) n wv0).1.uafft
        = dft2.forward
          (Sspropvc.zloop (Sspropvc.zstep M dft2 lin 0 1 1 (1 / 100000) 4) n wv0).1.u0a ∧
      (Sspropvc.zloop (Sspropvc.zstep M dft2 lin 0 1 1 (1 / 100000) 4) n wv0).1.ubfft
        = dft2.forward
          (Sspropvc.zloop (Sspropvc.zstep M dft2 lin 0 1 1 (1 / 100000) 4) n wv0).1.u0b)) :=
  ⟨⟨by decide, dft2_linear, dft2_forwardBackward, Or.inr (le_refl 2), Or.inl rfl⟩,
    spectrum_buffer_invariant (by decide) ⟨Real.cos, Real.sin, Real.exp, Real.sqrt, Real.pi⟩
      dft2 dft2_linear dft2_forwardBackward 1 1 1 1 1 (1 / 100000) 0 0 4 3
      (Or.inr (le_refl 2)) ⟨![1, 2], none⟩ ⟨![1, 2], none⟩ ⟨![3, 4], none⟩ [0] [0, 0, 1]
      (Or.inl rfl) (fun _ => 0)
      (Sspropvc.prop_linear_ellipt (fun _ => (1, 0)) (fun _ => (1, 0)))
      ⟨fun _ => 0, fun _ => 0, fun _ => 0, fun _ => 0, fun _ => 0, fun _ => 0⟩
      ⟨fun _ => 0, fun _ => 0, fun _ => 0, fun _ => 0, fun _ => 0, fun _ => 0,
        fun _ => 0, fun _ => 0, fun _ => 0, fun _ => 0⟩⟩

/-! ### The convergence diagnostic of the scalar propagator -/

open Sspropc in
/-- C30 fails for a negative `maxiter`, which the scalar propagator accepts
without a test of its sign (the argument -2 is rounded to -1). With
`maxiter = -1` on two samples every z step completes without a pass of the loop
body, so none of its passes met the convergence test, and yet its warning is not
raised: the loop leaves `ii = 0`, which differs from `maxiter`. A call with one
step returns its output with the warning list `[false]`. -/
theorem negative_maxiter_no_warning :
    let M : Libm ℝ := ⟨Real.cos, Real.sin, Real.exp, Real.sqrt, Real.pi⟩
    (∀ ws : Workspace ℝ 2, ∃ r,
      zstep M dft2 1 1 0 0 1 (1 / 100000) (-1) ws = some r ∧
      r.2 = false ∧
      (∀ k < (-1 : ℤ).toNat, ∃ s q,
        passes (iterate M dft2 1 1 0 0 1 (1 / 100000)) k
          { ws with uhalf := dft2.backward (cmult ws.halfstep ws.ufft) } = some s ∧
        iterate M dft2 1 1 0 0 1 (1 / 100000) s = some q ∧ q.2 = false) ∧
      ¬(r.2 = true ↔ ∀ k < (-1 : ℤ).toNat, ∃ s q,
        passes (iterate M dft2 1 1 0 0 1 (1 / 100000)) k
          { ws with uhalf := dft2.backward (cmult ws.halfstep ws.ufft) } = some s ∧
        iterate M dft2 1 1 0 0 1 (1 / 100000) s = some q ∧ q.2 = false)) ∧
    (∃ out, propagate M dft2 ⟨![1, 2], none⟩ 1 1 1 [0] [0] 1 0 0 (-1) (1 / 100000)
        (fun _ => 0)
        ⟨fun _ => 0, fun _ => 0, fun _ => 0, fun _ => 0, fun _ => 0, fun _ => 0⟩
      = .ok (out, [false])) ∧
    SSProp.round (-2 : ℝ) = -1 := by
  intro M
  have hz : ∀ ws : Workspace ℝ 2, ∃ r,
      zstep M dft2 1 1 0 0 1 (1 / 100000) (-1) ws = some r ∧ r.2 = false := by
    intro ws
    obtain ⟨r, hr, -, hneg, -⟩ :=
      zstep_warning M dft2 1 1 0 0 1 (1 / 100000) (-1) (Or.inr (le_refl 2)) ws
    exact ⟨r, hr, hneg (by decide)⟩
  have hvac : ∀ (Q : ℕ → Prop), ∀ k < (-1 : ℤ).toNat, Q k := by
    intro Q k hk
    have h0 : (-1 : ℤ).toNat = 0 := by decide
    rw [h0] at hk
    exact absurd hk (Nat.not_lt_zero k)
  refine ⟨?_, ?_, ?_⟩
  · intro ws
    obtain ⟨r, hr, hf⟩ := hz ws
    refine ⟨r, hr, hf, hvac _, ?_⟩
    intro hiff
    have ht := hiff.mpr (hvac _)
    rw [hf] at ht
    exact Bool.false_ne_true ht
  · have hlen : ([0] : List ℝ).length = 1 ∨ ([0] : List ℝ).length = 2 := Or.inl rfl
    unfold propagate
    rw [dif_pos hlen]
    simp only [M, wspace_eq (show 0 < 2 by decide)]
    obtain ⟨r, hr, hf⟩ := hz
      { setup M ⟨![1, 2], none⟩ [0] [0] hlen (wgrid M 2 1) 1
          ⟨fun _ => 0, fun _ => 0, fun _ => 0, fun _ => 0, fun _ => 0, fun _ => 0⟩ with
        ufft := dft2.forward (setup M ⟨![1, 2], none⟩ [0] [0] hlen (wgrid M 2 1) 1
          ⟨fun _ => 0, fun _ => 0, fun _ => 0, fun _ => 0, fun _ => 0, fun _ => 0⟩).u0 }
    simp only [M] at hr
    have h1 : ((1 : ℤ).toNat) = 0 + 1 := by decide
    rw [h1]
    simp only [zloop, hr, hf]
    exact ⟨_, rfl⟩
  · unfold SSProp.round
    rw [if_neg (by norm_num)]
    rw [Int.ceil_eq_iff]
    constructor <;> norm_num

open Sspropc in
/-- C30, amended: in the scalar propagator (pure-Kerr branch, or general branch
on at least two samples) every z step completes, and for a bound `maxiter ≥ 0`
its warning is raised if and only if each of the `maxiter` passes of the loop
body ran and returned `converged = false`, pass `k` starting from the workspace
the earlier passes left; for `maxiter < 0` no pass runs and no warning is
raised. Warned or not, the step ends with `u0 = u1`, the last estimate, and the
run goes on to the next step: a call on `nt ≥ 1` samples returns an output
together with one warning flag per step, `nz` of them. -/
theorem scalar_warning_iff {nt : ℕ} (hnt : 0 < nt) (P : Fftw ℝ nt) (u : mxArray ℝ nt)
    (dt dz gamma traman toptical tol : ℝ) (nz maxiter : ℤ)
    (hcase : (traman = 0 ∧ toptical = 0) ∨ 2 ≤ nt) (alphap beta : List ℝ)
    (hlen : alphap.length = 1 ∨ alphap.length = nt) (w0 : Fin nt → ℝ)
    (ws0 : Workspace ℝ nt) :
    let M : Libm ℝ := ⟨Real.cos, Real.sin, Real.exp, Real.sqrt, Real.pi⟩
    (∀ ws : Workspace ℝ nt,
      ∃ r, zstep M P gamma dz traman toptical dt tol maxiter ws = some r ∧
        (0 ≤ maxiter →
          (r.2 = true ↔ ∀ k < maxiter.toNat, ∃ s q,
            passes (iterate M P gamma dz traman toptical dt tol) k
              { ws with uhalf := P.backward (cmult ws.halfstep ws.ufft) } = some s ∧
            iterate M P gamma dz traman toptical dt tol s = some q ∧ q.2 = false)) ∧
        (maxiter < 0 → r.2 = false) ∧
        r.1.u0 = r.1.u1) ∧
    ∃ out warn,
      propagate M P u dt dz nz alphap beta gamma traman toptical maxiter tol w0 ws0
        = .ok (out, warn) ∧
      warn.length = nz.toNat := by
  intro M
  refine ⟨fun ws => zstep_warning M P gamma dz traman toptical dt tol maxiter hcase ws, ?_⟩
  obtain ⟨r, hr, -⟩ := zloop_inv (zstep M P gamma dz traman toptical dt tol maxiter)
    (fun _ _ => True)
    (fun _ v _ => by
      obtain ⟨r, hr, -⟩ := zstep_warning M P gamma dz traman toptical dt tol maxiter hcase v
      exact ⟨r, hr, trivial⟩)
    nz.toNat 0
    { setup M u alphap beta hlen (wgrid M nt dt) dz ws0 with
      ufft := P.forward (setup M u alphap beta hlen (wgrid M nt dt) dz ws0).u0 } trivial
  refine ⟨⟨fun jj => (r.1.u1 jj).1, some fun jj => (r.1.u1 jj).2⟩, r.2, ?_,
    zloop_length _ _ _ _ hr⟩
  unfold propagate
  rw [dif_pos hlen]
  simp only [M, wspace_eq hnt]
  simp only [M] at hr
  simp only [hr]

open Sspropc in
/-- C30 amended, at a concrete input: two samples, the two-point transform,
`nz = 3`, `maxiter = 4`, general-branch parameters. -/
theorem scalar_warning_iff_witness :
    (0 < 2 ∧ (((1 : ℝ) = 0 ∧ (0 : ℝ) = 0) ∨ 2 ≤ 2) ∧
      (([0] : List ℝ).length = 1 ∨ ([0] : List ℝ).length = 2)) ∧
    (let M : Libm ℝ := ⟨Real.cos, Real.sin, Real.exp, Real.sqrt, Real.pi⟩
    (∀ ws : Workspace ℝ 2,
      ∃ r, zstep M dft2 1 1 1 0 1 (1 / 100000) 4 ws = some r ∧
        ((0 : ℤ) ≤ 4 →
          (r.2 = true ↔ ∀ k < (4 : ℤ).toNat, ∃ s q,
            passes (iterate M dft2 1 1 1 0 1 (1 / 100000)) k
              { ws with uhalf := dft2.backward (cmult ws.halfstep ws.ufft) } = some s ∧
            iterate M dft2 1 1 1 0 1 (1 / 100000) s = some q ∧ q.2 = false)) ∧
        ((4 : ℤ) < 0 → r.2 = false) ∧
        r.1.u0 = r.1.u1) ∧
    ∃ out warn,
      propagate M dft2 ⟨![1, 2], none⟩ 1 1 3 [0] [0, 0, 1] 1 1 0 4 (1 / 100000) (fun _ => 0)
        ⟨fun _ => 0, fun _ => 0, fun _ => 0, fun _ => 0, fun _ => 0, fun _ => 0⟩
        = .ok (out, warn) ∧
      warn.length = (3 : ℤ).toNat) :=
  ⟨⟨by decide, Or.inr (le_refl 2), Or.inl rfl⟩,
    scalar_warning_iff (by decide) dft2 ⟨![1, 2], none⟩ 1 1 1 1 0 (1 / 100000) 3 4
      (Or.inr (le_refl 2)) [0] [0, 0, 1] (Or.inl rfl) (fun _ => 0)
      ⟨fun _ => 0, fun _ => 0, fun _ => 0, fun _ => 0, fun _ => 0, fun _ => 0⟩⟩

/-! ### The general nonlinear branch without Raman and self-steepening terms -/

open Sspropc in
/-- C32: over exact reals, for every `nt ≥ 2`, every workspace (`u0`, `u1`,
`uhalf`), every `gamma`, `dz` and every `dt ≠ 0`, the general branch evaluated
with `traman = 0` and `toptical = 0` completes and leaves exactly the workspace
the pure-Kerr branch leaves; at every sample
`uv[j] = uhalf[j]·exp(-i·gamma·(|u0[j]|² + |u1[j]|²)·dz/2)/nt`. -/
theorem general_path_without_raman {nt : ℕ} (h2 : 2 ≤ nt) (gamma dz dt : ℝ) (_hdt : dt ≠ 0)
    (ws : Workspace ℝ nt) :
    let M : Libm ℝ := ⟨Real.cos, Real.sin, Real.exp, Real.sqrt, Real.pi⟩
    general_path M gamma dz 0 0 dt ws = some (kerr_path M gamma dz ws) ∧
    ∀ j, toC ((kerr_path M gamma dz ws).uv j)
      = toC (ws.uhalf j) *
          Complex.exp (-(Complex.I *
            ((gamma * (Complex.normSq (toC (ws.u0 j)) + Complex.normSq (toC (ws.u1 j))) *
              dz / 2 : ℝ) : ℂ))) / (nt : ℂ) := by
  intro M
  constructor
  · rw [general_path_eq M gamma dz 0 0 dt ws h2]
    simp only [kerr_path, Option.some.injEq, Workspace.mk.injEq, true_and, and_true]
    funext j
    have hph : (abs2 (ws.u0 j) + abs2 (ws.u1 j)) * (gamma * dz / 2)
        = gamma * ((ws.u0 j).1 * (ws.u0 j).1 + (ws.u0 j).2 * (ws.u0 j).2 +
            (ws.u1 j).1 * (ws.u1 j).1 + (ws.u1 j).2 * (ws.u1 j).2) * dz / 2 := by
      unfold abs2
      ring
    simp only [nlpAt, nlp_scaled, nlp_term, apply_nlp, M, zero_mul, neg_zero, zero_div,
      sub_zero, add_zero, Real.exp_zero, mul_one, hph]
  · intro j
    rw [normSq_toC, normSq_toC]
    exact toC_kerr_path gamma dz ws j

open Sspropc in
/-- C32 at a concrete input: two samples, `gamma = dz = dt = 1`. -/
theorem general_path_without_raman_witness :
    2 ≤ 2 ∧ (1 : ℝ) ≠ 0 ∧
    (let M : Libm ℝ := ⟨Real.cos, Real.sin, Real.exp, Real.sqrt, Real.pi⟩
     let ws : Workspace ℝ 2 :=
       { u0 := fun _ => (1, 0), ufft := fun _ => (0, 0), uhalf := fun _ => (2, 0),
         uv := fun _ => (0, 0), u1 := fun _ => (1, 0), halfstep := fun _ => (0, 0) }
     general_path M 1 1 0 0 1 ws = some (kerr_path M 1 1 ws)) :=
  ⟨le_refl 2, one_ne_zero,
    (general_path_without_raman (le_refl 2) 1 1 1 one_ne_zero
      { u0 := fun _ => (1, 0), ufft := fun _ => (0, 0), uhalf := fun _ => (2, 0),
        uv := fun _ => (0, 0), u1 := fun _ => (1, 0), halfstep := fun _ => (0, 0) }).1⟩

/-! ### The matrix of the circular method as a change of basis -/

open Sspropvc in
/-- C31: for every `chi`, `psi` and every complex `ha[k]`, `hb[k]`, the matrix
`H = [h11 h12; h21 h22]` that `compute_H` stores at index `k` is
`C · R⁻¹ · diag(ha, hb) · R · C⁻¹`, where `R` is the matrix of `rotate_coord` for
`(chi, psi)`, `C` the matrix of `rotate_coord` for `(π/4, 0)`, and `R⁻¹`, `C⁻¹`
the matrices of `inv_rotate_coord` for the same angles. These matrices are read
off the code, give the two functions at every sample, and are inverse to each
other. In particular `H = ha·I` when `ha = hb`, and `trace H = ha + hb`. -/
theorem compute_H_change_of_basis {nt : ℕ} (chi psi : ℝ) (ha hb : CVec ℝ nt) (k : Fin nt) :
    let M : Libm ℝ := ⟨Real.cos, Real.sin, Real.exp, Real.sqrt, Real.pi⟩
    let H : Matrix (Fin 2) (Fin 2) ℂ :=
      !![toC ((compute_H M ha hb chi psi).h11 k), toC ((compute_H M ha hb chi psi).h12 k);
         toC ((compute_H M ha hb chi psi).h21 k), toC ((compute_H M ha hb chi psi).h22 k)]
    let R : ℝ → ℝ → Matrix (Fin 2) (Fin 2) ℂ :=
      fun c p => Matrix.of fun i j => toC (rotate_matrix M c p i j)
    let Rinv : ℝ → ℝ → Matrix (Fin 2) (Fin 2) ℂ :=
      fun c p => Matrix.of fun i j => toC (inv_rotate_matrix M c p i j)
    H = R (Real.pi / 4) 0 * Rinv chi psi * Matrix.diagonal ![toC (ha k), toC (hb k)] *
          R chi psi * Rinv (Real.pi / 4) 0 ∧
    (∀ c p : ℝ, Rinv c p * R c p = 1 ∧ R c p * Rinv c p = 1) ∧
    (∀ (c p : ℝ) (n : ℕ) (ux uy : mxArray ℝ n) (jj : Fin n),
      (R c p).mulVec ![toC (ux.pr jj, ux.im jj), toC (uy.pr jj, uy.im jj)]
        = ![toC ((rotate_coord M ux uy c p).1 jj), toC ((rotate_coord M ux uy c p).2 jj)]) ∧
    (∀ (c p : ℝ) (n : ℕ) (u1a u1b : CVec ℝ n) (jj : Fin n),
      (Rinv c p).mulVec ![toC (u1a jj), toC (u1b jj)]
        = ![toC ((inv_rotate_coord M u1a u1b c p).1.pr jj,
                (inv_rotate_coord M u1a u1b c p).1.im jj),
            toC ((inv_rotate_coord M u1a u1b c p).2.pr jj,
                (inv_rotate_coord M u1a u1b c p).2.im jj)]) ∧
    (ha k = hb k → H = toC (ha k) • (1 : Matrix (Fin 2) (Fin 2) ℂ)) ∧
    H.trace = toC (ha k) + toC (hb k) := by
  intro M H R Rinv
  refine ⟨?_, fun c p => inv_rotate_matrix_mul c p,
    fun c p n ux uy jj => rotate_matrix_mulVec c p ux uy jj,
    fun c p n u1a u1b jj => inv_rotate_matrix_mulVec c p u1a u1b jj, ?_, ?_⟩
  · have hassoc : R (Real.pi / 4) 0 * Rinv chi psi *
          Matrix.diagonal ![toC (ha k), toC (hb k)] * R chi psi * Rinv (Real.pi / 4) 0
        = R (Real.pi / 4) 0 *
            (Rinv chi psi * Matrix.diagonal ![toC (ha k), toC (hb k)] * R chi psi) *
            Rinv (Real.pi / 4) 0 := by
      simp only [Matrix.mul_assoc]
    rw [hassoc]
    exact compute_H_conjugation chi psi ha hb k
  · intro hab
    rw [smul_one_fin_two]
    apply matrix_fin_two_congr <;> apply Complex.ext <;>
      simp only [compute_H, M, hab, toC_re, toC_im, Complex.zero_re, Complex.zero_im] <;> ring
  · rw [Matrix.trace_fin_two_of]
    apply Complex.ext <;>
      simp only [compute_H, M, toC_re, toC_im, Complex.add_re, Complex.add_im] <;> ring

end SSProp
